import Mathlib

/-!
# Request-construction layer: order builder and action facades

A verification development for `exchange_rest_req.go`.

The order builder is embedded over an explicit store: every Go pointer is an
optional address (`none` is `nil`), every pointee is a cell of the store, an
allocation appends a cell and an assignment through a pointer overwrites one.
A run-time panic (nil dereference) is the result `none`.
-/

namespace Hyperliquid

/-! ## Store -/

/-- A Go pointer: `none` is `nil`, `some a` is the address of a cell. -/
abbrev Ptr := Option Nat

/-- The record `OrderTypeLimit`: one pointer field. -/
structure OrderTypeLimit where
  Tif : Ptr := none
  deriving DecidableEq, Repr

/-- The record `OrderTypeTrigger`: three pointer fields. -/
structure OrderTypeTrigger where
  TriggerPx : Ptr := none
  IsMarket : Ptr := none
  Tpsl : Ptr := none
  deriving DecidableEq, Repr

/-- The record `OrderType`: a pointer to each branch. -/
structure OrderType where
  Limit : Ptr := none
  Trigger : Ptr := none
  deriving DecidableEq, Repr

/-- The record `Order`: seven pointer fields, in declaration order. -/
structure Order where
  Asset : Ptr := none
  IsBuy : Ptr := none
  Price : Ptr := none
  Size : Ptr := none
  ReduceOnly : Ptr := none
  OrderType : Ptr := none
  ClientOrderId : Ptr := none
  deriving DecidableEq, Repr

/-- The store, one region per pointee type: the cell of type `T` at address
`a` is the `a`-th element of the region of `T`. Go is type safe, so a `*T`
only ever leads into the region of `T`. -/
structure Heap where
  ints : List Int := []
  bools : List Bool := []
  strs : List String := []
  limits : List OrderTypeLimit := []
  triggers : List OrderTypeTrigger := []
  orderTypes : List OrderType := []
  orders : List Order := []
  deriving DecidableEq, Repr

/-- A pointee type: where its cells live in the store. -/
class Region (α : Type) where
  cells : Heap → List α
  put : Heap → List α → Heap

instance regionInt : Region Int := ⟨Heap.ints, fun h l => { h with ints := l }⟩

instance regionBool : Region Bool := ⟨Heap.bools, fun h l => { h with bools := l }⟩

instance regionStr : Region String := ⟨Heap.strs, fun h l => { h with strs := l }⟩

instance regionLimit : Region OrderTypeLimit :=
  ⟨Heap.limits, fun h l => { h with limits := l }⟩

instance regionTrigger : Region OrderTypeTrigger :=
  ⟨Heap.triggers, fun h l => { h with triggers := l }⟩

instance regionOrderType : Region OrderType :=
  ⟨Heap.orderTypes, fun h l => { h with orderTypes := l }⟩

instance regionOrder : Region Order := ⟨Heap.orders, fun h l => { h with orders := l }⟩

/-- Allocation of a new cell, `&T{...}`: the new address is the old size of
the region. -/
def alloc {α : Type} [Region α] (v : α) (h : Heap) : Nat × Heap :=
  ((Region.cells (α := α) h).length, Region.put h (Region.cells h ++ [v]))

/-- Modelled from the spec: `GetPointer` is declared outside this file; the
spec gives it as "given a value of any type, return an owned reference to a
copy of it". It allocates a cell holding the value. -/
def GetPointer {α : Type} [Region α] (v : α) (h : Heap) : Ptr × Heap :=
  (some (Region.cells (α := α) h).length, Region.put h (Region.cells h ++ [v]))

/-- Assignment through a pointer, `*p = v`: overwrite the cell at `a`; `none`
when `a` is not an address of the region. -/
def store {α : Type} [Region α] (a : Nat) (v : α) (h : Heap) : Option Heap :=
  if a < (Region.cells (α := α) h).length then some (Region.put h ((Region.cells h).set a v))
  else none

/-- Dereference, `*p`: the cell at `a`; `none` when `a` is not an address of
the region. -/
def deref {α : Type} [Region α] (h : Heap) (a : Nat) : Option α :=
  (Region.cells (α := α) h)[a]?

/-! ## Order builder -/

/-- The record `OrderBuilder`: a pointer to the order being accumulated. The
field is assigned once, by `NewOrderBuilder`, so the builder record itself is
kept as a value. -/
structure OrderBuilder where
  order : Ptr := none
  deriving DecidableEq, Repr

/-- `NewOrderBuilder()`: a builder over a newly allocated empty order. -/
def NewOrderBuilder (h : Heap) : OrderBuilder × Heap :=
  let (a, h1) := alloc ({} : Order) h
  ({ order := some a }, h1)

/-- The path `ob.order`: the address of the order and the record there. -/
def orderOf (ob : OrderBuilder) (h : Heap) : Option (Nat × Order) := do
  let a ← ob.order
  let o ← deref h a
  pure (a, (o : Order))

/-- The path `ob.order.OrderType`: its address and the record there. -/
def orderTypeOf (ob : OrderBuilder) (h : Heap) : Option (Nat × OrderType) := do
  let (_, o) ← orderOf ob h
  let t ← o.OrderType
  let ot ← deref h t
  pure (t, ot)

/-- The path `ob.order.OrderType.Limit`: its address and the record there. -/
def limitOf (ob : OrderBuilder) (h : Heap) : Option (Nat × OrderTypeLimit) := do
  let (_, ot) ← orderTypeOf ob h
  let l ← ot.Limit
  let lim ← deref h l
  pure (l, lim)

/-- The path `ob.order.OrderType.Trigger`: its address and the record there. -/
def triggerOf (ob : OrderBuilder) (h : Heap) : Option (Nat × OrderTypeTrigger) := do
  let (_, ot) ← orderTypeOf ob h
  let r ← ot.Trigger
  let trig ← deref h r
  pure (r, trig)

/-- The statement `if src.F != nil { dst.F = GetPointer(*src.F) }` of
`Build` for a scalar field `F` of the order, selected by `get`. Returns the
value of `dst.F`. -/
def copyField (α : Type) [Region α] (get : Order → Ptr) (ob : OrderBuilder) (h : Heap) :
    Option (Ptr × Heap) := do
  let (_, src) ← orderOf ob h
  match get src with
  | none => pure (none, h)
  | some a =>
    let v ← deref (α := α) h a
    pure (GetPointer v h)

/-- The block `if src.OrderType.Limit != nil { ... }` of `Build`; `t` is the
address held by `dst.OrderType`. -/
def copyLimit (t : Nat) (ob : OrderBuilder) (h : Heap) : Option Heap := do
  let (_, sot) ← orderTypeOf ob h
  match sot.Limit with
  | none => pure h
  | some _ =>
    -- dst.OrderType.Limit = &OrderTypeLimit{}
    let (l, h) := alloc ({} : OrderTypeLimit) h
    let dot ← deref (α := OrderType) h t
    let h ← store t { dot with Limit := some l } h
    let (_, slim) ← limitOf ob h
    match slim.Tif with
    | none => pure h
    | some a =>
      -- dst.OrderType.Limit.Tif = GetPointer(*src.OrderType.Limit.Tif)
      let v ← deref (α := String) h a
      let (p, h) := GetPointer v h
      let dot ← deref (α := OrderType) h t
      let dl ← dot.Limit
      let dlim ← deref (α := OrderTypeLimit) h dl
      store dl { dlim with Tif := p } h

/-- One statement `if src.OrderType.Trigger.F != nil
{ dst.OrderType.Trigger.F = GetPointer(*src.OrderType.Trigger.F) }` of
`Build`: `get` selects the source field and `upd` assigns the destination
field; `t` is the address held by `dst.OrderType`. -/
def copyTriggerField (α : Type) [Region α] (get : OrderTypeTrigger → Ptr)
    (upd : OrderTypeTrigger → Ptr → OrderTypeTrigger)
    (t : Nat) (ob : OrderBuilder) (h : Heap) : Option Heap := do
  let (_, strig) ← triggerOf ob h
  match get strig with
  | none => pure h
  | some a =>
    let v ← deref (α := α) h a
    let (p, h) := GetPointer v h
    let dot ← deref (α := OrderType) h t
    let dt ← dot.Trigger
    let dtrig ← deref (α := OrderTypeTrigger) h dt
    store dt (upd dtrig p) h

/-- The block `if src.OrderType.Trigger != nil { ... }` of `Build`; `t` is
the address held by `dst.OrderType`. -/
def copyTrigger (t : Nat) (ob : OrderBuilder) (h : Heap) : Option Heap := do
  let (_, sot) ← orderTypeOf ob h
  match sot.Trigger with
  | none => pure h
  | some _ =>
    -- dst.OrderType.Trigger = &OrderTypeTrigger{}
    let (r, h) := alloc ({} : OrderTypeTrigger) h
    let dot ← deref (α := OrderType) h t
    let h ← store t { dot with Trigger := some r } h
    let h ← copyTriggerField String (fun s => s.TriggerPx)
      (fun d p => { d with TriggerPx := p }) t ob h
    let h ← copyTriggerField Bool (fun s => s.IsMarket)
      (fun d p => { d with IsMarket := p }) t ob h
    copyTriggerField String (fun s => s.Tpsl) (fun d p => { d with Tpsl := p }) t ob h

/-- The block `if src.OrderType != nil { ... }` of `Build`; returns the value
of `dst.OrderType`. -/
def copyOrderType (ob : OrderBuilder) (h : Heap) : Option (Ptr × Heap) := do
  let (_, src) ← orderOf ob h
  match src.OrderType with
  | none => pure (none, h)
  | some _ =>
    -- dst.OrderType = &OrderType{}
    let (t, h) := alloc ({} : OrderType) h
    let h ← copyLimit t ob h
    let h ← copyTrigger t ob h
    pure (some t, h)

/-- `(ob *OrderBuilder) Build()`: the returned `Order` (the local `dst`) and
the store after the call. -/
def Build (ob : OrderBuilder) (h : Heap) : Option (Order × Heap) := do
  let (asset, h) ← copyField Int (fun s => s.Asset) ob h
  let (isBuy, h) ← copyField Bool (fun s => s.IsBuy) ob h
  let (price, h) ← copyField String (fun s => s.Price) ob h
  let (size, h) ← copyField String (fun s => s.Size) ob h
  let (reduceOnly, h) ← copyField Bool (fun s => s.ReduceOnly) ob h
  let (cloid, h) ← copyField String (fun s => s.ClientOrderId) ob h
  let (orderType, h) ← copyOrderType ob h
  pure ({ Asset := asset, IsBuy := isBuy, Price := price, Size := size,
          ReduceOnly := reduceOnly, OrderType := orderType, ClientOrderId := cloid }, h)

/-- The assignment `ob.order.F = GetPointer(v)` shared by the six scalar
setters: `upd` assigns the field `F`. -/
def setField {α : Type} [Region α] (upd : Order → Ptr → Order) (v : α) (ob : OrderBuilder)
    (h : Heap) : Option Heap := do
  let (p, h) := GetPointer v h
  let (a, o) ← orderOf ob h
  store a (upd o p) h

/-- `(ob *OrderBuilder) Asset(asset int)`. -/
def Asset (ob : OrderBuilder) (asset : Int) (h : Heap) : Option Heap :=
  setField (fun o p => { o with Asset := p }) asset ob h

/-- `(ob *OrderBuilder) IsBuy(isBuy bool)`. -/
def IsBuy (ob : OrderBuilder) (isBuy : Bool) (h : Heap) : Option Heap :=
  setField (fun o p => { o with IsBuy := p }) isBuy ob h

/-- `(ob *OrderBuilder) Price(price string)`. -/
def Price (ob : OrderBuilder) (price : String) (h : Heap) : Option Heap :=
  setField (fun o p => { o with Price := p }) price ob h

/-- `(ob *OrderBuilder) Size(size string)`. -/
def Size (ob : OrderBuilder) (size : String) (h : Heap) : Option Heap :=
  setField (fun o p => { o with Size := p }) size ob h

/-- `(ob *OrderBuilder) ReduceOnly(reduceOnly bool)`. -/
def ReduceOnly (ob : OrderBuilder) (reduceOnly : Bool) (h : Heap) : Option Heap :=
  setField (fun o p => { o with ReduceOnly := p }) reduceOnly ob h

/-- `(ob *OrderBuilder) ClientOrderId(cloid string)`. -/
def ClientOrderId (ob : OrderBuilder) (cloid : String) (h : Heap) : Option Heap :=
  setField (fun o p => { o with ClientOrderId := p }) cloid ob h

/-- `(ob *OrderBuilder) ensureOrderType()`. -/
def ensureOrderType (ob : OrderBuilder) (h : Heap) : Option Heap := do
  let (a, o) ← orderOf ob h
  match o.OrderType with
  | some _ => pure h
  | none =>
    let (t, h) := alloc ({} : OrderType) h
    store a { o with OrderType := some t } h

/-- `(ob *OrderBuilder) ensureLimit()`. -/
def ensureLimit (ob : OrderBuilder) (h : Heap) : Option Heap := do
  let h ← ensureOrderType ob h
  let (t, ot) ← orderTypeOf ob h
  let h ← match ot.Limit with
    | some _ => pure h
    | none =>
      let (l, h) := alloc ({} : OrderTypeLimit) h
      store t { ot with Limit := some l } h
  -- ob.order.OrderType.Trigger = nil
  let (t, ot) ← orderTypeOf ob h
  store t { ot with Trigger := none } h

/-- `(ob *OrderBuilder) ensureTrigger()`. -/
def ensureTrigger (ob : OrderBuilder) (h : Heap) : Option Heap := do
  let h ← ensureOrderType ob h
  let (t, ot) ← orderTypeOf ob h
  let h ← match ot.Trigger with
    | some _ => pure h
    | none =>
      let (r, h) := alloc ({} : OrderTypeTrigger) h
      store t { ot with Trigger := some r } h
  -- ob.order.OrderType.Limit = nil
  let (t, ot) ← orderTypeOf ob h
  store t { ot with Limit := none } h

/-- `(ob *OrderBuilder) LimitTif(tif string)`. -/
def LimitTif (ob : OrderBuilder) (tif : String) (h : Heap) : Option Heap := do
  let h ← ensureLimit ob h
  let (p, h) := GetPointer tif h
  let (l, lim) ← limitOf ob h
  store l { lim with Tif := p } h

/-- `(ob *OrderBuilder) Trigger(isMarket bool, triggerPx string, tpsl string)`. -/
def Trigger (ob : OrderBuilder) (isMarket : Bool) (triggerPx : String) (tpsl : String)
    (h : Heap) : Option Heap := do
  let h ← ensureTrigger ob h
  let (p, h) := GetPointer isMarket h
  let (r, trig) ← triggerOf ob h
  let h ← store r { trig with IsMarket := p } h
  let (p, h) := GetPointer triggerPx h
  let (r, trig) ← triggerOf ob h
  let h ← store r { trig with TriggerPx := p } h
  let (p, h) := GetPointer tpsl h
  let (r, trig) ← triggerOf ob h
  store r { trig with Tpsl := p } h

/-! ## Sequences of builder calls -/

/-- One call on the builder, with its arguments. -/
inductive Call where
  | Asset (asset : Int)
  | IsBuy (isBuy : Bool)
  | Price (price : String)
  | Size (size : String)
  | ReduceOnly (reduceOnly : Bool)
  | ClientOrderId (cloid : String)
  | LimitTif (tif : String)
  | Trigger (isMarket : Bool) (triggerPx : String) (tpsl : String)
  deriving DecidableEq, Repr

/-- Run one call on the builder. -/
def Call.run (ob : OrderBuilder) : Call → Heap → Option Heap
  | .Asset x => Hyperliquid.Asset ob x
  | .IsBuy x => Hyperliquid.IsBuy ob x
  | .Price x => Hyperliquid.Price ob x
  | .Size x => Hyperliquid.Size ob x
  | .ReduceOnly x => Hyperliquid.ReduceOnly ob x
  | .ClientOrderId x => Hyperliquid.ClientOrderId ob x
  | .LimitTif x => Hyperliquid.LimitTif ob x
  | .Trigger m px tp => Hyperliquid.Trigger ob m px tp

/-- Run a sequence of calls on the builder, first call first. -/
def runCalls (ob : OrderBuilder) : List Call → Heap → Option Heap
  | [], h => some h
  | c :: cs, h => (c.run ob h).bind (runCalls ob cs)

/-! ## Contents and cells of an order -/

/-- What an `OrderTypeLimit` holds, pointers followed. -/
structure LimitValue where
  Tif : Option String
  deriving DecidableEq, Repr

/-- What an `OrderTypeTrigger` holds, pointers followed. -/
structure TriggerValue where
  TriggerPx : Option String
  IsMarket : Option Bool
  Tpsl : Option String
  deriving DecidableEq, Repr

/-- What an `OrderType` holds, pointers followed. -/
structure OrderTypeValue where
  Limit : Option LimitValue
  Trigger : Option TriggerValue
  deriving DecidableEq, Repr

/-- What an `Order` holds, pointers followed: `none` is an absent field. -/
structure OrderValue where
  Asset : Option Int
  IsBuy : Option Bool
  Price : Option String
  Size : Option String
  ReduceOnly : Option Bool
  OrderType : Option OrderTypeValue
  ClientOrderId : Option String
  deriving DecidableEq, Repr

/-- The contents behind a pointer into the cells `cs`: `some none` for `nil`,
`some (some v)` for a pointer to `v`, and `none` for a pointer that is not an
address of `cs`. -/
def viewPtr {α : Type} (cs : List α) : Ptr → Option (Option α)
  | none => some none
  | some a => cs[a]?.map some

/-- The contents behind an `*OrderTypeLimit`. -/
def viewLimit (h : Heap) : Ptr → Option (Option LimitValue)
  | none => some none
  | some a => do
    let l ← h.limits[a]?
    let tif ← viewPtr h.strs l.Tif
    pure (some { Tif := tif })

/-- The contents behind an `*OrderTypeTrigger`. -/
def viewTrigger (h : Heap) : Ptr → Option (Option TriggerValue)
  | none => some none
  | some a => do
    let t ← h.triggers[a]?
    let px ← viewPtr h.strs t.TriggerPx
    let m ← viewPtr h.bools t.IsMarket
    let tp ← viewPtr h.strs t.Tpsl
    pure (some { TriggerPx := px, IsMarket := m, Tpsl := tp })

/-- The contents behind an `*OrderType`. -/
def viewOrderType (h : Heap) : Ptr → Option (Option OrderTypeValue)
  | none => some none
  | some a => do
    let ot ← h.orderTypes[a]?
    let l ← viewLimit h ot.Limit
    let t ← viewTrigger h ot.Trigger
    pure (some { Limit := l, Trigger := t })

/-- The contents of an `Order` value in a store; `none` when one of its
pointers is not an address of the store. -/
def viewOrder (h : Heap) (o : Order) : Option OrderValue := do
  let asset ← viewPtr h.ints o.Asset
  let isBuy ← viewPtr h.bools o.IsBuy
  let price ← viewPtr h.strs o.Price
  let size ← viewPtr h.strs o.Size
  let reduceOnly ← viewPtr h.bools o.ReduceOnly
  let orderType ← viewOrderType h o.OrderType
  let cloid ← viewPtr h.strs o.ClientOrderId
  pure { Asset := asset, IsBuy := isBuy, Price := price, Size := size,
         ReduceOnly := reduceOnly, OrderType := orderType, ClientOrderId := cloid }

/-- The contents of the order accumulated by a builder; `none` when the
builder holds no order or the order is not well formed in the store. -/
def viewBuilder (h : Heap) (ob : OrderBuilder) : Option OrderValue := do
  let (_, o) ← orderOf ob h
  viewOrder h o

/-- The pointee types. -/
inductive Kind where
  | int | bool | str | limit | trigger | orderType | order
  deriving DecidableEq, Repr

/-- A storage cell: a region and an address in it. -/
abbrev Loc := Kind × Nat

/-- The cell a pointer leads to, if any. -/
def ptrLoc (k : Kind) (p : Ptr) : List Loc := p.toList.map (fun a => (k, a))

/-- The cells reachable from an `*OrderTypeLimit`. -/
def reachLimit (h : Heap) : Ptr → List Loc
  | none => []
  | some a => (Kind.limit, a) :: (match h.limits[a]? with
    | some l => ptrLoc .str l.Tif
    | none => [])

/-- The cells reachable from an `*OrderTypeTrigger`. -/
def reachTrigger (h : Heap) : Ptr → List Loc
  | none => []
  | some a => (Kind.trigger, a) :: (match h.triggers[a]? with
    | some t => ptrLoc .str t.TriggerPx ++ ptrLoc .bool t.IsMarket ++ ptrLoc .str t.Tpsl
    | none => [])

/-- The cells reachable from an `*OrderType`. -/
def reachOrderType (h : Heap) : Ptr → List Loc
  | none => []
  | some a => (Kind.orderType, a) :: (match h.orderTypes[a]? with
    | some ot => reachLimit h ot.Limit ++ reachTrigger h ot.Trigger
    | none => [])

/-- The cells reachable from an `Order` value: the targets of its pointers,
the order-type record, its branch records and the targets of their
pointers. -/
def reachOrder (h : Heap) (o : Order) : List Loc :=
  ptrLoc .int o.Asset ++ ptrLoc .bool o.IsBuy ++ ptrLoc .str o.Price ++ ptrLoc .str o.Size
    ++ ptrLoc .bool o.ReduceOnly ++ ptrLoc .str o.ClientOrderId
    ++ reachOrderType h o.OrderType

/-- The cells reachable from the builder: its order record and everything
reachable from it. -/
def reachBuilder (h : Heap) (ob : OrderBuilder) : List Loc :=
  match ob.order with
  | none => []
  | some a => (Kind.order, a) :: (match h.orders[a]? with
    | some o => reachOrder h o
    | none => [])

/-! ## Comparing stores -/

/-- The Lean type of the cells of a region. -/
@[reducible] def Kind.type : Kind → Type
  | .int => Int
  | .bool => Bool
  | .str => String
  | .limit => OrderTypeLimit
  | .trigger => OrderTypeTrigger
  | .orderType => OrderType
  | .order => Order

/-- The cells of a region of the store. -/
def Heap.region (h : Heap) : (k : Kind) → List k.type
  | .int => h.ints
  | .bool => h.bools
  | .str => h.strs
  | .limit => h.limits
  | .trigger => h.triggers
  | .orderType => h.orderTypes
  | .order => h.orders

/-- The location is an allocated cell of the store. -/
def Heap.has (h : Heap) (loc : Loc) : Prop := loc.2 < (h.region loc.1).length

/-- The cell at a location, `none` when the location is not allocated. -/
def Heap.cell (h : Heap) (loc : Loc) : Option loc.1.type := (h.region loc.1)[loc.2]?

/-- The store `h2` holds, at every location in `P`, what `h1` holds there. -/
def AgreeOn (P : Loc → Prop) (h1 h2 : Heap) : Prop :=
  ∀ loc, P loc → h2.cell loc = h1.cell loc

/-- What one builder call may do to the store: cells outside the builder are
kept, allocated cells stay allocated, and the builder only gains cells that
were not allocated before. -/
structure Step (ob : OrderBuilder) (h h' : Heap) : Prop where
  frame : AgreeOn (fun loc => h.has loc ∧ loc ∉ reachBuilder h ob) h h'
  mono : ∀ loc, h.has loc → h'.has loc
  fresh : ∀ loc ∈ reachBuilder h' ob, loc ∈ reachBuilder h ob ∨ ¬ h.has loc

/-- The store `g2` keeps every allocated cell of `g1` outside the cells `X`,
and keeps every allocated cell allocated. -/
def ExtBut (X : List Loc) (g1 g2 : Heap) : Prop :=
  AgreeOn (fun loc => g1.has loc ∧ loc ∉ X) g1 g2 ∧ ∀ loc, g1.has loc → g2.has loc

/-- The store `g2` keeps every allocated cell of `g1`. -/
def Ext (g1 g2 : Heap) : Prop := ExtBut [] g1 g2

/-- Whether the call is one of the two order-type setters. -/
def Call.isOrderType : Call → Bool
  | .LimitTif _ => true
  | .Trigger _ _ _ => true
  | _ => false

/-- The contents of the builder's order after a call, from the contents
before it. -/
def Call.effect : Call → OrderValue → OrderValue
  | .Asset x, v => { v with Asset := some x }
  | .IsBuy x, v => { v with IsBuy := some x }
  | .Price x, v => { v with Price := some x }
  | .Size x, v => { v with Size := some x }
  | .ReduceOnly x, v => { v with ReduceOnly := some x }
  | .ClientOrderId x, v => { v with ClientOrderId := some x }
  | .LimitTif t, v => { v with OrderType := some ⟨some ⟨some t⟩, none⟩ }
  | .Trigger m px tp, v => { v with OrderType := some ⟨none, some ⟨some px, some m, some tp⟩⟩ }

/-- The order type holds exactly one of its two branches. -/
def OrderValue.exclusive (v : OrderValue) : Prop :=
  ∃ ot, v.OrderType = some ot ∧
    ((ot.Limit ≠ none ∧ ot.Trigger = none) ∨ (ot.Limit = none ∧ ot.Trigger ≠ none))

/-- The builder-reuse scenario run from a store `h`: the first order, the
store when it was built, the second order and the final store. -/
def builderReuse (h : Heap) : Option (Order × Heap × Order × Heap) := do
  let (b, h) := NewOrderBuilder h
  let h ← Asset b 1 h
  let h ← IsBuy b true h
  let h ← Price b "100.5" h
  let h ← Size b "2" h
  let h ← LimitTif b "Gtc" h
  let (o1, h1) ← Build b h
  let h ← Trigger b false "95.0" "sl" h1
  let (o2, h2) ← Build b h
  pure (o1, h1, o2, h2)

/-- A store holding one order: asset 1 with a `Gtc` limit order type. -/
def exampleHeap : Heap :=
  { ints := [1], strs := ["Gtc"], limits := [⟨some 0⟩], orderTypes := [⟨some 0, none⟩],
    orders := [⟨some 0, none, none, none, none, some 0, none⟩] }

/-- The builder over the order of `exampleHeap`. -/
def exampleBuilder : OrderBuilder := ⟨some 0⟩

/-- The contents of the order of `exampleHeap`. -/
def exampleValue : OrderValue :=
  ⟨some 1, none, none, none, none, some ⟨some ⟨some "Gtc"⟩, none⟩, none⟩

/-! ## Action facades

The facades are embedded by value: a pointer field that the facade alone owns
is the optional pointee (`none` is `nil`), a slice is a list, and a nil
dereference is the result `none`. -/

/-- Modelled from the spec: `GetPointer` is declared outside this file; the
spec gives it as "given a value of any type, return an owned reference to a
copy of it". By value, the reference is the present field holding the
copy. -/
def GetPointerVal {α : Type} (v : α) : Option α := some v

/-- The record `ExchangeReqCommon[T]`. `Sig` stands for the record `Signature`,
which is declared outside this file. -/
structure ExchangeReqCommon (Sig T : Type) where
  Action : T
  Nonce : Option Nat := none
  Signature : Option Sig := none
  VaultAddress : Option String := none
  ExpiresAfter : Option Nat := none

/-- The record `ExchangeOrderActionBuilder`. -/
structure ExchangeOrderActionBuilder where
  B : Option String := none
  F : Option Int := none
  deriving DecidableEq, Repr

/-- The record `ExchangeOrderAction`; its field `Type` is named `Typ` here. -/
structure ExchangeOrderAction where
  Typ : Option String := none
  Orders : Option (List Order) := none
  Grouping : Option String := none
  Builder : Option ExchangeOrderActionBuilder := none
  deriving DecidableEq, Repr

/-- The record `ExchangeOrderAPI`. `Client` stands for the record
`ExchangeRestClient`, which is declared outside this file. -/
structure ExchangeOrderAPI (Client Sig : Type) where
  client : Option Client := none
  req : Option (ExchangeReqCommon Sig ExchangeOrderAction) := none

/-- `(api *ExchangeOrderAPI) Type(t string)`. -/
def ExchangeOrderAPI.Typ {Client Sig : Type} (api : ExchangeOrderAPI Client Sig) (t : String) :
    Option (ExchangeOrderAPI Client Sig) := do
  let r ← api.req
  pure { api with req := some { r with Action := { r.Action with Typ := GetPointerVal t } } }

/-- `(api *ExchangeOrderAPI) Grouping(grouping string)`. -/
def ExchangeOrderAPI.Grouping {Client Sig : Type} (api : ExchangeOrderAPI Client Sig)
    (grouping : String) : Option (ExchangeOrderAPI Client Sig) := do
  let r ← api.req
  pure { api with
    req := some { r with Action := { r.Action with Grouping := GetPointerVal grouping } } }

/-- `(api *ExchangeOrderAPI) Builder(b string, f int)`. -/
def ExchangeOrderAPI.Builder {Client Sig : Type} (api : ExchangeOrderAPI Client Sig)
    (b : String) (f : Int) : Option (ExchangeOrderAPI Client Sig) := do
  let r ← api.req
  pure { api with
    req := some { r with
      Action := { r.Action with Builder := some ⟨GetPointerVal b, GetPointerVal f⟩ } } }

/-- `(api *ExchangeOrderAPI) AddOrders(orders ...Order)`. -/
def ExchangeOrderAPI.AddOrders {Client Sig : Type} (api : ExchangeOrderAPI Client Sig)
    (orders : List Order) : Option (ExchangeOrderAPI Client Sig) :=
  let r : ExchangeReqCommon Sig ExchangeOrderAction :=
    match api.req with
    | none => { Action := {} }
    | some r => r
  let os : List Order :=
    match r.Action.Orders with
    | none => []
    | some os => os
  pure { api with req := some { r with Action := { r.Action with Orders := some (os ++ orders) } } }

/-- The record `Cancel`. -/
structure Cancel where
  Asset : Option Int := none
  Oid : Option Int := none
  deriving DecidableEq, Repr

/-- The record `ExchangeCancelAction`. -/
structure ExchangeCancelAction where
  Typ : Option String := none
  Cancels : Option (List Cancel) := none
  deriving DecidableEq, Repr

/-- The record `ExchangeCancelAPI`. -/
structure ExchangeCancelAPI (Client Sig : Type) where
  client : Option Client := none
  req : Option (ExchangeReqCommon Sig ExchangeCancelAction) := none

/-- `(api *ExchangeCancelAPI) AddCancelOrder(cancel Cancel)`. -/
def ExchangeCancelAPI.AddCancelOrder {Client Sig : Type} (api : ExchangeCancelAPI Client Sig)
    (cancel : Cancel) : Option (ExchangeCancelAPI Client Sig) :=
  let r : ExchangeReqCommon Sig ExchangeCancelAction :=
    match api.req with
    | none => { Action := {} }
    | some r => r
  let cs : List Cancel :=
    match r.Action.Cancels with
    | none => []
    | some cs => cs
  pure { api with req := some { r with Action := { r.Action with Cancels := some (cs ++ [cancel]) } } }

/-- The record `CancelByCloid`. -/
structure CancelByCloid where
  Asset : Option Int := none
  Cloid : Option String := none
  deriving DecidableEq, Repr

/-- The record `ExchangeCancelByCloidAction`. -/
structure ExchangeCancelByCloidAction where
  Typ : Option String := none
  Cancels : Option (List CancelByCloid) := none
  deriving DecidableEq, Repr

/-- The record `ExchangeCancelByCloidAPI`. -/
structure ExchangeCancelByCloidAPI (Client Sig : Type) where
  client : Option Client := none
  req : Option (ExchangeReqCommon Sig ExchangeCancelByCloidAction) := none

/-- `(api *ExchangeCancelByCloidAPI) AddCancelByCloid(cancel CancelByCloid)`. -/
def ExchangeCancelByCloidAPI.AddCancelByCloid {Client Sig : Type}
    (api : ExchangeCancelByCloidAPI Client Sig) (cancel : CancelByCloid) :
    Option (ExchangeCancelByCloidAPI Client Sig) :=
  let r : ExchangeReqCommon Sig ExchangeCancelByCloidAction :=
    match api.req with
    | none => { Action := {} }
    | some r => r
  let cs : List CancelByCloid :=
    match r.Action.Cancels with
    | none => []
    | some cs => cs
  pure { api with req := some { r with Action := { r.Action with Cancels := some (cs ++ [cancel]) } } }

/-- A value of the interface type `any` as `Modify.Oid` receives it: `nil`, an
`int` or a `string`. -/
inductive AnyId where
  | nil
  | int (oid : Int)
  | str (cloid : String)
  deriving DecidableEq, Repr

/-- The record `Modify`. -/
structure Modify where
  Oid : AnyId := .nil
  Order : Option Order := none
  deriving DecidableEq, Repr

/-- The record `ExchangeBatchModifyAction`. -/
structure ExchangeBatchModifyAction where
  Typ : Option String := none
  Modifies : Option (List Modify) := none
  deriving DecidableEq, Repr

/-- The record `ExchangeBatchModifyAPI`. -/
structure ExchangeBatchModifyAPI (Client Sig : Type) where
  client : Option Client := none
  req : Option (ExchangeReqCommon Sig ExchangeBatchModifyAction) := none

/-- The type `ModifyOption`, `func(*Modify)`: the `Modify` after the call from
the `Modify` before it. -/
abbrev ModifyOption := Modify → Modify

/-- `(api *ExchangeBatchModifyAPI) OidOption(oid int, order Order)`. -/
def ExchangeBatchModifyAPI.OidOption {Client Sig : Type} (_api : ExchangeBatchModifyAPI Client Sig)
    (oid : Int) (order : Order) : ModifyOption :=
  fun m => { m with Oid := .int oid, Order := GetPointerVal order }

/-- `(api *ExchangeBatchModifyAPI) CloidOption(cloid string, order Order)`. -/
def ExchangeBatchModifyAPI.CloidOption {Client Sig : Type}
    (_api : ExchangeBatchModifyAPI Client Sig) (cloid : String) (order : Order) : ModifyOption :=
  fun m => { m with Oid := .str cloid, Order := GetPointerVal order }

/-- `(api *ExchangeBatchModifyAPI) AddModify(options ...ModifyOption)`. -/
def ExchangeBatchModifyAPI.AddModify {Client Sig : Type} (api : ExchangeBatchModifyAPI Client Sig)
    (options : List ModifyOption) : Option (ExchangeBatchModifyAPI Client Sig) :=
  let r : ExchangeReqCommon Sig ExchangeBatchModifyAction :=
    match api.req with
    | none => { Action := {} }
    | some r => r
  let ms : List Modify :=
    match r.Action.Modifies with
    | none => []
    | some ms => ms
  let modify : Modify := options.foldl (fun m opt => opt m) {}
  pure { api with req := some { r with Action := { r.Action with Modifies := some (ms ++ [modify]) } } }

/-- The record `ExchangeUpdateLeverageAction`. -/
structure ExchangeUpdateLeverageAction where
  Typ : Option String := none
  Asset : Option Int := none
  IsCross : Option Bool := none
  Leverage : Option Int := none
  deriving DecidableEq, Repr

/-- The record `ExchangeUpdateLeverageAPI`. -/
structure ExchangeUpdateLeverageAPI (Client Sig : Type) where
  client : Option Client := none
  req : Option (ExchangeReqCommon Sig ExchangeUpdateLeverageAction) := none

/-- `(api *ExchangeUpdateLeverageAPI) Asset(asset int)`. -/
def ExchangeUpdateLeverageAPI.Asset {Client Sig : Type}
    (api : ExchangeUpdateLeverageAPI Client Sig) (asset : Int) :
    Option (ExchangeUpdateLeverageAPI Client Sig) := do
  let r ← api.req
  pure { api with req := some { r with Action := { r.Action with Asset := GetPointerVal asset } } }

/-- `(api *ExchangeUpdateLeverageAPI) IsCross(isCross bool)`. -/
def ExchangeUpdateLeverageAPI.IsCross {Client Sig : Type}
    (api : ExchangeUpdateLeverageAPI Client Sig) (isCross : Bool) :
    Option (ExchangeUpdateLeverageAPI Client Sig) := do
  let r ← api.req
  pure { api with
    req := some { r with Action := { r.Action with IsCross := GetPointerVal isCross } } }

/-- `(api *ExchangeUpdateLeverageAPI) Leverage(leverage int)`. -/
def ExchangeUpdateLeverageAPI.Leverage {Client Sig : Type}
    (api : ExchangeUpdateLeverageAPI Client Sig) (leverage : Int) :
    Option (ExchangeUpdateLeverageAPI Client Sig) := do
  let r ← api.req
  pure { api with
    req := some { r with Action := { r.Action with Leverage := GetPointerVal leverage } } }

/-- The elements of the facade's `Orders`, none when there is no list yet. -/
def ExchangeOrderAPI.orders {Client Sig : Type} (api : ExchangeOrderAPI Client Sig) :
    List Order :=
  ((api.req.bind (fun r => r.Action.Orders)).getD [])

/-- The elements of the facade's `Cancels`, none when there is no list yet. -/
def ExchangeCancelAPI.cancels {Client Sig : Type} (api : ExchangeCancelAPI Client Sig) :
    List Cancel :=
  ((api.req.bind (fun r => r.Action.Cancels)).getD [])

/-- The elements of the facade's `Cancels`, none when there is no list yet. -/
def ExchangeCancelByCloidAPI.cancels {Client Sig : Type}
    (api : ExchangeCancelByCloidAPI Client Sig) : List CancelByCloid :=
  ((api.req.bind (fun r => r.Action.Cancels)).getD [])

/-- The elements of the facade's `Modifies`, none when there is no list yet. -/
def ExchangeBatchModifyAPI.modifies {Client Sig : Type}
    (api : ExchangeBatchModifyAPI Client Sig) : List Modify :=
  ((api.req.bind (fun r => r.Action.Modifies)).getD [])

/-- A sequence of `AddOrders` calls, one per element of `calls`, first call
first. -/
def ExchangeOrderAPI.addAll {Client Sig : Type} :
    List (List Order) → ExchangeOrderAPI Client Sig → Option (ExchangeOrderAPI Client Sig)
  | [], api => some api
  | c :: cs, api => (api.AddOrders c).bind (addAll cs)

/-- A sequence of `AddCancelOrder` calls, first call first. -/
def ExchangeCancelAPI.addAll {Client Sig : Type} :
    List Cancel → ExchangeCancelAPI Client Sig → Option (ExchangeCancelAPI Client Sig)
  | [], api => some api
  | c :: cs, api => (api.AddCancelOrder c).bind (addAll cs)

/-- A sequence of `AddCancelByCloid` calls, first call first. -/
def ExchangeCancelByCloidAPI.addAll {Client Sig : Type} :
    List CancelByCloid → ExchangeCancelByCloidAPI Client Sig →
      Option (ExchangeCancelByCloidAPI Client Sig)
  | [], api => some api
  | c :: cs, api => (api.AddCancelByCloid c).bind (addAll cs)

/-- A sequence of `AddModify` calls, one per option list, first call first. -/
def ExchangeBatchModifyAPI.addAll {Client Sig : Type} :
    List (List ModifyOption) → ExchangeBatchModifyAPI Client Sig →
      Option (ExchangeBatchModifyAPI Client Sig)
  | [], api => some api
  | c :: cs, api => (api.AddModify c).bind (addAll cs)

/-- An identifier step of a modify request, as `OidOption` or `CloidOption`
builds it. -/
inductive IdStep where
  | oid (oid : Int) (order : Order)
  | cloid (cloid : String) (order : Order)
  deriving DecidableEq, Repr

/-- The `ModifyOption` of an identifier step. -/
def IdStep.option {Client Sig : Type} (api : ExchangeBatchModifyAPI Client Sig) :
    IdStep → ModifyOption
  | .oid i o => api.OidOption i o
  | .cloid c o => api.CloidOption c o

/-! ## Wire-format declarations -/

/-- One field of an encoded record: its Go name and the values of its `json`
and `msgpack` struct tags. -/
structure FieldDecl where
  field : String
  json : String
  msgpack : String
  deriving DecidableEq, Repr

/-- An encoded record: its Go name and its fields in declaration order. -/
structure RecordDecl where
  name : String
  fields : List FieldDecl
  deriving DecidableEq, Repr

/-- The struct tags of the fourteen encoded records, as declared. -/
def declarations : List RecordDecl :=
  [ ⟨"ExchangeReqCommon",
      [ ⟨"Action", "action", "action"⟩,
        ⟨"Nonce", "nonce", "nonce"⟩,
        ⟨"Signature", "signature", "signature"⟩,
        ⟨"VaultAddress", "vaultAddress,omitempty", "vaultAddress,omitempty"⟩,
        ⟨"ExpiresAfter", "expiresAfter,omitempty", "expiresAfter,omitempty"⟩ ]⟩,
    ⟨"Order",
      [ ⟨"Asset", "a", "a"⟩,
        ⟨"IsBuy", "b", "b"⟩,
        ⟨"Price", "p", "p"⟩,
        ⟨"Size", "s", "s"⟩,
        ⟨"ReduceOnly", "r", "r"⟩,
        ⟨"OrderType", "t", "t"⟩,
        ⟨"ClientOrderId", "c,omitempty", "c,omitempty"⟩ ]⟩,
    ⟨"OrderType",
      [ ⟨"Limit", "limit,omitempty", "limit,omitempty"⟩,
        ⟨"Trigger", "trigger,omitempty", "trigger,omitempty"⟩ ]⟩,
    ⟨"OrderTypeLimit", [ ⟨"Tif", "tif", "tif"⟩ ]⟩,
    ⟨"OrderTypeTrigger",
      [ ⟨"TriggerPx", "triggerPx", "triggerPx"⟩,
        ⟨"IsMarket", "isMarket", "isMarket"⟩,
        ⟨"Tpsl", "tpsl", "tpsl"⟩ ]⟩,
    ⟨"ExchangeOrderAction",
      [ ⟨"Type", "type", "type"⟩,
        ⟨"Orders", "orders", "orders"⟩,
        ⟨"Grouping", "grouping,omitempty", "grouping,omitempty"⟩,
        ⟨"Builder", "builder,omitempty", "builder,omitempty"⟩ ]⟩,
    ⟨"ExchangeOrderActionBuilder", [ ⟨"B", "b", "b"⟩, ⟨"F", "f", "f"⟩ ]⟩,
    ⟨"ExchangeCancelAction", [ ⟨"Type", "type", "type"⟩, ⟨"Cancels", "cancels", "cancels"⟩ ]⟩,
    ⟨"Cancel", [ ⟨"Asset", "a", "a"⟩, ⟨"Oid", "o", "o"⟩ ]⟩,
    ⟨"CancelByCloid", [ ⟨"Asset", "asset", "asset"⟩, ⟨"Cloid", "cloid", "cloid"⟩ ]⟩,
    ⟨"ExchangeCancelByCloidAction",
      [ ⟨"Type", "type", "type"⟩, ⟨"Cancels", "cancels", "cancels"⟩ ]⟩,
    ⟨"ExchangeBatchModifyAction",
      [ ⟨"Type", "type", "type"⟩, ⟨"Modifies", "modifies", "modifies"⟩ ]⟩,
    ⟨"Modify", [ ⟨"Oid", "oid", "oid"⟩, ⟨"Order", "order", "order"⟩ ]⟩,
    ⟨"ExchangeUpdateLeverageAction",
      [ ⟨"Type", "type", "type"⟩,
        ⟨"Asset", "asset", "asset"⟩,
        ⟨"IsCross", "isCross", "isCross"⟩,
        ⟨"Leverage", "leverage", "leverage"⟩ ]⟩ ]

/-- The comma-separated parts of a tag value. -/
def splitComma : List Char → List (List Char)
  | [] => [[]]
  | c :: cs =>
    if c = ',' then [] :: splitComma cs
    else
      match splitComma cs with
      | [] => [[c]]
      | x :: xs => (c :: x) :: xs

/-- The key name a tag value gives: the part before the first comma. -/
def tagKey (tag : String) : List Char := (splitComma tag.toList).headD []

/-- Whether a tag value carries the option `omitempty`. -/
def tagOmitEmpty (tag : String) : Bool :=
  (splitComma tag.toList).tail.contains "omitempty".toList

/-- Modelled from the spec: the two encoders are libraries outside the
repository. The spec gives their omission rule: "optional fields whose value is
absent are omitted entirely from the object (not emitted as null) wherever the
field is tagged optional; required fields are always emitted", the binary
format having the "same field set and same omission rules". Whether a field
with this tag value is emitted when its value is absent or present. -/
def emitted (tag : String) (absent : Bool) : Bool := !(tagOmitEmpty tag && absent)

/-! ## Encoding a request envelope -/

/-- The fields of the record called `name`, as declared. -/
def recordDecl (name : String) : List FieldDecl :=
  ((declarations.find? (fun r => r.name == name)).map (fun r => r.fields)).getD []

/-- A field as an encoder meets it: its declaration and whether its value is
absent (a nil pointer). -/
structure FieldState where
  decl : FieldDecl
  absent : Bool
  deriving DecidableEq, Repr

/-- The error kinds of encoding. -/
inductive EncodeError where
  | missingRequiredField (field : String)
  deriving DecidableEq, Repr

/-- Whether the field is required: its tag does not carry `omitempty`. -/
def FieldState.required (f : FieldState) : Bool := !tagOmitEmpty f.decl.json

/-- Modelled from the spec: the encoder is declared outside this file. The
spec gives: "encoding fails only if a required field is genuinely missing at
the point of encoding (e.g., nonce never set) — this must be surfaced as a
distinct error kind ("missing-required-field") rather than silently emitting a
default". The fields are met in order; the result is the keys emitted, or the
error naming the first required field that is absent. -/
def encodeFields : List FieldState → Except EncodeError (List (List Char))
  | [] => .ok []
  | f :: fs =>
    if f.absent && f.required then .error (.missingRequiredField f.decl.field)
    else
      match encodeFields fs with
      | .error e => .error e
      | .ok ks => .ok (if emitted f.decl.json f.absent then tagKey f.decl.json :: ks else ks)

/-- The fields of the envelope itself, as an encoder meets them: `Action` is
held by value and is never absent, the other four are pointers. -/
def envelopeFields {Sig T : Type} (r : ExchangeReqCommon Sig T) : List FieldState :=
  List.zipWith FieldState.mk (recordDecl "ExchangeReqCommon")
    [false, r.Nonce.isNone, r.Signature.isNone, r.VaultAddress.isNone, r.ExpiresAfter.isNone]

/-- The fields of an `ExchangeOrderAction`, as an encoder meets them. -/
def orderActionFields (a : ExchangeOrderAction) : List FieldState :=
  List.zipWith FieldState.mk (recordDecl "ExchangeOrderAction")
    [a.Typ.isNone, a.Orders.isNone, a.Grouping.isNone, a.Builder.isNone]

/-- Modelled from the spec: encoding a request envelope, by the rule of
`encodeFields` over the fields of the envelope followed by the fields of its
action, which `actionFields` lists. -/
def encodeEnvelope {Sig T : Type} (actionFields : T → List FieldState)
    (r : ExchangeReqCommon Sig T) : Except EncodeError (List (List Char)) :=
  encodeFields (envelopeFields r ++ actionFields r.Action)

/-! ### Reading the store -/

theorem viewPtr_some_iff {α : Type} {cs : List α} {p : Ptr} {r : Option α} :
    viewPtr cs p = some r ↔
      (p = none ∧ r = none) ∨ ∃ a v, p = some a ∧ cs[a]? = some v ∧ r = some v := by
  cases p with
  | none => simp [viewPtr, eq_comm]
  | some a =>
    cases hc : cs[a]? <;> simp [viewPtr, hc, eq_comm]

theorem viewPtr_congr {α : Type} {cs cs' : List α} {p : Ptr}
    (hp : ∀ a, p = some a → cs'[a]? = cs[a]?) : viewPtr cs' p = viewPtr cs p := by
  cases p with
  | none => rfl
  | some a => simp [viewPtr, hp a rfl]

theorem viewPtr_lt {α : Type} {cs : List α} {a : Nat} {r : Option α}
    (hv : viewPtr cs (some a) = some r) : a < cs.length := by
  cases hc : cs[a]? with
  | none => simp [viewPtr, hc] at hv
  | some v => exact (List.getElem?_eq_some_iff.1 hc).1

theorem viewOrder_some_iff {h : Heap} {o : Order} {v : OrderValue} :
    viewOrder h o = some v ↔
      viewPtr h.ints o.Asset = some v.Asset ∧ viewPtr h.bools o.IsBuy = some v.IsBuy ∧
      viewPtr h.strs o.Price = some v.Price ∧ viewPtr h.strs o.Size = some v.Size ∧
      viewPtr h.bools o.ReduceOnly = some v.ReduceOnly ∧
      viewOrderType h o.OrderType = some v.OrderType ∧
      viewPtr h.strs o.ClientOrderId = some v.ClientOrderId := by
  cases v
  simp only [viewOrder, Option.bind_eq_bind, Option.pure_def]
  cases viewPtr h.ints o.Asset <;> cases viewPtr h.bools o.IsBuy <;>
    cases viewPtr h.strs o.Price <;> cases viewPtr h.strs o.Size <;>
    cases viewPtr h.bools o.ReduceOnly <;> cases viewOrderType h o.OrderType <;>
    cases viewPtr h.strs o.ClientOrderId <;> simp

theorem viewBuilder_some_iff {h : Heap} {ob : OrderBuilder} {v : OrderValue} :
    viewBuilder h ob = some v ↔
      ∃ a o, ob.order = some a ∧ h.orders[a]? = some o ∧ viewOrder h o = some v := by
  cases ob with
  | mk p =>
    cases p with
    | none => simp [viewBuilder, orderOf]
    | some a =>
      cases ho : h.orders[a]? <;> simp [viewBuilder, orderOf, deref, Region.cells, ho]

theorem mem_ptrLoc {k : Kind} {p : Ptr} {loc : Loc} :
    loc ∈ ptrLoc k p ↔ ∃ a, p = some a ∧ loc = (k, a) := by
  cases p <;> simp [ptrLoc, eq_comm]

theorem viewPtr_agree {k : Kind} {h h' : Heap} {p : Ptr}
    (hag : AgreeOn (· ∈ ptrLoc k p) h h') :
    viewPtr (h'.region k) p = viewPtr (h.region k) p := by
  apply viewPtr_congr
  intro a ha
  exact hag (k, a) (mem_ptrLoc.2 ⟨a, ha, rfl⟩)

theorem AgreeOn.mono {P Q : Loc → Prop} {h h' : Heap} (hag : AgreeOn P h h')
    (hQ : ∀ loc, Q loc → P loc) : AgreeOn Q h h' :=
  fun loc hl => hag loc (hQ loc hl)

theorem viewLimit_agree {h h' : Heap} {p : Ptr} (hag : AgreeOn (· ∈ reachLimit h p) h h') :
    viewLimit h' p = viewLimit h p ∧ reachLimit h' p = reachLimit h p := by
  cases p with
  | none => exact ⟨rfl, rfl⟩
  | some a =>
    have h1 : h'.limits[a]? = h.limits[a]? := hag (.limit, a) (by simp [reachLimit])
    cases hl : h.limits[a]? with
    | none => simp [viewLimit, reachLimit, h1, hl]
    | some l =>
      have h2 : viewPtr h'.strs l.Tif = viewPtr h.strs l.Tif :=
        viewPtr_agree (k := .str) (hag.mono (by intro loc hm; simp [reachLimit, hl, hm]))
      simp [viewLimit, reachLimit, h1, hl, h2]

theorem viewTrigger_agree {h h' : Heap} {p : Ptr}
    (hag : AgreeOn (· ∈ reachTrigger h p) h h') :
    viewTrigger h' p = viewTrigger h p ∧ reachTrigger h' p = reachTrigger h p := by
  cases p with
  | none => exact ⟨rfl, rfl⟩
  | some a =>
    have h1 : h'.triggers[a]? = h.triggers[a]? := hag (.trigger, a) (by simp [reachTrigger])
    cases hl : h.triggers[a]? with
    | none => simp [viewTrigger, reachTrigger, h1, hl]
    | some t =>
      have h2 : viewPtr h'.strs t.TriggerPx = viewPtr h.strs t.TriggerPx :=
        viewPtr_agree (k := .str) (hag.mono (by intro loc hm; simp [reachTrigger, hl, hm]))
      have h3 : viewPtr h'.bools t.IsMarket = viewPtr h.bools t.IsMarket :=
        viewPtr_agree (k := .bool) (hag.mono (by intro loc hm; simp [reachTrigger, hl, hm]))
      have h4 : viewPtr h'.strs t.Tpsl = viewPtr h.strs t.Tpsl :=
        viewPtr_agree (k := .str) (hag.mono (by intro loc hm; simp [reachTrigger, hl, hm]))
      simp [viewTrigger, reachTrigger, h1, hl, h2, h3, h4]

theorem viewOrderType_agree {h h' : Heap} {p : Ptr}
    (hag : AgreeOn (· ∈ reachOrderType h p) h h') :
    viewOrderType h' p = viewOrderType h p ∧ reachOrderType h' p = reachOrderType h p := by
  cases p with
  | none => exact ⟨rfl, rfl⟩
  | some a =>
    have h1 : h'.orderTypes[a]? = h.orderTypes[a]? :=
      hag (.orderType, a) (by simp [reachOrderType])
    cases hl : h.orderTypes[a]? with
    | none => simp [viewOrderType, reachOrderType, h1, hl]
    | some ot =>
      have h2 := viewLimit_agree (p := ot.Limit)
        (hag.mono (by intro loc hm; simp [reachOrderType, hl, hm]))
      have h3 := viewTrigger_agree (p := ot.Trigger)
        (hag.mono (by intro loc hm; simp [reachOrderType, hl, hm]))
      simp [viewOrderType, reachOrderType, h1, hl, h2.1, h2.2, h3.1, h3.2]

theorem viewOrder_agree {h h' : Heap} {o : Order} (hag : AgreeOn (· ∈ reachOrder h o) h h') :
    viewOrder h' o = viewOrder h o ∧ reachOrder h' o = reachOrder h o := by
  have a1 : viewPtr h'.ints o.Asset = viewPtr h.ints o.Asset :=
    viewPtr_agree (k := .int) (hag.mono (by intro loc hm; simp [reachOrder, hm]))
  have a2 : viewPtr h'.bools o.IsBuy = viewPtr h.bools o.IsBuy :=
    viewPtr_agree (k := .bool) (hag.mono (by intro loc hm; simp [reachOrder, hm]))
  have a3 : viewPtr h'.strs o.Price = viewPtr h.strs o.Price :=
    viewPtr_agree (k := .str) (hag.mono (by intro loc hm; simp [reachOrder, hm]))
  have a4 : viewPtr h'.strs o.Size = viewPtr h.strs o.Size :=
    viewPtr_agree (k := .str) (hag.mono (by intro loc hm; simp [reachOrder, hm]))
  have a5 : viewPtr h'.bools o.ReduceOnly = viewPtr h.bools o.ReduceOnly :=
    viewPtr_agree (k := .bool) (hag.mono (by intro loc hm; simp [reachOrder, hm]))
  have a6 : viewPtr h'.strs o.ClientOrderId = viewPtr h.strs o.ClientOrderId :=
    viewPtr_agree (k := .str) (hag.mono (by intro loc hm; simp [reachOrder, hm]))
  have a7 := viewOrderType_agree (p := o.OrderType)
    (hag.mono (by intro loc hm; simp [reachOrder, hm]))
  simp [viewOrder, reachOrder, a1, a2, a3, a4, a5, a6, a7.1, a7.2]

theorem viewBuilder_agree {h h' : Heap} {ob : OrderBuilder}
    (hag : AgreeOn (· ∈ reachBuilder h ob) h h') :
    viewBuilder h' ob = viewBuilder h ob ∧ reachBuilder h' ob = reachBuilder h ob := by
  cases ob with
  | mk p =>
    cases p with
    | none => exact ⟨rfl, rfl⟩
    | some a =>
      have h1 : h'.orders[a]? = h.orders[a]? := hag (.order, a) (by simp [reachBuilder])
      cases ho : h.orders[a]? with
      | none => simp [viewBuilder, orderOf, deref, Region.cells, reachBuilder, h1, ho]
      | some o =>
        have h2 := viewOrder_agree (o := o)
          (hag.mono (by intro loc hm; simp [reachBuilder, ho, hm]))
        simp [viewBuilder, orderOf, deref, Region.cells, reachBuilder, h1, ho, h2.1, h2.2]

theorem has_of_viewPtr {k : Kind} {h : Heap} {p : Ptr} {r : Option k.type}
    (hv : viewPtr (h.region k) p = some r) : ∀ loc ∈ ptrLoc k p, h.has loc := by
  intro loc hm
  obtain ⟨a, rfl, rfl⟩ := mem_ptrLoc.1 hm
  exact viewPtr_lt hv

theorem has_of_viewLimit {h : Heap} {p : Ptr} {r : Option LimitValue}
    (hv : viewLimit h p = some r) : ∀ loc ∈ reachLimit h p, h.has loc := by
  cases p with
  | none => simp [reachLimit]
  | some a =>
    cases hl : h.limits[a]? with
    | none => simp [viewLimit, hl] at hv
    | some l =>
      cases ht : viewPtr h.strs l.Tif with
      | none => simp [viewLimit, hl, ht] at hv
      | some x =>
        intro loc hm
        simp only [reachLimit, hl, List.mem_cons] at hm
        rcases hm with rfl | hm
        · exact (List.getElem?_eq_some_iff.1 hl).1
        · exact has_of_viewPtr (k := .str) ht loc hm

theorem has_of_viewTrigger {h : Heap} {p : Ptr} {r : Option TriggerValue}
    (hv : viewTrigger h p = some r) : ∀ loc ∈ reachTrigger h p, h.has loc := by
  cases p with
  | none => simp [reachTrigger]
  | some a =>
    cases hl : h.triggers[a]? with
    | none => simp [viewTrigger, hl] at hv
    | some t =>
      cases h1 : viewPtr h.strs t.TriggerPx with
      | none => simp [viewTrigger, hl, h1] at hv
      | some x1 =>
        cases h2 : viewPtr h.bools t.IsMarket with
        | none => simp [viewTrigger, hl, h1, h2] at hv
        | some x2 =>
          cases h3 : viewPtr h.strs t.Tpsl with
          | none => simp [viewTrigger, hl, h1, h2, h3] at hv
          | some x3 =>
            intro loc hm
            simp only [reachTrigger, hl, List.mem_cons, List.mem_append] at hm
            rcases hm with rfl | (hm | hm) | hm
            · exact (List.getElem?_eq_some_iff.1 hl).1
            · exact has_of_viewPtr (k := .str) h1 loc hm
            · exact has_of_viewPtr (k := .bool) h2 loc hm
            · exact has_of_viewPtr (k := .str) h3 loc hm

theorem has_of_viewOrderType {h : Heap} {p : Ptr} {r : Option OrderTypeValue}
    (hv : viewOrderType h p = some r) : ∀ loc ∈ reachOrderType h p, h.has loc := by
  cases p with
  | none => simp [reachOrderType]
  | some a =>
    cases hl : h.orderTypes[a]? with
    | none => simp [viewOrderType, hl] at hv
    | some ot =>
      cases h1 : viewLimit h ot.Limit with
      | none => simp [viewOrderType, hl, h1] at hv
      | some x1 =>
        cases h2 : viewTrigger h ot.Trigger with
        | none => simp [viewOrderType, hl, h1, h2] at hv
        | some x2 =>
          intro loc hm
          simp only [reachOrderType, hl, List.mem_cons, List.mem_append] at hm
          rcases hm with rfl | hm | hm
          · exact (List.getElem?_eq_some_iff.1 hl).1
          · exact has_of_viewLimit h1 loc hm
          · exact has_of_viewTrigger h2 loc hm

theorem has_of_viewOrder {h : Heap} {o : Order} {v : OrderValue}
    (hv : viewOrder h o = some v) : ∀ loc ∈ reachOrder h o, h.has loc := by
  obtain ⟨h1, h2, h3, h4, h5, h6, h7⟩ := viewOrder_some_iff.1 hv
  intro loc hm
  simp only [reachOrder, List.mem_append] at hm
  rcases hm with (((((hm | hm) | hm) | hm) | hm) | hm) | hm
  · exact has_of_viewPtr (k := .int) h1 loc hm
  · exact has_of_viewPtr (k := .bool) h2 loc hm
  · exact has_of_viewPtr (k := .str) h3 loc hm
  · exact has_of_viewPtr (k := .str) h4 loc hm
  · exact has_of_viewPtr (k := .bool) h5 loc hm
  · exact has_of_viewPtr (k := .str) h7 loc hm
  · exact has_of_viewOrderType h6 loc hm

theorem has_of_viewBuilder {h : Heap} {ob : OrderBuilder} {v : OrderValue}
    (hv : viewBuilder h ob = some v) : ∀ loc ∈ reachBuilder h ob, h.has loc := by
  obtain ⟨a, o, ha, ho, hvo⟩ := viewBuilder_some_iff.1 hv
  intro loc hm
  simp only [reachBuilder, ha, ho, List.mem_cons] at hm
  rcases hm with rfl | hm
  · exact (List.getElem?_eq_some_iff.1 ho).1
  · exact has_of_viewOrder hvo loc hm

theorem kind_ptrLoc {k : Kind} {p : Ptr} {loc : Loc} (hm : loc ∈ ptrLoc k p) : loc.1 = k := by
  obtain ⟨a, -, rfl⟩ := mem_ptrLoc.1 hm
  rfl

theorem kind_reachLimit {h : Heap} {p : Ptr} {loc : Loc} (hm : loc ∈ reachLimit h p) :
    loc.1 = .limit ∨ loc.1 = .str := by
  cases p with
  | none => simp [reachLimit] at hm
  | some a =>
    simp only [reachLimit, List.mem_cons] at hm
    rcases hm with rfl | hm
    · exact Or.inl rfl
    · cases hl : h.limits[a]? with
      | none => simp [hl] at hm
      | some l =>
        rw [hl] at hm
        exact Or.inr (kind_ptrLoc hm)

theorem kind_reachTrigger {h : Heap} {p : Ptr} {loc : Loc} (hm : loc ∈ reachTrigger h p) :
    loc.1 = .trigger ∨ loc.1 = .str ∨ loc.1 = .bool := by
  cases p with
  | none => simp [reachTrigger] at hm
  | some a =>
    simp only [reachTrigger, List.mem_cons] at hm
    rcases hm with rfl | hm
    · exact Or.inl rfl
    · cases hl : h.triggers[a]? with
      | none => simp [hl] at hm
      | some l =>
        rw [hl] at hm
        simp only [List.mem_append] at hm
        rcases hm with (hm | hm) | hm
        · exact Or.inr (Or.inl (kind_ptrLoc hm))
        · exact Or.inr (Or.inr (kind_ptrLoc hm))
        · exact Or.inr (Or.inl (kind_ptrLoc hm))

theorem kind_reachOrderType {h : Heap} {p : Ptr} {loc : Loc}
    (hm : loc ∈ reachOrderType h p) : loc.1 ≠ .order ∧ loc.1 ≠ .int := by
  cases p with
  | none => simp [reachOrderType] at hm
  | some a =>
    simp only [reachOrderType, List.mem_cons] at hm
    rcases hm with rfl | hm
    · simp
    · cases hl : h.orderTypes[a]? with
      | none => simp [hl] at hm
      | some l =>
        rw [hl] at hm
        simp only [List.mem_append] at hm
        rcases hm with hm | hm
        · rcases kind_reachLimit hm with e | e <;> simp [e]
        · rcases kind_reachTrigger hm with e | e | e <;> simp [e]

theorem kind_reachOrder {h : Heap} {o : Order} {loc : Loc} (hm : loc ∈ reachOrder h o) :
    loc.1 ≠ .order := by
  simp only [reachOrder, List.mem_append] at hm
  rcases hm with (((((hm | hm) | hm) | hm) | hm) | hm) | hm
  · simp [kind_ptrLoc hm]
  · simp [kind_ptrLoc hm]
  · simp [kind_ptrLoc hm]
  · simp [kind_ptrLoc hm]
  · simp [kind_ptrLoc hm]
  · simp [kind_ptrLoc hm]
  · exact (kind_reachOrderType hm).1

theorem cell_append_left {h h' : Heap} {k : Kind} {l : List k.type} {i : Nat}
    (hreg : h'.region k = h.region k ++ l) (hi : h.has (k, i)) :
    h'.cell (k, i) = h.cell (k, i) := by
  simp only [Heap.cell, hreg]
  exact List.getElem?_append_left hi

/-! ### The builder calls -/

/-- The six scalar setters: the store `h2` after `ob.order.F = GetPointer(x)`,
where the new scalar went to region `k` and `upd` assigns the field `F`; `updV`
is the contents of the order after the assignment. -/
theorem setField_spec {ob : OrderBuilder} {h h2 : Heap} {a : Nat} {o : Order} {v : OrderValue}
    (k : Kind) (hk : k ≠ .order) (x : k.type) (upd : Order → Ptr → Order)
    (updV : OrderValue → Option k.type → OrderValue)
    (hview : ∀ (g : Heap) (o1 : Order) (v1 : OrderValue) (p : Ptr) (r : Option k.type),
      viewOrder g o1 = some v1 → viewPtr (g.region k) p = some r →
        viewOrder g (upd o1 p) = some (updV v1 r))
    (hreach : ∀ (g : Heap) (o1 : Order) (p : Ptr) (loc : Loc),
      loc ∈ reachOrder g (upd o1 p) → loc ∈ reachOrder g o1 ∨ loc ∈ ptrLoc k p)
    (ha : ob.order = some a) (ho : h.orders[a]? = some o) (hvo : viewOrder h o = some v)
    (hreg : h2.region k = h.region k ++ [x])
    (hor : h2.orders = h.orders.set a (upd o (some (h.region k).length)))
    (hother : ∀ k1, k1 ≠ k → k1 ≠ .order → h2.region k1 = h.region k1) :
    viewBuilder h2 ob = some (updV v (some x)) ∧ Step ob h h2 := by
  have hlt : a < h.orders.length := (List.getElem?_eq_some_iff.1 ho).1
  have ho2 : h2.orders[a]? = some (upd o (some (h.region k).length)) := by simp [hor, hlt]
  have hcell : AgreeOn (fun loc => h.has loc ∧ loc.1 ≠ .order) h h2 := by
    rintro ⟨k1, i⟩ ⟨hhas, hne⟩
    by_cases hkk : k1 = k
    · subst hkk
      exact cell_append_left hreg hhas
    · simp only [Heap.cell, hother k1 hkk hne]
  have hag : AgreeOn (· ∈ reachOrder h o) h h2 :=
    hcell.mono (fun loc hm => ⟨has_of_viewOrder hvo loc hm, kind_reachOrder hm⟩)
  have hvo2 : viewOrder h2 o = some v := (viewOrder_agree hag).1.trans hvo
  have hnewp : viewPtr (h2.region k) (some (h.region k).length) = some (some x) := by
    simp [viewPtr, hreg]
  refine ⟨viewBuilder_some_iff.2 ⟨a, _, ha, ho2, hview _ _ _ _ _ hvo2 hnewp⟩, ?_, ?_, ?_⟩
  · rintro ⟨k1, i⟩ ⟨hhas, hnot⟩
    by_cases hko : k1 = .order
    · subst hko
      have hia : i ≠ a := by
        rintro rfl
        exact hnot (by simp [reachBuilder, ha])
      simp [Heap.cell, Heap.region, hor, List.getElem?_set_ne (Ne.symm hia)]
    · exact hcell (k1, i) ⟨hhas, hko⟩
  · rintro ⟨k1, i⟩ hhas
    by_cases hko : k1 = .order
    · subst hko
      simpa [Heap.has, Heap.region, hor] using hhas
    · by_cases hkk : k1 = k
      · subst hkk
        simp only [Heap.has, hreg, List.length_append] at hhas ⊢
        omega
      · simpa [Heap.has, hother k1 hkk hko] using hhas
  · intro loc hm
    simp only [reachBuilder, ha, ho2, List.mem_cons] at hm
    rcases hm with rfl | hm
    · exact Or.inl (by simp [reachBuilder, ha])
    · rcases hreach _ _ _ _ hm with h1 | h1
      · rw [(viewOrder_agree hag).2] at h1
        exact Or.inl (by simp [reachBuilder, ha, ho, h1])
      · obtain ⟨i, hi, rfl⟩ := mem_ptrLoc.1 h1
        obtain rfl := Option.some.inj hi
        exact Or.inr (by simp [Heap.has])

theorem Asset_spec {ob : OrderBuilder} {h : Heap} {v : OrderValue} (x : Int)
    (hv : viewBuilder h ob = some v) :
    ∃ h2, Asset ob x h = some h2 ∧ viewBuilder h2 ob = some { v with Asset := some x } ∧
      Step ob h h2 := by
  obtain ⟨a, o, ha, ho, hvo⟩ := viewBuilder_some_iff.1 hv
  have hlt : a < h.orders.length := (List.getElem?_eq_some_iff.1 ho).1
  refine ⟨{ h with ints := h.ints ++ [x],
                   orders := h.orders.set a { o with Asset := some h.ints.length } }, ?_, ?_⟩
  · simp [Asset, setField, GetPointer, orderOf, deref, store, Region.cells, Region.put, ha, ho,
      hlt]
  · refine setField_spec .int (by decide) x (fun o p => { o with Asset := p })
      (fun v r => { v with Asset := r }) ?_ ?_ ha ho hvo rfl rfl ?_
    · intro g o1 v1 p r h1 h2
      simp only [viewOrder_some_iff] at h1 ⊢
      exact ⟨h2, h1.2⟩
    · intro g o1 p loc hm
      simp only [reachOrder, List.mem_append] at hm ⊢
      tauto
    · intro k1 h1 h2
      cases k1 <;> first | rfl | exact absurd rfl h1 | exact absurd rfl h2

theorem IsBuy_spec {ob : OrderBuilder} {h : Heap} {v : OrderValue} (x : Bool)
    (hv : viewBuilder h ob = some v) :
    ∃ h2, IsBuy ob x h = some h2 ∧ viewBuilder h2 ob = some { v with IsBuy := some x } ∧
      Step ob h h2 := by
  obtain ⟨a, o, ha, ho, hvo⟩ := viewBuilder_some_iff.1 hv
  have hlt : a < h.orders.length := (List.getElem?_eq_some_iff.1 ho).1
  refine ⟨{ h with bools := h.bools ++ [x],
                   orders := h.orders.set a { o with IsBuy := some h.bools.length } }, ?_, ?_⟩
  · simp [IsBuy, setField, GetPointer, orderOf, deref, store, Region.cells, Region.put, ha, ho,
      hlt]
  · refine setField_spec .bool (by decide) x (fun o p => { o with IsBuy := p })
      (fun v r => { v with IsBuy := r }) ?_ ?_ ha ho hvo rfl rfl ?_
    · intro g o1 v1 p r h1 h2
      simp only [viewOrder_some_iff] at h1 ⊢
      exact ⟨h1.1, h2, h1.2.2⟩
    · intro g o1 p loc hm
      simp only [reachOrder, List.mem_append] at hm ⊢
      tauto
    · intro k1 h1 h2
      cases k1 <;> first | rfl | exact absurd rfl h1 | exact absurd rfl h2

theorem Price_spec {ob : OrderBuilder} {h : Heap} {v : OrderValue} (x : String)
    (hv : viewBuilder h ob = some v) :
    ∃ h2, Price ob x h = some h2 ∧ viewBuilder h2 ob = some { v with Price := some x } ∧
      Step ob h h2 := by
  obtain ⟨a, o, ha, ho, hvo⟩ := viewBuilder_some_iff.1 hv
  have hlt : a < h.orders.length := (List.getElem?_eq_some_iff.1 ho).1
  refine ⟨{ h with strs := h.strs ++ [x],
                   orders := h.orders.set a { o with Price := some h.strs.length } }, ?_, ?_⟩
  · simp [Price, setField, GetPointer, orderOf, deref, store, Region.cells, Region.put, ha, ho,
      hlt]
  · refine setField_spec .str (by decide) x (fun o p => { o with Price := p })
      (fun v r => { v with Price := r }) ?_ ?_ ha ho hvo rfl rfl ?_
    · intro g o1 v1 p r h1 h2
      simp only [viewOrder_some_iff] at h1 ⊢
      exact ⟨h1.1, h1.2.1, h2, h1.2.2.2⟩
    · intro g o1 p loc hm
      simp only [reachOrder, List.mem_append] at hm ⊢
      tauto
    · intro k1 h1 h2
      cases k1 <;> first | rfl | exact absurd rfl h1 | exact absurd rfl h2

theorem Size_spec {ob : OrderBuilder} {h : Heap} {v : OrderValue} (x : String)
    (hv : viewBuilder h ob = some v) :
    ∃ h2, Size ob x h = some h2 ∧ viewBuilder h2 ob = some { v with Size := some x } ∧
      Step ob h h2 := by
  obtain ⟨a, o, ha, ho, hvo⟩ := viewBuilder_some_iff.1 hv
  have hlt : a < h.orders.length := (List.getElem?_eq_some_iff.1 ho).1
  refine ⟨{ h with strs := h.strs ++ [x],
                   orders := h.orders.set a { o with Size := some h.strs.length } }, ?_, ?_⟩
  · simp [Size, setField, GetPointer, orderOf, deref, store, Region.cells, Region.put, ha, ho,
      hlt]
  · refine setField_spec .str (by decide) x (fun o p => { o with Size := p })
      (fun v r => { v with Size := r }) ?_ ?_ ha ho hvo rfl rfl ?_
    · intro g o1 v1 p r h1 h2
      simp only [viewOrder_some_iff] at h1 ⊢
      exact ⟨h1.1, h1.2.1, h1.2.2.1, h2, h1.2.2.2.2⟩
    · intro g o1 p loc hm
      simp only [reachOrder, List.mem_append] at hm ⊢
      tauto
    · intro k1 h1 h2
      cases k1 <;> first | rfl | exact absurd rfl h1 | exact absurd rfl h2

theorem ReduceOnly_spec {ob : OrderBuilder} {h : Heap} {v : OrderValue} (x : Bool)
    (hv : viewBuilder h ob = some v) :
    ∃ h2, ReduceOnly ob x h = some h2 ∧ viewBuilder h2 ob = some { v with ReduceOnly := some x } ∧
      Step ob h h2 := by
  obtain ⟨a, o, ha, ho, hvo⟩ := viewBuilder_some_iff.1 hv
  have hlt : a < h.orders.length := (List.getElem?_eq_some_iff.1 ho).1
  refine ⟨{ h with bools := h.bools ++ [x],
                   orders := h.orders.set a { o with ReduceOnly := some h.bools.length } }, ?_, ?_⟩
  · simp [ReduceOnly, setField, GetPointer, orderOf, deref, store, Region.cells, Region.put, ha, ho,
      hlt]
  · refine setField_spec .bool (by decide) x (fun o p => { o with ReduceOnly := p })
      (fun v r => { v with ReduceOnly := r }) ?_ ?_ ha ho hvo rfl rfl ?_
    · intro g o1 v1 p r h1 h2
      simp only [viewOrder_some_iff] at h1 ⊢
      exact ⟨h1.1, h1.2.1, h1.2.2.1, h1.2.2.2.1, h2, h1.2.2.2.2.2⟩
    · intro g o1 p loc hm
      simp only [reachOrder, List.mem_append] at hm ⊢
      tauto
    · intro k1 h1 h2
      cases k1 <;> first | rfl | exact absurd rfl h1 | exact absurd rfl h2

theorem ClientOrderId_spec {ob : OrderBuilder} {h : Heap} {v : OrderValue} (x : String)
    (hv : viewBuilder h ob = some v) :
    ∃ h2, ClientOrderId ob x h = some h2 ∧ viewBuilder h2 ob = some { v with ClientOrderId := some x } ∧
      Step ob h h2 := by
  obtain ⟨a, o, ha, ho, hvo⟩ := viewBuilder_some_iff.1 hv
  have hlt : a < h.orders.length := (List.getElem?_eq_some_iff.1 ho).1
  refine ⟨{ h with strs := h.strs ++ [x],
                   orders := h.orders.set a { o with ClientOrderId := some h.strs.length } }, ?_, ?_⟩
  · simp [ClientOrderId, setField, GetPointer, orderOf, deref, store, Region.cells, Region.put, ha, ho,
      hlt]
  · refine setField_spec .str (by decide) x (fun o p => { o with ClientOrderId := p })
      (fun v r => { v with ClientOrderId := r }) ?_ ?_ ha ho hvo rfl rfl ?_
    · intro g o1 v1 p r h1 h2
      simp only [viewOrder_some_iff] at h1 ⊢
      exact ⟨h1.1, h1.2.1, h1.2.2.1, h1.2.2.2.1, h1.2.2.2.2.1, h1.2.2.2.2.2.1, h2⟩
    · intro g o1 p loc hm
      simp only [reachOrder, List.mem_append] at hm ⊢
      tauto
    · intro k1 h1 h2
      cases k1 <;> first | rfl | exact absurd rfl h1 | exact absurd rfl h2

theorem viewLimit_some_iff {h : Heap} {l : Nat} {r : Option LimitValue} :
    viewLimit h (some l) = some r ↔
      ∃ lim tv, h.limits[l]? = some lim ∧ viewPtr h.strs lim.Tif = some tv ∧
        r = some ⟨tv⟩ := by
  cases hl : h.limits[l]? with
  | none => simp [viewLimit, hl]
  | some lim =>
    cases ht : viewPtr h.strs lim.Tif <;> simp [viewLimit, hl, ht, eq_comm]

theorem viewTrigger_some_iff {h : Heap} {t : Nat} {r : Option TriggerValue} :
    viewTrigger h (some t) = some r ↔
      ∃ trig px m tp, h.triggers[t]? = some trig ∧ viewPtr h.strs trig.TriggerPx = some px ∧
        viewPtr h.bools trig.IsMarket = some m ∧ viewPtr h.strs trig.Tpsl = some tp ∧
        r = some ⟨px, m, tp⟩ := by
  cases hl : h.triggers[t]? with
  | none => simp [viewTrigger, hl]
  | some trig =>
    cases h1 : viewPtr h.strs trig.TriggerPx <;> cases h2 : viewPtr h.bools trig.IsMarket <;>
      cases h3 : viewPtr h.strs trig.Tpsl <;> simp [viewTrigger, hl, h1, h2, h3, eq_comm]

theorem viewOrderType_some_iff {h : Heap} {t : Nat} {r : Option OrderTypeValue} :
    viewOrderType h (some t) = some r ↔
      ∃ ot lv tv, h.orderTypes[t]? = some ot ∧ viewLimit h ot.Limit = some lv ∧
        viewTrigger h ot.Trigger = some tv ∧ r = some ⟨lv, tv⟩ := by
  cases hl : h.orderTypes[t]? with
  | none => simp [viewOrderType, hl]
  | some ot =>
    cases h1 : viewLimit h ot.Limit <;> cases h2 : viewTrigger h ot.Trigger <;>
      simp [viewOrderType, hl, h1, h2, eq_comm]

theorem mem_reachBuilder_of_orderType {h : Heap} {ob : OrderBuilder} {a : Nat} {o : Order}
    {loc : Loc} (ha : ob.order = some a) (ho : h.orders[a]? = some o)
    (hm : loc ∈ reachOrderType h o.OrderType) : loc ∈ reachBuilder h ob := by
  simp [reachBuilder, ha, ho, reachOrder, hm]

/-- The two order-type setters: the store `h2` after the call, when the
scalar regions only grew, the order record now points to the order-type
record at `t`, and the record regions changed only inside the builder. -/
theorem orderType_spec {ob : OrderBuilder} {h h2 : Heap} {a t : Nat} {o : Order}
    {v : OrderValue} {otv : OrderTypeValue}
    (ha : ob.order = some a) (ho : h.orders[a]? = some o) (hvo : viewOrder h o = some v)
    (hints : h2.ints = h.ints) (hbools : ∃ l, h2.bools = h.bools ++ l)
    (hstrs : ∃ l, h2.strs = h.strs ++ l)
    (hor : h2.orders = h.orders.set a { o with OrderType := some t })
    (hview : viewOrderType h2 (some t) = some (some otv))
    (hreach : ∀ loc ∈ reachOrderType h2 (some t),
      loc ∈ reachOrderType h o.OrderType ∨ ¬ h.has loc)
    (hframe : ∀ loc : Loc, (loc.1 = .limit ∨ loc.1 = .trigger ∨ loc.1 = .orderType) →
      h.has loc → loc ∉ reachOrderType h o.OrderType → h2.cell loc = h.cell loc)
    (hmono : ∀ loc : Loc, (loc.1 = .limit ∨ loc.1 = .trigger ∨ loc.1 = .orderType) →
      h.has loc → h2.has loc) :
    viewBuilder h2 ob = some { v with OrderType := some otv } ∧ Step ob h h2 := by
  have hlt : a < h.orders.length := (List.getElem?_eq_some_iff.1 ho).1
  have ho2 : h2.orders[a]? = some { o with OrderType := some t } := by simp [hor, hlt]
  obtain ⟨lb, hbools⟩ := hbools
  obtain ⟨ls, hstrs⟩ := hstrs
  have hsc : ∀ (k : Kind) (i : Nat), (k = .int ∨ k = .bool ∨ k = .str) → h.has (k, i) →
      h2.cell (k, i) = h.cell (k, i) ∧ h2.has (k, i) := by
    intro k i hk hhas
    rcases hk with rfl | rfl | rfl
    · exact ⟨by simp [Heap.cell, Heap.region, hints], by simpa [Heap.has, Heap.region, hints] using hhas⟩
    · refine ⟨cell_append_left (k := .bool) hbools hhas, ?_⟩
      simp only [Heap.has, Heap.region, hbools, List.length_append] at hhas ⊢
      omega
    · refine ⟨cell_append_left (k := .str) hstrs hhas, ?_⟩
      simp only [Heap.has, Heap.region, hstrs, List.length_append] at hhas ⊢
      omega
  have hptr : ∀ (k : Kind) (p : Ptr) (r : Option k.type), (k = .int ∨ k = .bool ∨ k = .str) →
      viewPtr (h.region k) p = some r → viewPtr (h2.region k) p = some r := by
    intro k p r hk hvp
    rw [← hvp]
    apply viewPtr_agree
    intro loc hm
    obtain ⟨i, rfl, rfl⟩ := mem_ptrLoc.1 hm
    exact (hsc k i hk (viewPtr_lt hvp)).1
  obtain ⟨h1, h2', h3, h4, h5, h6, h7⟩ := viewOrder_some_iff.1 hvo
  refine ⟨viewBuilder_some_iff.2 ⟨a, _, ha, ho2, viewOrder_some_iff.2
    ⟨hptr .int _ _ (by simp) h1, hptr .bool _ _ (by simp) h2', hptr .str _ _ (by simp) h3,
     hptr .str _ _ (by simp) h4, hptr .bool _ _ (by simp) h5, hview,
     hptr .str _ _ (by simp) h7⟩⟩, ?_, ?_, ?_⟩
  · rintro ⟨k, i⟩ ⟨hhas, hnot⟩
    cases k
    case order =>
      have hia : i ≠ a := by
        rintro rfl
        exact hnot (by simp [reachBuilder, ha])
      simp [Heap.cell, Heap.region, hor, List.getElem?_set_ne (Ne.symm hia)]
    case int => exact (hsc _ i (by simp) hhas).1
    case bool => exact (hsc _ i (by simp) hhas).1
    case str => exact (hsc _ i (by simp) hhas).1
    all_goals
      exact hframe _ (by simp) hhas (fun hm => hnot (mem_reachBuilder_of_orderType ha ho hm))
  · rintro ⟨k, i⟩ hhas
    cases k
    case order => simpa [Heap.has, Heap.region, hor] using hhas
    case int => exact (hsc _ i (by simp) hhas).2
    case bool => exact (hsc _ i (by simp) hhas).2
    case str => exact (hsc _ i (by simp) hhas).2
    all_goals exact hmono _ (by simp) hhas
  · intro loc hm
    simp only [reachBuilder, ha, ho2, List.mem_cons, reachOrder, List.mem_append] at hm
    rcases hm with rfl | (((((hm | hm) | hm) | hm) | hm) | hm) | hm
    · exact Or.inl (by simp [reachBuilder, ha])
    · exact Or.inl (by simp [reachBuilder, ha, ho, reachOrder, hm])
    · exact Or.inl (by simp [reachBuilder, ha, ho, reachOrder, hm])
    · exact Or.inl (by simp [reachBuilder, ha, ho, reachOrder, hm])
    · exact Or.inl (by simp [reachBuilder, ha, ho, reachOrder, hm])
    · exact Or.inl (by simp [reachBuilder, ha, ho, reachOrder, hm])
    · exact Or.inl (by simp [reachBuilder, ha, ho, reachOrder, hm])
    · rcases hreach loc hm with h8 | h8
      · exact Or.inl (mem_reachBuilder_of_orderType ha ho h8)
      · exact Or.inr h8

theorem set_self_of_getElem? {α : Type} {l : List α} {a : Nat} {x : α}
    (hx : l[a]? = some x) : l.set a x = l := by
  have hlt : a < l.length := (List.getElem?_eq_some_iff.1 hx).1
  apply List.ext_getElem?
  intro i
  by_cases hi : a = i
  · subst hi
    simp [hlt, hx]
  · simp [List.getElem?_set_ne hi]

theorem LimitTif_spec {ob : OrderBuilder} {h : Heap} {v : OrderValue} (tif : String)
    (hv : viewBuilder h ob = some v) :
    ∃ h2, LimitTif ob tif h = some h2 ∧
      viewBuilder h2 ob = some { v with OrderType := some ⟨some ⟨some tif⟩, none⟩ } ∧
      Step ob h h2 := by
  obtain ⟨a, o, ha, ho, hvo⟩ := viewBuilder_some_iff.1 hv
  have hlt : a < h.orders.length := (List.getElem?_eq_some_iff.1 ho).1
  have hvot := (viewOrder_some_iff.1 hvo).2.2.2.2.2.1
  cases hot : o.OrderType with
  | none =>
    refine ⟨{ h with strs := h.strs ++ [tif],
                     limits := h.limits ++ [⟨some h.strs.length⟩],
                     orderTypes := h.orderTypes ++ [⟨some h.limits.length, none⟩],
                     orders := h.orders.set a { o with OrderType := some h.orderTypes.length } },
      ?_, ?_⟩
    · simp [LimitTif, ensureLimit, ensureOrderType, GetPointer, alloc, orderOf, orderTypeOf,
        limitOf, deref, store, Region.cells, Region.put, ha, ho, hlt, hot]
    · refine orderType_spec ha ho hvo rfl ⟨[], by simp⟩ ⟨[tif], rfl⟩ rfl ?_ ?_ ?_ ?_
      · simp [viewOrderType, viewLimit, viewTrigger, viewPtr]
      · intro loc hm
        simp [reachOrderType, reachLimit, reachTrigger, ptrLoc] at hm
        rcases hm with rfl | rfl | rfl <;> simp [Heap.has, Heap.region]
      · rintro ⟨k, i⟩ hk hhas -
        simp only at hk
        rcases hk with rfl | rfl | rfl
        · exact cell_append_left (k := .limit) rfl hhas
        · rfl
        · exact cell_append_left (k := .orderType) rfl hhas
      · rintro ⟨k, i⟩ hk hhas
        simp only at hk
        rcases hk with rfl | rfl | rfl <;>
          simp only [Heap.has, Heap.region, List.length_append] at hhas ⊢ <;> omega
  | some t =>
    rw [hot] at hvot
    obtain ⟨ot, lv, tv, hcot, hvl, -, -⟩ := viewOrderType_some_iff.1 hvot
    have hlt2 : t < h.orderTypes.length := (List.getElem?_eq_some_iff.1 hcot).1
    have hoo : h.orders.set a { o with OrderType := some t } = h.orders := by
      rw [← hot]
      exact set_self_of_getElem? ho
    have hmt : (Kind.orderType, t) ∈ reachOrderType h o.OrderType := by
      simp [hot, reachOrderType]
    cases hl : ot.Limit with
    | none =>
      refine ⟨{ h with strs := h.strs ++ [tif],
                       limits := h.limits ++ [⟨some h.strs.length⟩],
                       orderTypes := h.orderTypes.set t ⟨some h.limits.length, none⟩ }, ?_, ?_⟩
      · simp [LimitTif, ensureLimit, ensureOrderType, GetPointer, alloc, orderOf, orderTypeOf,
          limitOf, deref, store, Region.cells, Region.put, ha, ho, hlt, hot, hcot, hlt2, hl]
      · refine orderType_spec ha ho hvo rfl ⟨[], by simp⟩ ⟨[tif], rfl⟩ hoo.symm ?_ ?_ ?_ ?_
        · simp [viewOrderType, viewLimit, viewTrigger, viewPtr, hlt2]
        · intro loc hm
          simp [reachOrderType, reachLimit, reachTrigger, ptrLoc, hlt2] at hm
          rcases hm with rfl | rfl | rfl
          · exact Or.inl hmt
          · exact Or.inr (by simp [Heap.has, Heap.region])
          · exact Or.inr (by simp [Heap.has, Heap.region])
        · rintro ⟨k, i⟩ hk hhas hnot
          simp only at hk
          rcases hk with rfl | rfl | rfl
          · exact cell_append_left (k := .limit) rfl hhas
          · rfl
          · have hit : i ≠ t := by
              rintro rfl
              exact hnot hmt
            simp [Heap.cell, Heap.region, List.getElem?_set_ne (Ne.symm hit)]
        · rintro ⟨k, i⟩ hk hhas
          simp only at hk
          rcases hk with rfl | rfl | rfl <;>
            simp only [Heap.has, Heap.region, List.length_append, List.length_set] at hhas ⊢ <;>
            omega
    | some l =>
      rw [hl] at hvl
      obtain ⟨lim, tfv, hclim, -, -⟩ := viewLimit_some_iff.1 hvl
      have hlt3 : l < h.limits.length := (List.getElem?_eq_some_iff.1 hclim).1
      have hml : (Kind.limit, l) ∈ reachOrderType h o.OrderType := by
        simp [hot, reachOrderType, hcot, hl, reachLimit]
      refine ⟨{ h with strs := h.strs ++ [tif],
                       limits := h.limits.set l ⟨some h.strs.length⟩,
                       orderTypes := h.orderTypes.set t ⟨some l, none⟩ }, ?_, ?_⟩
      · simp [LimitTif, ensureLimit, ensureOrderType, GetPointer, alloc, orderOf, orderTypeOf,
          limitOf, deref, store, Region.cells, Region.put, ha, ho, hlt, hot, hcot, hlt2, hl,
          hclim, hlt3]
      · refine orderType_spec ha ho hvo rfl ⟨[], by simp⟩ ⟨[tif], rfl⟩ hoo.symm ?_ ?_ ?_ ?_
        · simp [viewOrderType, viewLimit, viewTrigger, viewPtr, hlt2, hlt3]
        · intro loc hm
          simp [reachOrderType, reachLimit, reachTrigger, ptrLoc, hlt2, hlt3] at hm
          rcases hm with rfl | rfl | rfl
          · exact Or.inl hmt
          · exact Or.inl hml
          · exact Or.inr (by simp [Heap.has, Heap.region])
        · rintro ⟨k, i⟩ hk hhas hnot
          simp only at hk
          rcases hk with rfl | rfl | rfl
          · have hil : i ≠ l := by
              rintro rfl
              exact hnot hml
            simp [Heap.cell, Heap.region, List.getElem?_set_ne (Ne.symm hil)]
          · rfl
          · have hit : i ≠ t := by
              rintro rfl
              exact hnot hmt
            simp [Heap.cell, Heap.region, List.getElem?_set_ne (Ne.symm hit)]
        · rintro ⟨k, i⟩ hk hhas
          simp only at hk
          rcases hk with rfl | rfl | rfl <;>
            simp only [Heap.has, Heap.region, List.length_append, List.length_set] at hhas ⊢ <;>
            omega

theorem getElem_append_pair {α : Type} (l : List α) (x y : α) :
    (l ++ [x, y])[l.length]? = some x ∧ (l ++ [x, y])[l.length + 1]? = some y := by
  constructor
  · rw [List.getElem?_append_right (Nat.le_refl _)]
    simp
  · rw [List.getElem?_append_right (Nat.le_succ _)]
    simp

theorem getElem_append_pair_fst {α : Type} (l : List α) (x y : α)
    (hh : l.length < (l ++ [x, y]).length) : (l ++ [x, y])[l.length] = x := by
  have h1 := (getElem_append_pair l x y).1
  rw [List.getElem?_eq_getElem hh] at h1
  exact Option.some.inj h1

theorem getElem_append_pair_snd {α : Type} (l : List α) (x y : α)
    (hh : l.length + 1 < (l ++ [x, y]).length) : (l ++ [x, y])[l.length + 1] = y := by
  have h1 := (getElem_append_pair l x y).2
  rw [List.getElem?_eq_getElem hh] at h1
  exact Option.some.inj h1

set_option maxHeartbeats 1000000 in
theorem Trigger_spec {ob : OrderBuilder} {h : Heap} {v : OrderValue} (m : Bool)
    (px tp : String) (hv : viewBuilder h ob = some v) :
    ∃ h2, Trigger ob m px tp h = some h2 ∧
      viewBuilder h2 ob
        = some { v with OrderType := some ⟨none, some ⟨some px, some m, some tp⟩⟩ } ∧
      Step ob h h2 := by
  obtain ⟨a, o, ha, ho, hvo⟩ := viewBuilder_some_iff.1 hv
  have hlt : a < h.orders.length := (List.getElem?_eq_some_iff.1 ho).1
  have hvot := (viewOrder_some_iff.1 hvo).2.2.2.2.2.1
  cases hot : o.OrderType with
  | none =>
    refine ⟨{ h with bools := h.bools ++ [m], strs := h.strs ++ [px, tp],
                     triggers := h.triggers ++
                       [⟨some h.strs.length, some h.bools.length, some (h.strs.length + 1)⟩],
                     orderTypes := h.orderTypes ++ [⟨none, some h.triggers.length⟩],
                     orders := h.orders.set a { o with OrderType := some h.orderTypes.length } },
      ?_, ?_⟩
    · simp [Trigger, ensureTrigger, ensureOrderType, GetPointer, alloc, orderOf, orderTypeOf,
        triggerOf, deref, store, Region.cells, Region.put, ha, ho, hlt, hot]
    · refine orderType_spec ha ho hvo rfl ⟨[m], rfl⟩ ⟨[px, tp], rfl⟩ rfl ?_ ?_ ?_ ?_
      · simp [viewOrderType, viewLimit, viewTrigger, viewPtr, getElem_append_pair_fst,
          getElem_append_pair_snd]
      · intro loc hm
        simp [reachOrderType, reachLimit, reachTrigger, ptrLoc] at hm
        rcases hm with rfl | rfl | rfl | rfl | rfl <;> simp [Heap.has, Heap.region]
      · rintro ⟨k, i⟩ hk hhas -
        simp only at hk
        rcases hk with rfl | rfl | rfl
        · rfl
        · exact cell_append_left (k := .trigger) rfl hhas
        · exact cell_append_left (k := .orderType) rfl hhas
      · rintro ⟨k, i⟩ hk hhas
        simp only at hk
        rcases hk with rfl | rfl | rfl <;>
          simp only [Heap.has, Heap.region, List.length_append] at hhas ⊢ <;> omega
  | some t =>
    rw [hot] at hvot
    obtain ⟨ot, lv, tv, hcot, -, hvt, -⟩ := viewOrderType_some_iff.1 hvot
    have hlt2 : t < h.orderTypes.length := (List.getElem?_eq_some_iff.1 hcot).1
    have hoo : h.orders.set a { o with OrderType := some t } = h.orders := by
      rw [← hot]
      exact set_self_of_getElem? ho
    have hmt : (Kind.orderType, t) ∈ reachOrderType h o.OrderType := by
      simp [hot, reachOrderType]
    cases hl : ot.Trigger with
    | none =>
      refine ⟨{ h with bools := h.bools ++ [m], strs := h.strs ++ [px, tp],
                       triggers := h.triggers ++
                         [⟨some h.strs.length, some h.bools.length, some (h.strs.length + 1)⟩],
                       orderTypes := h.orderTypes.set t ⟨none, some h.triggers.length⟩ },
        ?_, ?_⟩
      · simp [Trigger, ensureTrigger, ensureOrderType, GetPointer, alloc, orderOf, orderTypeOf,
          triggerOf, deref, store, Region.cells, Region.put, ha, ho, hlt, hot, hcot, hlt2, hl]
      · refine orderType_spec ha ho hvo rfl ⟨[m], rfl⟩ ⟨[px, tp], rfl⟩ hoo.symm ?_ ?_ ?_ ?_
        · simp [viewOrderType, viewLimit, viewTrigger, viewPtr, hlt2, getElem_append_pair_fst,
            getElem_append_pair_snd]
        · intro loc hm
          simp [reachOrderType, reachLimit, reachTrigger, ptrLoc, hlt2] at hm
          rcases hm with rfl | rfl | rfl | rfl | rfl
          · exact Or.inl hmt
          all_goals exact Or.inr (by simp [Heap.has, Heap.region])
        · rintro ⟨k, i⟩ hk hhas hnot
          simp only at hk
          rcases hk with rfl | rfl | rfl
          · rfl
          · exact cell_append_left (k := .trigger) rfl hhas
          · have hit : i ≠ t := by
              rintro rfl
              exact hnot hmt
            simp [Heap.cell, Heap.region, List.getElem?_set_ne (Ne.symm hit)]
        · rintro ⟨k, i⟩ hk hhas
          simp only at hk
          rcases hk with rfl | rfl | rfl <;>
            simp only [Heap.has, Heap.region, List.length_append, List.length_set] at hhas ⊢ <;>
            omega
    | some r =>
      rw [hl] at hvt
      obtain ⟨trig, -, -, -, hctrig, -, -, -, -⟩ := viewTrigger_some_iff.1 hvt
      have hlt3 : r < h.triggers.length := (List.getElem?_eq_some_iff.1 hctrig).1
      have hmr : (Kind.trigger, r) ∈ reachOrderType h o.OrderType := by
        simp [hot, reachOrderType, hcot, hl, reachTrigger]
      refine ⟨{ h with bools := h.bools ++ [m], strs := h.strs ++ [px, tp],
                       triggers := h.triggers.set r
                         ⟨some h.strs.length, some h.bools.length, some (h.strs.length + 1)⟩,
                       orderTypes := h.orderTypes.set t ⟨none, some r⟩ }, ?_, ?_⟩
      · simp [Trigger, ensureTrigger, ensureOrderType, GetPointer, alloc, orderOf, orderTypeOf,
          triggerOf, deref, store, Region.cells, Region.put, ha, ho, hlt, hot, hcot, hlt2, hl,
          hctrig, hlt3]
      · refine orderType_spec ha ho hvo rfl ⟨[m], rfl⟩ ⟨[px, tp], rfl⟩ hoo.symm ?_ ?_ ?_ ?_
        · simp [viewOrderType, viewLimit, viewTrigger, viewPtr, hlt2, hlt3, getElem_append_pair_fst,
            getElem_append_pair_snd]
        · intro loc hm
          simp [reachOrderType, reachLimit, reachTrigger, ptrLoc, hlt2, hlt3] at hm
          rcases hm with rfl | rfl | rfl | rfl | rfl
          · exact Or.inl hmt
          · exact Or.inl hmr
          all_goals exact Or.inr (by simp [Heap.has, Heap.region])
        · rintro ⟨k, i⟩ hk hhas hnot
          simp only at hk
          rcases hk with rfl | rfl | rfl
          · rfl
          · have hil : i ≠ r := by
              rintro rfl
              exact hnot hmr
            simp [Heap.cell, Heap.region, List.getElem?_set_ne (Ne.symm hil)]
          · have hit : i ≠ t := by
              rintro rfl
              exact hnot hmt
            simp [Heap.cell, Heap.region, List.getElem?_set_ne (Ne.symm hit)]
        · rintro ⟨k, i⟩ hk hhas
          simp only at hk
          rcases hk with rfl | rfl | rfl <;>
            simp only [Heap.has, Heap.region, List.length_append, List.length_set] at hhas ⊢ <;>
            omega

/-! ### The copy made by `Build` -/

theorem Ext.refl (g : Heap) : Ext g g := ⟨fun _ _ => rfl, fun _ hh => hh⟩

theorem ExtBut.trans {X Y : List Loc} {g1 g2 g3 : Heap} (h12 : ExtBut X g1 g2)
    (h23 : ExtBut Y g2 g3) : ExtBut (X ++ Y) g1 g3 := by
  refine ⟨?_, fun loc hh => h23.2 loc (h12.2 loc hh)⟩
  rintro loc ⟨hh, hn⟩
  rw [List.mem_append, not_or] at hn
  rw [h23.1 loc ⟨h12.2 loc hh, hn.2⟩, h12.1 loc ⟨hh, hn.1⟩]

theorem Ext.comp {g1 g2 g3 : Heap} (h12 : Ext g1 g2) (h23 : Ext g2 g3) : Ext g1 g3 :=
  ExtBut.trans (X := []) (Y := []) h12 h23

theorem Ext.of_but {X : List Loc} {h g1 g2 : Heap} (h1 : Ext h g1) (h12 : ExtBut X g1 g2)
    (hX : ∀ loc ∈ X, ¬ h.has loc) : Ext h g2 := by
  refine ⟨?_, fun loc hh => h12.2 loc (h1.2 loc hh)⟩
  rintro loc ⟨hh, -⟩
  rw [h12.1 loc ⟨h1.2 loc hh, fun hm => hX loc hm hh⟩, h1.1 loc ⟨hh, by simp⟩]

theorem Ext.keep {h g : Heap} (he : Ext h g) {k : Kind} {i : Nat} {c : k.type}
    (hc : (h.region k)[i]? = some c) : (g.region k)[i]? = some c := by
  have h1 := he.1 (k, i) ⟨(List.getElem?_eq_some_iff.1 hc).1, by simp⟩
  simp only [Heap.cell] at h1
  rw [h1, hc]

theorem Ext.keepPtr {h g : Heap} (he : Ext h g) {k : Kind} {p : Ptr} {r : Option k.type}
    (hv : viewPtr (h.region k) p = some r) : viewPtr (g.region k) p = some r := by
  rw [← hv]
  apply viewPtr_agree
  intro loc hm
  exact he.1 loc ⟨has_of_viewPtr hv loc hm, by simp⟩

theorem Ext.agreeOn {h g : Heap} (he : Ext h g) {P : Loc → Prop} (hP : ∀ loc, P loc → h.has loc) :
    AgreeOn P h g :=
  fun loc hl => he.1 loc ⟨hP loc hl, by simp⟩

/-- A store whose regions were each extended by new cells, or overwritten at
one cell of `X`, keeps the old cells outside `X`. -/
theorem extBut_of_regions {X : List Loc} {g1 g2 : Heap}
    (hreg : ∀ k : Kind, (∃ l, g2.region k = g1.region k ++ l) ∨
      (∃ a x l, (k, a) ∈ X ∧ g2.region k = (g1.region k).set a x ++ l)) : ExtBut X g1 g2 := by
  constructor
  · rintro ⟨k, i⟩ ⟨hh, hn⟩
    rcases hreg k with ⟨l, hl⟩ | ⟨a, x, l, hm, hl⟩
    · exact cell_append_left hl hh
    · have hia : a ≠ i := by
        rintro rfl
        exact hn hm
      simp only [Heap.cell, hl]
      rw [List.getElem?_append_left (by simpa using hh), List.getElem?_set_ne hia]
  · rintro ⟨k, i⟩ hh
    rcases hreg k with ⟨l, hl⟩ | ⟨a, x, l, -, hl⟩ <;>
      simp only [Heap.has, hl, List.length_append, List.length_set] at hh ⊢ <;> omega

theorem copyField_int {ob : OrderBuilder} {h g : Heap} {a : Nat} {src : Order}
    (get : Order → Ptr) {r : Option Int} (he : Ext h g) (ha : ob.order = some a)
    (ho : h.orders[a]? = some src) (hvp : viewPtr h.ints (get src) = some r) :
    ∃ p g2, copyField Int get ob g = some (p, g2) ∧ Ext g g2 ∧ viewPtr g2.ints p = some r ∧
      ∀ loc ∈ ptrLoc .int p, ¬ g.has loc := by
  have hog : g.orders[a]? = some src := he.keep (k := .order) ho
  rcases viewPtr_some_iff.1 hvp with ⟨hp, rfl⟩ | ⟨q, x, hp, hc, rfl⟩
  · refine ⟨none, g, ?_, Ext.refl g, rfl, by simp [ptrLoc]⟩
    simp [copyField, orderOf, deref, Region.cells, ha, hog, hp]
  · have hcg : g.ints[q]? = some x := he.keep (k := .int) hc
    refine ⟨some g.ints.length, { g with ints := g.ints ++ [x] }, ?_, ?_, ?_, ?_⟩
    · simp [copyField, orderOf, deref, GetPointer, Region.cells, Region.put, ha, hog, hp, hcg]
    · apply extBut_of_regions
      intro k
      cases k <;> simp [Heap.region]
    · simp [viewPtr]
    · simp [ptrLoc, Heap.has, Heap.region]

theorem copyField_bool {ob : OrderBuilder} {h g : Heap} {a : Nat} {src : Order}
    (get : Order → Ptr) {r : Option Bool} (he : Ext h g) (ha : ob.order = some a)
    (ho : h.orders[a]? = some src) (hvp : viewPtr h.bools (get src) = some r) :
    ∃ p g2, copyField Bool get ob g = some (p, g2) ∧ Ext g g2 ∧ viewPtr g2.bools p = some r ∧
      ∀ loc ∈ ptrLoc .bool p, ¬ g.has loc := by
  have hog : g.orders[a]? = some src := he.keep (k := .order) ho
  rcases viewPtr_some_iff.1 hvp with ⟨hp, rfl⟩ | ⟨q, x, hp, hc, rfl⟩
  · refine ⟨none, g, ?_, Ext.refl g, rfl, by simp [ptrLoc]⟩
    simp [copyField, orderOf, deref, Region.cells, ha, hog, hp]
  · have hcg : g.bools[q]? = some x := he.keep (k := .bool) hc
    refine ⟨some g.bools.length, { g with bools := g.bools ++ [x] }, ?_, ?_, ?_, ?_⟩
    · simp [copyField, orderOf, deref, GetPointer, Region.cells, Region.put, ha, hog, hp, hcg]
    · apply extBut_of_regions
      intro k
      cases k <;> simp [Heap.region]
    · simp [viewPtr]
    · simp [ptrLoc, Heap.has, Heap.region]

theorem copyField_str {ob : OrderBuilder} {h g : Heap} {a : Nat} {src : Order}
    (get : Order → Ptr) {r : Option String} (he : Ext h g) (ha : ob.order = some a)
    (ho : h.orders[a]? = some src) (hvp : viewPtr h.strs (get src) = some r) :
    ∃ p g2, copyField String get ob g = some (p, g2) ∧ Ext g g2 ∧ viewPtr g2.strs p = some r ∧
      ∀ loc ∈ ptrLoc .str p, ¬ g.has loc := by
  have hog : g.orders[a]? = some src := he.keep (k := .order) ho
  rcases viewPtr_some_iff.1 hvp with ⟨hp, rfl⟩ | ⟨q, x, hp, hc, rfl⟩
  · refine ⟨none, g, ?_, Ext.refl g, rfl, by simp [ptrLoc]⟩
    simp [copyField, orderOf, deref, Region.cells, ha, hog, hp]
  · have hcg : g.strs[q]? = some x := he.keep (k := .str) hc
    refine ⟨some g.strs.length, { g with strs := g.strs ++ [x] }, ?_, ?_, ?_, ?_⟩
    · simp [copyField, orderOf, deref, GetPointer, Region.cells, Region.put, ha, hog, hp, hcg]
    · apply extBut_of_regions
      intro k
      cases k <;> simp [Heap.region]
    · simp [viewPtr]
    · simp [ptrLoc, Heap.has, Heap.region]

theorem ne_of_has_not_has {h : Heap} {k : Kind} {i j : Nat} (hi : h.has (k, i))
    (hj : ¬ h.has (k, j)) : j ≠ i := by
  rintro rfl
  exact hj hi

theorem copyLimit_spec {ob : OrderBuilder} {h g : Heap} {a t t' : Nat} {src : Order}
    {sot dot : OrderType} {lv : Option LimitValue}
    (he : Ext h g) (ha : ob.order = some a) (ho : h.orders[a]? = some src)
    (hot : src.OrderType = some t) (hcot : h.orderTypes[t]? = some sot)
    (hvl : viewLimit h sot.Limit = some lv)
    (hd : g.orderTypes[t']? = some dot) (hdl : dot.Limit = none)
    (hfresh : ¬ h.has (.orderType, t')) :
    ∃ g2 L, copyLimit t' ob g = some g2 ∧ ExtBut [(.orderType, t')] g g2 ∧
      g2.orderTypes[t']? = some ⟨L, dot.Trigger⟩ ∧ viewLimit g2 L = some lv ∧
      ∀ loc ∈ reachLimit g2 L, ¬ g.has loc := by
  have hog : g.orders[a]? = some src := he.keep (k := .order) ho
  have hcotg : g.orderTypes[t]? = some sot := he.keep (k := .orderType) hcot
  have htt : t' ≠ t :=
    ne_of_has_not_has (h := h) (k := .orderType) (List.getElem?_eq_some_iff.1 hcot).1 hfresh
  have hlt : t' < g.orderTypes.length := (List.getElem?_eq_some_iff.1 hd).1
  cases hsl : sot.Limit with
  | none =>
    rw [hsl] at hvl
    obtain rfl : lv = none := by simpa [viewLimit] using hvl.symm
    refine ⟨g, none, ?_, ?_, ?_, rfl, by simp [reachLimit]⟩
    · simp [copyLimit, orderTypeOf, orderOf, deref, Region.cells, ha, hog, hot, hcotg, hsl]
    · exact ⟨fun _ _ => rfl, fun _ hh => hh⟩
    · rw [hd, ← hdl]
  | some l =>
    rw [hsl] at hvl
    obtain ⟨slim, tfv, hcl, hvt, rfl⟩ := viewLimit_some_iff.1 hvl
    have hclg : g.limits[l]? = some slim := he.keep (k := .limit) hcl
    have hlg : l < g.limits.length := (List.getElem?_eq_some_iff.1 hclg).1
    rcases viewPtr_some_iff.1 hvt with ⟨hp, rfl⟩ | ⟨q, x, hp, hc, rfl⟩
    · refine ⟨{ g with limits := g.limits ++ [⟨none⟩],
                       orderTypes := g.orderTypes.set t' ⟨some g.limits.length, dot.Trigger⟩ },
        some g.limits.length, ?_, ?_, ?_, ?_, ?_⟩
      · simp [copyLimit, limitOf, orderTypeOf, orderOf, deref, alloc, store, Region.cells,
          Region.put, ha, hog, hot, hcotg, hsl, hd, hlt, htt, hclg, hlg, hp,
          List.getElem?_append_left]
      · apply extBut_of_regions
        intro k
        cases k
        case orderType =>
          exact Or.inr ⟨t', _, [], List.mem_singleton.2 rfl, (List.append_nil _).symm⟩
        all_goals first
          | exact Or.inl ⟨[], (List.append_nil _).symm⟩
          | exact Or.inl ⟨_, rfl⟩
      · simp [hlt]
      · simp [viewLimit, viewPtr]
      · simp [reachLimit, ptrLoc, Heap.has, Heap.region]
    · have hcg : g.strs[q]? = some x := he.keep (k := .str) hc
      have hqg : q < g.strs.length := (List.getElem?_eq_some_iff.1 hcg).1
      refine ⟨{ g with strs := g.strs ++ [x], limits := g.limits ++ [⟨some g.strs.length⟩],
                       orderTypes := g.orderTypes.set t' ⟨some g.limits.length, dot.Trigger⟩ },
        some g.limits.length, ?_, ?_, ?_, ?_, ?_⟩
      · simp [copyLimit, limitOf, orderTypeOf, orderOf, deref, alloc, store, GetPointer,
          Region.cells, Region.put, ha, hog, hot, hcotg, hsl, hd, hlt, htt, hclg, hlg, hp,
          hcg, hqg, List.getElem?_append_left]
      · apply extBut_of_regions
        intro k
        cases k
        case orderType =>
          exact Or.inr ⟨t', _, [], List.mem_singleton.2 rfl, (List.append_nil _).symm⟩
        all_goals first
          | exact Or.inl ⟨[], (List.append_nil _).symm⟩
          | exact Or.inl ⟨_, rfl⟩
      · simp [hlt]
      · simp [viewLimit, viewPtr]
      · simp [reachLimit, ptrLoc, Heap.has, Heap.region]

theorem ExtBut.weaken {X Y : List Loc} {g1 g2 : Heap} (h12 : ExtBut X g1 g2)
    (hXY : ∀ loc ∈ X, loc ∈ Y ∨ ¬ g1.has loc) : ExtBut Y g1 g2 := by
  refine ⟨?_, h12.2⟩
  rintro loc ⟨hh, hn⟩
  refine h12.1 loc ⟨hh, fun hm => ?_⟩
  rcases hXY loc hm with h1 | h1
  · exact hn h1
  · exact h1 hh

theorem ExtBut.keepCell {X : List Loc} {g1 g2 : Heap} (h12 : ExtBut X g1 g2) {k : Kind} {i : Nat}
    {c : k.type} (hX : (k, i) ∉ X) (hc : (g1.region k)[i]? = some c) :
    (g2.region k)[i]? = some c := by
  have h1 := h12.1 (k, i) ⟨(List.getElem?_eq_some_iff.1 hc).1, hX⟩
  simp only [Heap.cell] at h1
  rw [h1, hc]

theorem ExtBut.keepView {X : List Loc} {g1 g2 : Heap} (h12 : ExtBut X g1 g2) {k : Kind}
    {p : Ptr} {r : Option k.type} (hX : ∀ i, (k, i) ∉ X)
    (hv : viewPtr (g1.region k) p = some r) : viewPtr (g2.region k) p = some r := by
  rw [← hv]
  apply viewPtr_agree
  intro loc hm
  refine h12.1 loc ⟨has_of_viewPtr hv loc hm, ?_⟩
  obtain ⟨i, -, rfl⟩ := mem_ptrLoc.1 hm
  exact hX i

theorem copyTriggerField_TriggerPx {ob : OrderBuilder} {h g : Heap} {a t r0 t' r' : Nat}
    {src : Order} {sot dot : OrderType} {strig dtrig : OrderTypeTrigger} {x : Option String}
    (he : Ext h g) (ha : ob.order = some a) (ho : h.orders[a]? = some src)
    (hot : src.OrderType = some t) (hcot : h.orderTypes[t]? = some sot)
    (hst : sot.Trigger = some r0) (hct : h.triggers[r0]? = some strig)
    (hvp : viewPtr h.strs strig.TriggerPx = some x)
    (hd : g.orderTypes[t']? = some dot) (hdt : dot.Trigger = some r')
    (hdc : g.triggers[r']? = some dtrig) (hdn : dtrig.TriggerPx = none)
    (hfresh : ¬ h.has (.trigger, r')) :
    ∃ g2 P, copyTriggerField String (fun s => s.TriggerPx) (fun d p => { d with TriggerPx := p }) t' ob g
        = some g2 ∧
      ExtBut [(.trigger, r')] g g2 ∧ g2.triggers[r']? = some { dtrig with TriggerPx := P } ∧
      viewPtr g2.strs P = some x ∧ ∀ loc ∈ ptrLoc .str P, ¬ g.has loc := by
  have hog : g.orders[a]? = some src := he.keep (k := .order) ho
  have hcotg : g.orderTypes[t]? = some sot := he.keep (k := .orderType) hcot
  have hctg : g.triggers[r0]? = some strig := he.keep (k := .trigger) hct
  have hrr : r' ≠ r0 :=
    ne_of_has_not_has (h := h) (k := .trigger) (List.getElem?_eq_some_iff.1 hct).1 hfresh
  have hlt : r' < g.triggers.length := (List.getElem?_eq_some_iff.1 hdc).1
  rcases viewPtr_some_iff.1 hvp with ⟨hp, rfl⟩ | ⟨q, y, hp, hc, rfl⟩
  · refine ⟨g, none, ?_, ⟨fun _ _ => rfl, fun _ hh => hh⟩, ?_, rfl, by simp [ptrLoc]⟩
    · simp [copyTriggerField, triggerOf, orderTypeOf, orderOf, deref, Region.cells, ha, hog,
        hot, hcotg, hst, hctg, hp]
    · rw [hdc, ← hdn]
  · have hcg : g.strs[q]? = some y := he.keep (k := .str) hc
    refine ⟨{ g with strs := g.strs ++ [y],
                     triggers := g.triggers.set r' { dtrig with TriggerPx := some g.strs.length } },
      some g.strs.length, ?_, ?_, ?_, ?_, ?_⟩
    · simp [copyTriggerField, triggerOf, orderTypeOf, orderOf, deref, store, GetPointer,
        Region.cells, Region.put, ha, hog, hot, hcotg, hst, hctg, hp, hcg, hd, hdt, hdc, hlt]
    · apply extBut_of_regions
      intro k
      cases k
      case trigger =>
        exact Or.inr ⟨r', _, [], List.mem_singleton.2 rfl, (List.append_nil _).symm⟩
      all_goals first
        | exact Or.inl ⟨[], (List.append_nil _).symm⟩
        | exact Or.inl ⟨_, rfl⟩
    · simp [hlt]
    · simp [viewPtr]
    · simp [ptrLoc, Heap.has, Heap.region]

theorem copyTriggerField_IsMarket {ob : OrderBuilder} {h g : Heap} {a t r0 t' r' : Nat}
    {src : Order} {sot dot : OrderType} {strig dtrig : OrderTypeTrigger} {x : Option Bool}
    (he : Ext h g) (ha : ob.order = some a) (ho : h.orders[a]? = some src)
    (hot : src.OrderType = some t) (hcot : h.orderTypes[t]? = some sot)
    (hst : sot.Trigger = some r0) (hct : h.triggers[r0]? = some strig)
    (hvp : viewPtr h.bools strig.IsMarket = some x)
    (hd : g.orderTypes[t']? = some dot) (hdt : dot.Trigger = some r')
    (hdc : g.triggers[r']? = some dtrig) (hdn : dtrig.IsMarket = none)
    (hfresh : ¬ h.has (.trigger, r')) :
    ∃ g2 P, copyTriggerField Bool (fun s => s.IsMarket) (fun d p => { d with IsMarket := p }) t' ob g
        = some g2 ∧
      ExtBut [(.trigger, r')] g g2 ∧ g2.triggers[r']? = some { dtrig with IsMarket := P } ∧
      viewPtr g2.bools P = some x ∧ ∀ loc ∈ ptrLoc .bool P, ¬ g.has loc := by
  have hog : g.orders[a]? = some src := he.keep (k := .order) ho
  have hcotg : g.orderTypes[t]? = some sot := he.keep (k := .orderType) hcot
  have hctg : g.triggers[r0]? = some strig := he.keep (k := .trigger) hct
  have hrr : r' ≠ r0 :=
    ne_of_has_not_has (h := h) (k := .trigger) (List.getElem?_eq_some_iff.1 hct).1 hfresh
  have hlt : r' < g.triggers.length := (List.getElem?_eq_some_iff.1 hdc).1
  rcases viewPtr_some_iff.1 hvp with ⟨hp, rfl⟩ | ⟨q, y, hp, hc, rfl⟩
  · refine ⟨g, none, ?_, ⟨fun _ _ => rfl, fun _ hh => hh⟩, ?_, rfl, by simp [ptrLoc]⟩
    · simp [copyTriggerField, triggerOf, orderTypeOf, orderOf, deref, Region.cells, ha, hog,
        hot, hcotg, hst, hctg, hp]
    · rw [hdc, ← hdn]
  · have hcg : g.bools[q]? = some y := he.keep (k := .bool) hc
    refine ⟨{ g with bools := g.bools ++ [y],
                     triggers := g.triggers.set r' { dtrig with IsMarket := some g.bools.length } },
      some g.bools.length, ?_, ?_, ?_, ?_, ?_⟩
    · simp [copyTriggerField, triggerOf, orderTypeOf, orderOf, deref, store, GetPointer,
        Region.cells, Region.put, ha, hog, hot, hcotg, hst, hctg, hp, hcg, hd, hdt, hdc, hlt]
    · apply extBut_of_regions
      intro k
      cases k
      case trigger =>
        exact Or.inr ⟨r', _, [], List.mem_singleton.2 rfl, (List.append_nil _).symm⟩
      all_goals first
        | exact Or.inl ⟨[], (List.append_nil _).symm⟩
        | exact Or.inl ⟨_, rfl⟩
    · simp [hlt]
    · simp [viewPtr]
    · simp [ptrLoc, Heap.has, Heap.region]

theorem copyTriggerField_Tpsl {ob : OrderBuilder} {h g : Heap} {a t r0 t' r' : Nat}
    {src : Order} {sot dot : OrderType} {strig dtrig : OrderTypeTrigger} {x : Option String}
    (he : Ext h g) (ha : ob.order = some a) (ho : h.orders[a]? = some src)
    (hot : src.OrderType = some t) (hcot : h.orderTypes[t]? = some sot)
    (hst : sot.Trigger = some r0) (hct : h.triggers[r0]? = some strig)
    (hvp : viewPtr h.strs strig.Tpsl = some x)
    (hd : g.orderTypes[t']? = some dot) (hdt : dot.Trigger = some r')
    (hdc : g.triggers[r']? = some dtrig) (hdn : dtrig.Tpsl = none)
    (hfresh : ¬ h.has (.trigger, r')) :
    ∃ g2 P, copyTriggerField String (fun s => s.Tpsl) (fun d p => { d with Tpsl := p }) t' ob g
        = some g2 ∧
      ExtBut [(.trigger, r')] g g2 ∧ g2.triggers[r']? = some { dtrig with Tpsl := P } ∧
      viewPtr g2.strs P = some x ∧ ∀ loc ∈ ptrLoc .str P, ¬ g.has loc := by
  have hog : g.orders[a]? = some src := he.keep (k := .order) ho
  have hcotg : g.orderTypes[t]? = some sot := he.keep (k := .orderType) hcot
  have hctg : g.triggers[r0]? = some strig := he.keep (k := .trigger) hct
  have hrr : r' ≠ r0 :=
    ne_of_has_not_has (h := h) (k := .trigger) (List.getElem?_eq_some_iff.1 hct).1 hfresh
  have hlt : r' < g.triggers.length := (List.getElem?_eq_some_iff.1 hdc).1
  rcases viewPtr_some_iff.1 hvp with ⟨hp, rfl⟩ | ⟨q, y, hp, hc, rfl⟩
  · refine ⟨g, none, ?_, ⟨fun _ _ => rfl, fun _ hh => hh⟩, ?_, rfl, by simp [ptrLoc]⟩
    · simp [copyTriggerField, triggerOf, orderTypeOf, orderOf, deref, Region.cells, ha, hog,
        hot, hcotg, hst, hctg, hp]
    · rw [hdc, ← hdn]
  · have hcg : g.strs[q]? = some y := he.keep (k := .str) hc
    refine ⟨{ g with strs := g.strs ++ [y],
                     triggers := g.triggers.set r' { dtrig with Tpsl := some g.strs.length } },
      some g.strs.length, ?_, ?_, ?_, ?_, ?_⟩
    · simp [copyTriggerField, triggerOf, orderTypeOf, orderOf, deref, store, GetPointer,
        Region.cells, Region.put, ha, hog, hot, hcotg, hst, hctg, hp, hcg, hd, hdt, hdc, hlt]
    · apply extBut_of_regions
      intro k
      cases k
      case trigger =>
        exact Or.inr ⟨r', _, [], List.mem_singleton.2 rfl, (List.append_nil _).symm⟩
      all_goals first
        | exact Or.inl ⟨[], (List.append_nil _).symm⟩
        | exact Or.inl ⟨_, rfl⟩
    · simp [hlt]
    · simp [viewPtr]
    · simp [ptrLoc, Heap.has, Heap.region]

theorem copyTrigger_spec {ob : OrderBuilder} {h g : Heap} {a t t' : Nat} {src : Order}
    {sot dot : OrderType} {tv : Option TriggerValue}
    (he : Ext h g) (ha : ob.order = some a) (ho : h.orders[a]? = some src)
    (hot : src.OrderType = some t) (hcot : h.orderTypes[t]? = some sot)
    (hvt : viewTrigger h sot.Trigger = some tv)
    (hd : g.orderTypes[t']? = some dot) (hdt : dot.Trigger = none)
    (hfresh : ¬ h.has (.orderType, t')) :
    ∃ g2 R, copyTrigger t' ob g = some g2 ∧ ExtBut [(.orderType, t')] g g2 ∧
      g2.orderTypes[t']? = some ⟨dot.Limit, R⟩ ∧ viewTrigger g2 R = some tv ∧
      ∀ loc ∈ reachTrigger g2 R, ¬ g.has loc := by
  have hog : g.orders[a]? = some src := he.keep (k := .order) ho
  have hcotg : g.orderTypes[t]? = some sot := he.keep (k := .orderType) hcot
  have htt : t' ≠ t :=
    ne_of_has_not_has (h := h) (k := .orderType) (List.getElem?_eq_some_iff.1 hcot).1 hfresh
  have hlt : t' < g.orderTypes.length := (List.getElem?_eq_some_iff.1 hd).1
  cases hst : sot.Trigger with
  | none =>
    rw [hst] at hvt
    obtain rfl : tv = none := by simpa [viewTrigger] using hvt.symm
    refine ⟨g, none, ?_, ⟨fun _ _ => rfl, fun _ hh => hh⟩, ?_, rfl, by simp [reachTrigger]⟩
    · simp [copyTrigger, orderTypeOf, orderOf, deref, Region.cells, ha, hog, hot, hcotg, hst]
    · rw [hd, ← hdt]
  | some r0 =>
    rw [hst] at hvt
    obtain ⟨strig, px, m, tp, hct, hv1, hv2, hv3, rfl⟩ := viewTrigger_some_iff.1 hvt
    obtain ⟨g1, hg1⟩ : ∃ g1 : Heap, g1 = { g with
        triggers := g.triggers ++ [⟨none, none, none⟩],
        orderTypes := g.orderTypes.set t' ⟨dot.Limit, some g.triggers.length⟩ } := ⟨_, rfl⟩
    have hrun0 : copyTrigger t' ob g =
        (copyTriggerField String (fun s => s.TriggerPx) (fun d p => { d with TriggerPx := p })
          t' ob g1).bind (fun g2 =>
        (copyTriggerField Bool (fun s => s.IsMarket) (fun d p => { d with IsMarket := p })
          t' ob g2).bind (fun g3 =>
        copyTriggerField String (fun s => s.Tpsl) (fun d p => { d with Tpsl := p })
          t' ob g3)) := by
      simp [copyTrigger, orderTypeOf, orderOf, deref, alloc, store, Region.cells, Region.put, ha,
        hog, hot, hcotg, hst, hd, hlt, hg1]
    have e01 : ExtBut [(.orderType, t')] g g1 := by
      apply extBut_of_regions
      intro k
      subst hg1
      cases k
      case orderType =>
        exact Or.inr ⟨t', _, [], List.mem_singleton.2 rfl, (List.append_nil _).symm⟩
      all_goals first
        | exact Or.inl ⟨[], (List.append_nil _).symm⟩
        | exact Or.inl ⟨_, rfl⟩
    have he1 : Ext h g1 := Ext.of_but he e01 (by simpa using hfresh)
    have hf' : ¬ h.has (.trigger, g.triggers.length) := by
      intro hh
      have h1 := he.2 _ hh
      simp [Heap.has, Heap.region] at h1
    have hd1 : g1.orderTypes[t']? = some ⟨dot.Limit, some g.triggers.length⟩ := by
      simp [hg1, hlt]
    have hdc1 : g1.triggers[g.triggers.length]? = some ⟨none, none, none⟩ := by simp [hg1]
    obtain ⟨g2, P1, hr1, e12, hc2, hp1, hf1⟩ :=
      copyTriggerField_TriggerPx he1 ha ho hot hcot hst hct hv1 hd1 rfl hdc1 rfl hf'
    have he2 : Ext h g2 := Ext.of_but he1 e12 (by simpa using hf')
    have hd2 := e12.keepCell (k := .orderType) (by simp) hd1
    obtain ⟨g3, P2, hr2, e23, hc3, hp2, hf2⟩ :=
      copyTriggerField_IsMarket he2 ha ho hot hcot hst hct hv2 hd2 rfl hc2 rfl hf'
    have he3 : Ext h g3 := Ext.of_but he2 e23 (by simpa using hf')
    have hd3 := e23.keepCell (k := .orderType) (by simp) hd2
    obtain ⟨g4, P3, hr3, e34, hc4, hp3, hf3⟩ :=
      copyTriggerField_Tpsl he3 ha ho hot hcot hst hct hv3 hd3 rfl hc3 rfl hf'
    have hd4 := e34.keepCell (k := .orderType) (by simp) hd3
    have hnew : ¬ g.has (.trigger, g.triggers.length) := by simp [Heap.has, Heap.region]
    refine ⟨g4, some g.triggers.length, ?_, ?_, hd4, ?_, ?_⟩
    · rw [hrun0, hr1, Option.some_bind, hr2, Option.some_bind, hr3]
    · refine (((e01.trans e12).trans e23).trans e34).weaken ?_
      intro loc hm
      simp only [List.mem_append, List.mem_singleton] at hm
      rcases hm with ((rfl | rfl) | rfl) | rfl
      · exact Or.inl (List.mem_singleton.2 rfl)
      · exact Or.inr hnew
      · exact Or.inr hnew
      · exact Or.inr hnew
    · exact viewTrigger_some_iff.2 ⟨_, _, _, _, hc4,
        e34.keepView (k := .str) (by simp) (e23.keepView (k := .str) (by simp) hp1),
        e34.keepView (k := .bool) (by simp) hp2, hp3, rfl⟩
    · intro loc hm
      simp only [reachTrigger, hc4, List.mem_cons, List.mem_append] at hm
      rcases hm with rfl | (hm | hm) | hm
      · exact hnew
      · exact fun hh => hf1 loc hm (e01.2 loc hh)
      · exact fun hh => hf2 loc hm (e12.2 loc (e01.2 loc hh))
      · exact fun hh => hf3 loc hm (e23.2 loc (e12.2 loc (e01.2 loc hh)))

theorem copyOrderType_spec {ob : OrderBuilder} {h g : Heap} {a : Nat} {src : Order}
    {r : Option OrderTypeValue}
    (he : Ext h g) (ha : ob.order = some a) (ho : h.orders[a]? = some src)
    (hvot : viewOrderType h src.OrderType = some r) :
    ∃ p g2, copyOrderType ob g = some (p, g2) ∧ Ext g g2 ∧ viewOrderType g2 p = some r ∧
      ∀ loc ∈ reachOrderType g2 p, ¬ g.has loc := by
  have hog : g.orders[a]? = some src := he.keep (k := .order) ho
  cases hot : src.OrderType with
  | none =>
    rw [hot] at hvot
    obtain rfl : r = none := by simpa [viewOrderType] using hvot.symm
    refine ⟨none, g, ?_, Ext.refl g, rfl, by simp [reachOrderType]⟩
    simp [copyOrderType, orderOf, deref, Region.cells, ha, hog, hot]
  | some t =>
    rw [hot] at hvot
    obtain ⟨sot, lv, tv, hcot, hvl, hvt, rfl⟩ := viewOrderType_some_iff.1 hvot
    obtain ⟨g1, hg1⟩ : ∃ g1 : Heap, g1 = { g with
        orderTypes := g.orderTypes ++ [⟨none, none⟩] } := ⟨_, rfl⟩
    have hrun0 : copyOrderType ob g =
        (copyLimit g.orderTypes.length ob g1).bind (fun g2 =>
        (copyTrigger g.orderTypes.length ob g2).bind (fun g3 =>
          some (some g.orderTypes.length, g3))) := by
      simp [copyOrderType, orderOf, deref, alloc, Region.cells, Region.put, ha, hog, hot, hg1]
    have e01 : Ext g g1 := by
      apply extBut_of_regions
      intro k
      subst hg1
      cases k
      all_goals first
        | exact Or.inl ⟨[], (List.append_nil _).symm⟩
        | exact Or.inl ⟨_, rfl⟩
    have he1 : Ext h g1 := he.comp e01
    have hnew : ¬ g.has (.orderType, g.orderTypes.length) := by simp [Heap.has, Heap.region]
    have hfresh : ¬ h.has (.orderType, g.orderTypes.length) := fun hh => hnew (he.2 _ hh)
    have hd1 : g1.orderTypes[g.orderTypes.length]? = some ⟨none, none⟩ := by simp [hg1]
    obtain ⟨g2, L, hr1, e12, hd2, hvl2, hfl⟩ :=
      copyLimit_spec he1 ha ho hot hcot hvl hd1 rfl hfresh
    have he2 : Ext h g2 := Ext.of_but he1 e12 (by simpa using hfresh)
    obtain ⟨g3, R, hr2, e23, hd3, hvt3, hft⟩ :=
      copyTrigger_spec he2 ha ho hot hcot hvt hd2 rfl hfresh
    have hagL : AgreeOn (· ∈ reachLimit g2 L) g2 g3 := by
      intro loc hm
      refine e23.1 loc ⟨has_of_viewLimit hvl2 loc hm, ?_⟩
      rcases kind_reachLimit hm with hk | hk <;>
        · intro hmem
          rw [List.mem_singleton.1 hmem] at hk
          simp at hk
    have hL3 := viewLimit_agree hagL
    refine ⟨some g.orderTypes.length, g3, ?_, ?_, ?_, ?_⟩
    · rw [hrun0, hr1, Option.some_bind, hr2, Option.some_bind]
    · refine (ExtBut.trans (ExtBut.trans e01 e12) e23).weaken ?_
      intro loc hm
      simp only [List.nil_append, List.mem_append, List.mem_singleton] at hm
      rcases hm with rfl | rfl <;> exact Or.inr hnew
    · exact viewOrderType_some_iff.2 ⟨_, lv, tv, hd3, hL3.1.trans hvl2, hvt3, rfl⟩
    · intro loc hm
      simp only [reachOrderType, hd3, List.mem_cons, List.mem_append] at hm
      rcases hm with rfl | hm | hm
      · exact hnew
      · rw [hL3.2] at hm
        exact fun hh => hfl loc hm (e01.2 loc hh)
      · exact fun hh => hft loc hm (e12.2 loc (e01.2 loc hh))

/-- `Build` on a well-formed builder returns an order whose contents are the
builder's, made of cells that were not allocated before the call; the call
keeps every cell that was allocated. -/
theorem Build_spec {ob : OrderBuilder} {h : Heap} {v : OrderValue}
    (hv : viewBuilder h ob = some v) :
    ∃ o h1, Build ob h = some (o, h1) ∧ Ext h h1 ∧ viewOrder h1 o = some v ∧
      ∀ loc ∈ reachOrder h1 o, ¬ h.has loc := by
  obtain ⟨a, src, ha, ho, hvo⟩ := viewBuilder_some_iff.1 hv
  obtain ⟨v1, v2, v3, v4, v5, v6, v7⟩ := viewOrder_some_iff.1 hvo
  obtain ⟨p1, g1, r1, e1, w1, f1⟩ := copyField_int (fun s => s.Asset) (Ext.refl h) ha ho v1
  obtain ⟨p2, g2, r2, e2, w2, f2⟩ := copyField_bool (fun s => s.IsBuy) e1 ha ho v2
  have e02 := e1.comp e2
  obtain ⟨p3, g3, r3, e3, w3, f3⟩ := copyField_str (fun s => s.Price) e02 ha ho v3
  have e03 := e02.comp e3
  obtain ⟨p4, g4, r4, e4, w4, f4⟩ := copyField_str (fun s => s.Size) e03 ha ho v4
  have e04 := e03.comp e4
  obtain ⟨p5, g5, r5, e5, w5, f5⟩ := copyField_bool (fun s => s.ReduceOnly) e04 ha ho v5
  have e05 := e04.comp e5
  obtain ⟨p6, g6, r6, e6, w6, f6⟩ := copyField_str (fun s => s.ClientOrderId) e05 ha ho v7
  have e06 := e05.comp e6
  obtain ⟨p7, g7, r7, e7, w7, f7⟩ := copyOrderType_spec e06 ha ho v6
  have e67 := e7
  have e57 := e6.comp e67
  have e47 := e5.comp e57
  have e37 := e4.comp e47
  have e27 := e3.comp e37
  have e17 := e2.comp e27
  refine ⟨⟨p1, p2, p3, p4, p5, p7, p6⟩, g7, ?_, e1.comp e17, ?_, ?_⟩
  · simp only [Build, Option.bind_eq_bind, Option.pure_def, r1, r2, r3, r4, r5, r6, r7,
      Option.some_bind]
  · exact viewOrder_some_iff.2 ⟨e17.keepPtr (k := .int) w1, e27.keepPtr (k := .bool) w2,
      e37.keepPtr (k := .str) w3, e47.keepPtr (k := .str) w4, e57.keepPtr (k := .bool) w5,
      w7, e67.keepPtr (k := .str) w6⟩
  · intro loc hm
    simp only [reachOrder, List.mem_append] at hm
    rcases hm with (((((hm | hm) | hm) | hm) | hm) | hm) | hm
    · exact f1 loc hm
    · exact fun hh => f2 loc hm (e1.2 loc hh)
    · exact fun hh => f3 loc hm (e02.2 loc hh)
    · exact fun hh => f4 loc hm (e03.2 loc hh)
    · exact fun hh => f5 loc hm (e04.2 loc hh)
    · exact fun hh => f6 loc hm (e05.2 loc hh)
    · exact fun hh => f7 loc hm (e06.2 loc hh)

/-! ### Sequences of calls -/

theorem Call.run_spec {ob : OrderBuilder} {h : Heap} {v : OrderValue} (c : Call)
    (hv : viewBuilder h ob = some v) :
    ∃ h2, c.run ob h = some h2 ∧ viewBuilder h2 ob = some (c.effect v) ∧ Step ob h h2 := by
  cases c with
  | Asset x => exact Asset_spec x hv
  | IsBuy x => exact IsBuy_spec x hv
  | Price x => exact Price_spec x hv
  | Size x => exact Size_spec x hv
  | ReduceOnly x => exact ReduceOnly_spec x hv
  | ClientOrderId x => exact ClientOrderId_spec x hv
  | LimitTif t => exact LimitTif_spec t hv
  | Trigger m px tp => exact Trigger_spec m px tp hv

theorem NewOrderBuilder_view (h : Heap) :
    viewBuilder (NewOrderBuilder h).2 (NewOrderBuilder h).1
      = some ⟨none, none, none, none, none, none, none⟩ := by
  simp [NewOrderBuilder, alloc, Region.cells, Region.put, viewBuilder, orderOf, deref, viewOrder,
    viewPtr, viewOrderType]

/-- An order whose cells are disjoint from the builder's keeps its contents
and its cells, and stays disjoint from the builder, through any sequence of
builder calls; the calls all succeed. -/
theorem runCalls_frame {ob : OrderBuilder} {o : Order} {v : OrderValue} (cs : List Call) :
    ∀ {h : Heap} {vb : OrderValue}, viewBuilder h ob = some vb → viewOrder h o = some v →
      (∀ loc ∈ reachOrder h o, loc ∉ reachBuilder h ob) →
      ∃ h2, runCalls ob cs h = some h2 ∧
        viewBuilder h2 ob = some (cs.foldl (fun w c => c.effect w) vb) ∧
        viewOrder h2 o = some v ∧ reachOrder h2 o = reachOrder h o ∧
        AgreeOn (· ∈ reachOrder h o) h h2 ∧
        ∀ loc ∈ reachOrder h2 o, loc ∉ reachBuilder h2 ob := by
  induction cs with
  | nil =>
    intro h vb hvb hvo hd
    exact ⟨h, rfl, hvb, hvo, rfl, fun _ _ => rfl, hd⟩
  | cons c cs ih =>
    intro h vb hvb hvo hd
    obtain ⟨hm, hrun, hvm, hstep⟩ := c.run_spec hvb
    have hag : AgreeOn (· ∈ reachOrder h o) h hm := fun loc hl =>
      hstep.frame loc ⟨has_of_viewOrder hvo loc hl, hd loc hl⟩
    obtain ⟨e1, e2⟩ := viewOrder_agree hag
    have hvom : viewOrder hm o = some v := e1.trans hvo
    have hdm : ∀ loc ∈ reachOrder hm o, loc ∉ reachBuilder hm ob := by
      intro loc hl hb
      rw [e2] at hl
      rcases hstep.fresh loc hb with h1 | h1
      · exact hd loc hl h1
      · exact h1 (has_of_viewOrder hvo loc hl)
    obtain ⟨h2, hrun2, hv2, hvo2, hr2, hag2, hd2⟩ := ih hvm hvom hdm
    refine ⟨h2, ?_, hv2, hvo2, hr2.trans e2, ?_, hd2⟩
    · simp [runCalls, hrun, hrun2]
    · intro loc hl
      rw [hag2 loc (by rw [e2]; exact hl), hag loc hl]

/-- After `Build` the builder is as it was and the returned order shares no
cell with it. -/
theorem Build_frame {ob : OrderBuilder} {h : Heap} {v : OrderValue}
    (hv : viewBuilder h ob = some v) :
    ∃ o h1, Build ob h = some (o, h1) ∧ viewOrder h1 o = some v ∧ viewBuilder h1 ob = some v ∧
      ∀ loc ∈ reachOrder h1 o, loc ∉ reachBuilder h1 ob := by
  obtain ⟨o, h1, hrun, he, hvo, hf⟩ := Build_spec hv
  have hag : AgreeOn (· ∈ reachBuilder h ob) h h1 := he.agreeOn (has_of_viewBuilder hv)
  obtain ⟨e1, e2⟩ := viewBuilder_agree hag
  refine ⟨o, h1, hrun, hvo, e1.trans hv, ?_⟩
  intro loc hl hb
  rw [e2] at hb
  exact hf loc hl (has_of_viewBuilder hv loc hb)

theorem exclusive_foldl (cs : List Call) :
    ∀ vb : OrderValue, (vb.exclusive ∨ ∃ c ∈ cs, c.isOrderType = true) →
      (cs.foldl (fun w c => c.effect w) vb).exclusive := by
  induction cs with
  | nil =>
    intro vb hx
    rcases hx with hx | ⟨c, hc, -⟩
    · exact hx
    · simp at hc
  | cons c cs ih =>
    intro vb hx
    rw [List.foldl_cons]
    apply ih
    cases c with
    | LimitTif t => exact Or.inl ⟨_, rfl, Or.inl ⟨by simp, rfl⟩⟩
    | Trigger m px tp => exact Or.inl ⟨_, rfl, Or.inr ⟨rfl, by simp⟩⟩
    | _ =>
      rcases hx with hx | ⟨c', hc, hc'⟩
      · exact Or.inl hx
      · rcases List.mem_cons.1 hc with rfl | hc
        · simp [Call.isOrderType] at hc'
        · exact Or.inr ⟨c', hc, hc'⟩

theorem viewOrder_empty (h : Heap) :
    viewOrder h {} = some ⟨none, none, none, none, none, none, none⟩ := by
  simp [viewOrder, viewPtr, viewOrderType]

/-- Every sequence of calls on a well-formed builder succeeds, and the
contents of its order afterwards are the effects of the calls in turn. -/
theorem runCalls_spec {ob : OrderBuilder} {h : Heap} {v : OrderValue} (cs : List Call)
    (hv : viewBuilder h ob = some v) :
    ∃ h2, runCalls ob cs h = some h2 ∧
      viewBuilder h2 ob = some (cs.foldl (fun w c => c.effect w) v) := by
  obtain ⟨h2, hrun, hv2, -⟩ := runCalls_frame (o := {}) cs hv (viewOrder_empty h)
    (by simp [reachOrder, ptrLoc, reachOrderType])
  exact ⟨h2, hrun, hv2⟩

/-! ### The order builder: isolation, snapshot, exclusivity -/

/-- C1, copy-on-build isolation. On every well-formed builder (its order
pointer is set and every pointer of the order leads to a cell), `Build`
returns an order `o` with the builder's contents `v`; after any sequence `cs`
of builder calls made afterwards on the same builder (all of which succeed),
`o` still has the contents `v`, the cells reachable from `o` are the same
cells holding the same values, and none of them is reachable from the
builder. The seven fields of `o` itself are a value owned by the caller. -/
theorem copy_on_build_isolation (ob : OrderBuilder) (h : Heap) (v : OrderValue)
    (hv : viewBuilder h ob = some v) :
    ∃ o h1, Build ob h = some (o, h1) ∧ viewOrder h1 o = some v ∧
      ∀ cs : List Call, ∃ h2, runCalls ob cs h1 = some h2 ∧
        viewOrder h2 o = some v ∧ reachOrder h2 o = reachOrder h1 o ∧
        AgreeOn (· ∈ reachOrder h1 o) h1 h2 ∧
        ∀ loc ∈ reachOrder h2 o, loc ∉ reachBuilder h2 ob := by
  obtain ⟨o, h1, hrun, hvo, hvb, hd⟩ := Build_frame hv
  refine ⟨o, h1, hrun, hvo, fun cs => ?_⟩
  obtain ⟨h2, hr2, -, hvo2, hre, hag, hd2⟩ := runCalls_frame cs hvb hvo hd
  exact ⟨h2, hr2, hvo2, hre, hag, hd2⟩

theorem copy_on_build_isolation_witness :
    viewBuilder exampleHeap exampleBuilder = some exampleValue ∧
    ∃ o h1, Build exampleBuilder exampleHeap = some (o, h1) ∧
      viewOrder h1 o = some exampleValue ∧
      ∀ cs : List Call, ∃ h2, runCalls exampleBuilder cs h1 = some h2 ∧
        viewOrder h2 o = some exampleValue ∧ reachOrder h2 o = reachOrder h1 o ∧
        AgreeOn (· ∈ reachOrder h1 o) h1 h2 ∧
        ∀ loc ∈ reachOrder h2 o, loc ∉ reachBuilder h2 exampleBuilder :=
  ⟨by decide, copy_on_build_isolation exampleBuilder exampleHeap exampleValue (by decide)⟩

/-- C2, `Build` is a faithful snapshot. On every well-formed builder `Build`
succeeds and the contents of the returned order, read through every pointer
level, are exactly the contents `v` of the builder's order at the call: each of
the thirteen fields is absent in both or present in both with the same value.
The builder's order still has the contents `v` after the call. -/
theorem build_faithful_snapshot (ob : OrderBuilder) (h : Heap) (v : OrderValue)
    (hv : viewBuilder h ob = some v) :
    ∃ o h1, Build ob h = some (o, h1) ∧ viewOrder h1 o = some v ∧
      viewBuilder h1 ob = some v := by
  obtain ⟨o, h1, hrun, hvo, hvb, -⟩ := Build_frame hv
  exact ⟨o, h1, hrun, hvo, hvb⟩

theorem build_faithful_snapshot_witness :
    viewBuilder exampleHeap exampleBuilder = some exampleValue ∧
    ∃ o h1, Build exampleBuilder exampleHeap = some (o, h1) ∧
      viewOrder h1 o = some exampleValue ∧ viewBuilder h1 exampleBuilder = some exampleValue :=
  ⟨by decide, build_faithful_snapshot exampleBuilder exampleHeap exampleValue (by decide)⟩

/-- C3, variant exclusivity. From `NewOrderBuilder()` in any store, every
sequence of builder calls that holds at least one `LimitTif` or `Trigger` call
succeeds and leaves the builder's order with a present order type in which
exactly one of `Limit` and `Trigger` is present; the order returned by `Build`
then has the same property. -/
theorem variant_exclusivity (h : Heap) (cs : List Call)
    (hne : ∃ c ∈ cs, c.isOrderType = true) :
    ∃ h1 v, runCalls (NewOrderBuilder h).1 cs (NewOrderBuilder h).2 = some h1 ∧
      viewBuilder h1 (NewOrderBuilder h).1 = some v ∧ v.exclusive ∧
      ∃ o h2 w, Build (NewOrderBuilder h).1 h1 = some (o, h2) ∧ viewOrder h2 o = some w ∧
        w.exclusive := by
  obtain ⟨h1, hrun, hv1⟩ := runCalls_spec cs (NewOrderBuilder_view h)
  have hx := exclusive_foldl cs ⟨none, none, none, none, none, none, none⟩ (Or.inr hne)
  obtain ⟨o, h2, hb, hvo, -⟩ := Build_frame hv1
  exact ⟨h1, _, hrun, hv1, hx, o, h2, _, hb, hvo, hx⟩

theorem variant_exclusivity_witness :
    (∃ c ∈ [Call.LimitTif "Gtc", Call.Trigger false "95.0" "sl"], c.isOrderType = true) ∧
    ∃ h1 v, runCalls (NewOrderBuilder {}).1 [Call.LimitTif "Gtc", Call.Trigger false "95.0" "sl"]
        (NewOrderBuilder {}).2 = some h1 ∧
      viewBuilder h1 (NewOrderBuilder {}).1 = some v ∧ v.exclusive ∧
      ∃ o h2 w, Build (NewOrderBuilder {}).1 h1 = some (o, h2) ∧ viewOrder h2 o = some w ∧
        w.exclusive :=
  ⟨⟨_, List.mem_cons_self _ _, rfl⟩,
   variant_exclusivity {} [Call.LimitTif "Gtc", Call.Trigger false "95.0" "sl"]
     ⟨_, List.mem_cons_self _ _, rfl⟩⟩

/-- C4, last write wins with full clearing. On every well-formed builder,
whatever its order type was (absent included), `LimitTif(t)` succeeds and
leaves the order type exactly `{Limit: {Tif: t}, Trigger: absent}`, and
`Trigger(m, px, tp)` succeeds and leaves it exactly
`{Limit: absent, Trigger: {TriggerPx: px, IsMarket: m, Tpsl: tp}}`, the other
fields keeping their contents; so after any sequence of calls that ends with
an order-type call, the order type is the one that call alone determines. -/
theorem last_write_wins (ob : OrderBuilder) (h : Heap) (v : OrderValue)
    (hv : viewBuilder h ob = some v) (t : String) (m : Bool) (px tp : String) :
    (∃ h2, LimitTif ob t h = some h2 ∧
      viewBuilder h2 ob = some { v with OrderType := some ⟨some ⟨some t⟩, none⟩ }) ∧
    (∃ h2, Trigger ob m px tp h = some h2 ∧
      viewBuilder h2 ob
        = some { v with OrderType := some ⟨none, some ⟨some px, some m, some tp⟩⟩ }) ∧
    ∀ (cs : List Call) (c : Call), c.isOrderType = true →
      ∃ h2 w, runCalls ob (cs ++ [c]) h = some h2 ∧ viewBuilder h2 ob = some w ∧
        w.OrderType = (c.effect ⟨none, none, none, none, none, none, none⟩).OrderType := by
  refine ⟨?_, ?_, ?_⟩
  · obtain ⟨h2, hr, hv2, -⟩ := LimitTif_spec t hv
    exact ⟨h2, hr, hv2⟩
  · obtain ⟨h2, hr, hv2, -⟩ := Trigger_spec m px tp hv
    exact ⟨h2, hr, hv2⟩
  · intro cs c hc
    obtain ⟨h2, hr, hv2⟩ := runCalls_spec (cs ++ [c]) hv
    refine ⟨h2, _, hr, hv2, ?_⟩
    rw [List.foldl_append]
    cases c <;> first | rfl | simp [Call.isOrderType] at hc

theorem last_write_wins_witness :
    viewBuilder exampleHeap exampleBuilder = some exampleValue ∧
    ((∃ h2, LimitTif exampleBuilder "Ioc" exampleHeap = some h2 ∧
      viewBuilder h2 exampleBuilder
        = some { exampleValue with OrderType := some ⟨some ⟨some "Ioc"⟩, none⟩ }) ∧
    (∃ h2, Trigger exampleBuilder true "95.0" "sl" exampleHeap = some h2 ∧
      viewBuilder h2 exampleBuilder
        = some { exampleValue with
            OrderType := some ⟨none, some ⟨some "95.0", some true, some "sl"⟩⟩ }) ∧
    ∀ (cs : List Call) (c : Call), c.isOrderType = true →
      ∃ h2 w, runCalls exampleBuilder (cs ++ [c]) exampleHeap = some h2 ∧
        viewBuilder h2 exampleBuilder = some w ∧
        w.OrderType = (c.effect ⟨none, none, none, none, none, none, none⟩).OrderType) :=
  ⟨by decide,
   last_write_wins exampleBuilder exampleHeap exampleValue (by decide) "Ioc" true "95.0" "sl"⟩

/-- C9, the builder-reuse scenario, run from any store: both builds succeed;
the first order has `Limit.Tif = "Gtc"` and no `Trigger`, when it is built and
still in the final store, after `Trigger` was called on the builder; the
second has no `Limit` and `Trigger = {triggerPx "95.0", isMarket false,
tpsl "sl"}`; both have asset 1, isBuy true, price "100.5", size "2". -/
theorem builder_reuse_scenario (h : Heap) :
    ∃ o1 h1 o2 h2, builderReuse h = some (o1, h1, o2, h2) ∧
      viewOrder h1 o1 = some ⟨some 1, some true, some "100.5", some "2", none,
        some ⟨some ⟨some "Gtc"⟩, none⟩, none⟩ ∧
      viewOrder h2 o1 = some ⟨some 1, some true, some "100.5", some "2", none,
        some ⟨some ⟨some "Gtc"⟩, none⟩, none⟩ ∧
      viewOrder h2 o2 = some ⟨some 1, some true, some "100.5", some "2", none,
        some ⟨none, some ⟨some "95.0", some false, some "sl"⟩⟩, none⟩ := by
  obtain ⟨g5, hr5, hv5⟩ := runCalls_spec
    [.Asset 1, .IsBuy true, .Price "100.5", .Size "2", .LimitTif "Gtc"] (NewOrderBuilder_view h)
  obtain ⟨o1, g6, hb1, hvo1, hvb1, hd1⟩ := Build_frame hv5
  obtain ⟨g7, hr7, hv7, hvo7, -, -, -⟩ :=
    runCalls_frame [.Trigger false "95.0" "sl"] hvb1 hvo1 hd1
  obtain ⟨o2, g8, hb2, he8, hvo2, -⟩ := Build_spec hv7
  have hvo8 : viewOrder g8 o1 = viewOrder g7 o1 :=
    (viewOrder_agree (he8.agreeOn (has_of_viewOrder hvo7))).1
  refine ⟨o1, g6, o2, g8, ?_, hvo1, hvo8.trans hvo7, hvo2⟩
  simp only [runCalls, Call.run, Option.bind_eq_some] at hr5 hr7
  obtain ⟨g1, a1, g2, a2, g3, a3, g4, a4, g5', a5, e5⟩ := hr5
  obtain ⟨g7', a7, e7⟩ := hr7
  cases e5
  cases e7
  simp [builderReuse, a1, a2, a3, a4, a5, hb1, a7, hb2]

/-! ### The action facades -/

theorem AddOrders_spec {Client Sig : Type} (api : ExchangeOrderAPI Client Sig)
    (orders : List Order) :
    ∃ api2, api.AddOrders orders = some api2 ∧ api2.orders = api.orders ++ orders ∧
      ∃ r, api2.req = some r ∧ r.Action.Orders = some (api.orders ++ orders) := by
  rcases api with ⟨c, _ | r⟩
  · exact ⟨_, rfl, rfl, _, rfl, rfl⟩
  · rcases r with ⟨⟨t, _ | os, g, b⟩, n, sg, va, ea⟩ <;> exact ⟨_, rfl, rfl, _, rfl, rfl⟩

theorem AddCancelOrder_spec {Client Sig : Type} (api : ExchangeCancelAPI Client Sig)
    (cancel : Cancel) :
    ∃ api2, api.AddCancelOrder cancel = some api2 ∧ api2.cancels = api.cancels ++ [cancel] ∧
      ∃ r, api2.req = some r ∧ r.Action.Cancels = some (api.cancels ++ [cancel]) := by
  rcases api with ⟨c, _ | r⟩
  · exact ⟨_, rfl, rfl, _, rfl, rfl⟩
  · rcases r with ⟨⟨t, _ | os⟩, n, sg, va, ea⟩ <;> exact ⟨_, rfl, rfl, _, rfl, rfl⟩

theorem AddCancelByCloid_spec {Client Sig : Type} (api : ExchangeCancelByCloidAPI Client Sig)
    (cancel : CancelByCloid) :
    ∃ api2, api.AddCancelByCloid cancel = some api2 ∧
      api2.cancels = api.cancels ++ [cancel] ∧
      ∃ r, api2.req = some r ∧ r.Action.Cancels = some (api.cancels ++ [cancel]) := by
  rcases api with ⟨c, _ | r⟩
  · exact ⟨_, rfl, rfl, _, rfl, rfl⟩
  · rcases r with ⟨⟨t, _ | os⟩, n, sg, va, ea⟩ <;> exact ⟨_, rfl, rfl, _, rfl, rfl⟩

theorem AddModify_spec {Client Sig : Type} (api : ExchangeBatchModifyAPI Client Sig)
    (options : List ModifyOption) :
    ∃ api2, api.AddModify options = some api2 ∧
      api2.modifies = api.modifies ++ [options.foldl (fun m opt => opt m) {}] ∧
      ∃ r, api2.req = some r ∧
        r.Action.Modifies = some (api.modifies ++ [options.foldl (fun m opt => opt m) {}]) := by
  rcases api with ⟨c, _ | r⟩
  · exact ⟨_, rfl, rfl, _, rfl, rfl⟩
  · rcases r with ⟨⟨t, _ | os⟩, n, sg, va, ea⟩ <;> exact ⟨_, rfl, rfl, _, rfl, rfl⟩

theorem orders_addAll {Client Sig : Type} (calls : List (List Order)) :
    ∀ api : ExchangeOrderAPI Client Sig,
      ∃ api2, ExchangeOrderAPI.addAll calls api = some api2 ∧
        api2.orders = api.orders ++ calls.flatten := by
  induction calls with
  | nil => intro api; exact ⟨api, rfl, by simp⟩
  | cons c cs ih =>
    intro api
    obtain ⟨a1, h1, e1, -⟩ := AddOrders_spec api c
    obtain ⟨a2, h2, e2⟩ := ih a1
    exact ⟨a2, by simp [ExchangeOrderAPI.addAll, h1, h2], by simp [e2, e1]⟩

theorem cancels_addAll {Client Sig : Type} (calls : List Cancel) :
    ∀ api : ExchangeCancelAPI Client Sig,
      ∃ api2, ExchangeCancelAPI.addAll calls api = some api2 ∧
        api2.cancels = api.cancels ++ calls := by
  induction calls with
  | nil => intro api; exact ⟨api, rfl, by simp⟩
  | cons c cs ih =>
    intro api
    obtain ⟨a1, h1, e1, -⟩ := AddCancelOrder_spec api c
    obtain ⟨a2, h2, e2⟩ := ih a1
    exact ⟨a2, by simp [ExchangeCancelAPI.addAll, h1, h2], by simp [e2, e1]⟩

theorem cloidCancels_addAll {Client Sig : Type} (calls : List CancelByCloid) :
    ∀ api : ExchangeCancelByCloidAPI Client Sig,
      ∃ api2, ExchangeCancelByCloidAPI.addAll calls api = some api2 ∧
        api2.cancels = api.cancels ++ calls := by
  induction calls with
  | nil => intro api; exact ⟨api, rfl, by simp⟩
  | cons c cs ih =>
    intro api
    obtain ⟨a1, h1, e1, -⟩ := AddCancelByCloid_spec api c
    obtain ⟨a2, h2, e2⟩ := ih a1
    exact ⟨a2, by simp [ExchangeCancelByCloidAPI.addAll, h1, h2], by simp [e2, e1]⟩

theorem modifies_addAll {Client Sig : Type} (calls : List (List ModifyOption)) :
    ∀ api : ExchangeBatchModifyAPI Client Sig,
      ∃ api2, ExchangeBatchModifyAPI.addAll calls api = some api2 ∧
        api2.modifies
          = api.modifies ++ calls.map (fun opts => opts.foldl (fun m opt => opt m) {}) := by
  induction calls with
  | nil => intro api; exact ⟨api, rfl, by simp⟩
  | cons c cs ih =>
    intro api
    obtain ⟨a1, h1, e1, -⟩ := AddModify_spec api c
    obtain ⟨a2, h2, e2⟩ := ih a1
    exact ⟨a2, by simp [ExchangeBatchModifyAPI.addAll, h1, h2], by simp [e2, e1]⟩

theorem foldl_idStep {Client Sig : Type} (api : ExchangeBatchModifyAPI Client Sig)
    (init : List IdStep) (last : IdStep) (m : Modify) :
    ((init ++ [last]).map (IdStep.option api)).foldl (fun m opt => opt m) m
      = [last.option api].foldl (fun m opt => opt m) {} := by
  rw [List.map_append, List.foldl_append]
  cases last <;> rfl

/-- C5 fails as stated: on an update-leverage facade whose envelope is not
allocated, `Asset`, `IsCross` and `Leverage` each fail with a nil dereference
instead of allocating the envelope. -/
theorem lazy_init_scalar_counterexample :
    (⟨none, none⟩ : ExchangeUpdateLeverageAPI Unit Unit).Asset 1 = none ∧
    (⟨none, none⟩ : ExchangeUpdateLeverageAPI Unit Unit).IsCross true = none ∧
    (⟨none, none⟩ : ExchangeUpdateLeverageAPI Unit Unit).Leverage 5 = none :=
  ⟨rfl, rfl, rfl⟩

/-- C5, amended: lazy initialization belongs to the list-valued calls. On a
facade whose envelope is not allocated, `AddOrders`, `AddCancelOrder`,
`AddCancelByCloid` and `AddModify` each succeed and leave an allocated envelope
whose list holds exactly the written items. The update-leverage facade has no
allocating call: on an envelope that exists `Asset`, `IsCross` and `Leverage`
store the written value, and on a facade without one they fail. -/
theorem lazy_init_list_calls {Client Sig : Type} (cl : Option Client) :
    (∀ orders : List Order,
      ∃ api r, (⟨cl, none⟩ : ExchangeOrderAPI Client Sig).AddOrders orders = some api ∧
        api.req = some r ∧ r.Action.Orders = some orders) ∧
    (∀ c : Cancel,
      ∃ api r, (⟨cl, none⟩ : ExchangeCancelAPI Client Sig).AddCancelOrder c = some api ∧
        api.req = some r ∧ r.Action.Cancels = some [c]) ∧
    (∀ c : CancelByCloid,
      ∃ api r, (⟨cl, none⟩ : ExchangeCancelByCloidAPI Client Sig).AddCancelByCloid c
          = some api ∧
        api.req = some r ∧ r.Action.Cancels = some [c]) ∧
    (∀ opts : List ModifyOption,
      ∃ api r, (⟨cl, none⟩ : ExchangeBatchModifyAPI Client Sig).AddModify opts = some api ∧
        api.req = some r ∧ r.Action.Modifies = some [opts.foldl (fun m opt => opt m) {}]) ∧
    (∀ (r : ExchangeReqCommon Sig ExchangeUpdateLeverageAction) (a : Int),
      (⟨cl, some r⟩ : ExchangeUpdateLeverageAPI Client Sig).Asset a
        = some ⟨cl, some { r with Action := { r.Action with Asset := some a } }⟩ ∧
      (⟨cl, none⟩ : ExchangeUpdateLeverageAPI Client Sig).Asset a = none) ∧
    (∀ (r : ExchangeReqCommon Sig ExchangeUpdateLeverageAction) (x : Bool),
      (⟨cl, some r⟩ : ExchangeUpdateLeverageAPI Client Sig).IsCross x
        = some ⟨cl, some { r with Action := { r.Action with IsCross := some x } }⟩ ∧
      (⟨cl, none⟩ : ExchangeUpdateLeverageAPI Client Sig).IsCross x = none) ∧
    (∀ (r : ExchangeReqCommon Sig ExchangeUpdateLeverageAction) (l : Int),
      (⟨cl, some r⟩ : ExchangeUpdateLeverageAPI Client Sig).Leverage l
        = some ⟨cl, some { r with Action := { r.Action with Leverage := some l } }⟩ ∧
      (⟨cl, none⟩ : ExchangeUpdateLeverageAPI Client Sig).Leverage l = none) :=
  ⟨fun _ => ⟨_, _, rfl, rfl, rfl⟩, fun _ => ⟨_, _, rfl, rfl, rfl⟩,
    fun _ => ⟨_, _, rfl, rfl, rfl⟩, fun _ => ⟨_, _, rfl, rfl, rfl⟩,
    fun _ _ => ⟨rfl, rfl⟩, fun _ _ => ⟨rfl, rfl⟩, fun _ _ => ⟨rfl, rfl⟩⟩

/-- C6, insertion-order preservation. On each list-valued facade, one call
succeeds and appends its items after the items accumulated so far, which stay
an unchanged prefix; so from a facade with no envelope, any sequence of calls
(none, one or more) leaves exactly the supplied items in call order: for
`AddOrders` the concatenation of the calls' arguments, for `AddModify` the
`Modify` each call builds from its options. -/
theorem insertion_order_preserved {Client Sig : Type} :
    (∀ (api : ExchangeOrderAPI Client Sig) (orders : List Order),
      ∃ api2, api.AddOrders orders = some api2 ∧ api2.orders = api.orders ++ orders) ∧
    (∀ (api : ExchangeCancelAPI Client Sig) (c : Cancel),
      ∃ api2, api.AddCancelOrder c = some api2 ∧ api2.cancels = api.cancels ++ [c]) ∧
    (∀ (api : ExchangeCancelByCloidAPI Client Sig) (c : CancelByCloid),
      ∃ api2, api.AddCancelByCloid c = some api2 ∧ api2.cancels = api.cancels ++ [c]) ∧
    (∀ (api : ExchangeBatchModifyAPI Client Sig) (opts : List ModifyOption),
      ∃ api2, api.AddModify opts = some api2 ∧
        api2.modifies = api.modifies ++ [opts.foldl (fun m opt => opt m) {}]) ∧
    (∀ (cl : Option Client) (calls : List (List Order)),
      ∃ api2, ExchangeOrderAPI.addAll calls (⟨cl, none⟩ : ExchangeOrderAPI Client Sig)
          = some api2 ∧ api2.orders = calls.flatten) ∧
    (∀ (cl : Option Client) (calls : List Cancel),
      ∃ api2, ExchangeCancelAPI.addAll calls (⟨cl, none⟩ : ExchangeCancelAPI Client Sig)
          = some api2 ∧ api2.cancels = calls) ∧
    (∀ (cl : Option Client) (calls : List CancelByCloid),
      ∃ api2, ExchangeCancelByCloidAPI.addAll calls
          (⟨cl, none⟩ : ExchangeCancelByCloidAPI Client Sig) = some api2 ∧
        api2.cancels = calls) ∧
    (∀ (cl : Option Client) (calls : List (List ModifyOption)),
      ∃ api2, ExchangeBatchModifyAPI.addAll calls
          (⟨cl, none⟩ : ExchangeBatchModifyAPI Client Sig) = some api2 ∧
        api2.modifies = calls.map (fun opts => opts.foldl (fun m opt => opt m) {})) := by
  refine ⟨?_, ?_, ?_, ?_, ?_, ?_, ?_, ?_⟩
  · intro api orders
    obtain ⟨a, h1, h2, -⟩ := AddOrders_spec api orders
    exact ⟨a, h1, h2⟩
  · intro api c
    obtain ⟨a, h1, h2, -⟩ := AddCancelOrder_spec api c
    exact ⟨a, h1, h2⟩
  · intro api c
    obtain ⟨a, h1, h2, -⟩ := AddCancelByCloid_spec api c
    exact ⟨a, h1, h2⟩
  · intro api opts
    obtain ⟨a, h1, h2, -⟩ := AddModify_spec api opts
    exact ⟨a, h1, h2⟩
  · intro cl calls
    obtain ⟨a, h1, h2⟩ := orders_addAll calls (⟨cl, none⟩ : ExchangeOrderAPI Client Sig)
    exact ⟨a, h1, by simpa [ExchangeOrderAPI.orders] using h2⟩
  · intro cl calls
    obtain ⟨a, h1, h2⟩ := cancels_addAll calls (⟨cl, none⟩ : ExchangeCancelAPI Client Sig)
    exact ⟨a, h1, by simpa [ExchangeCancelAPI.cancels] using h2⟩
  · intro cl calls
    obtain ⟨a, h1, h2⟩ :=
      cloidCancels_addAll calls (⟨cl, none⟩ : ExchangeCancelByCloidAPI Client Sig)
    exact ⟨a, h1, by simpa [ExchangeCancelByCloidAPI.cancels] using h2⟩
  · intro cl calls
    obtain ⟨a, h1, h2⟩ :=
      modifies_addAll calls (⟨cl, none⟩ : ExchangeBatchModifyAPI Client Sig)
    exact ⟨a, h1, by simpa [ExchangeBatchModifyAPI.modifies] using h2⟩

/-- C7, identifier polymorphism exclusivity. On every batch-modify facade,
`AddModify(OidOption(id, o))` appends the `Modify` whose identifier is the
number `id`, which is no string, with order `o`;
`AddModify(CloidOption(cloid, o))` appends the one whose identifier is the
string `cloid`, which is no number, with order `o`; `AddModify()` appends the
one with an absent identifier, which is not the number 0, and an absent
order. -/
theorem identifier_exclusivity {Client Sig : Type} (api : ExchangeBatchModifyAPI Client Sig)
    (id : Int) (cloid : String) (o : Order) :
    (∃ api2, api.AddModify [api.OidOption id o] = some api2 ∧
      api2.modifies = api.modifies ++ [⟨.int id, some o⟩]) ∧
    (∃ api2, api.AddModify [api.CloidOption cloid o] = some api2 ∧
      api2.modifies = api.modifies ++ [⟨.str cloid, some o⟩]) ∧
    (∃ api2, api.AddModify [] = some api2 ∧
      api2.modifies = api.modifies ++ [⟨.nil, none⟩]) ∧
    (∀ s : String, AnyId.int id ≠ AnyId.str s) ∧ (∀ i : Int, AnyId.str cloid ≠ AnyId.int i) ∧
    AnyId.nil ≠ AnyId.int 0 := by
  refine ⟨?_, ?_, ?_, fun s hs => (by cases hs), fun i hi => (by cases hi),
    fun hn => (by cases hn)⟩
  · obtain ⟨a, h1, h2, -⟩ := AddModify_spec api [api.OidOption id o]
    exact ⟨a, h1, h2⟩
  · obtain ⟨a, h1, h2, -⟩ := AddModify_spec api [api.CloidOption cloid o]
    exact ⟨a, h1, h2⟩
  · obtain ⟨a, h1, h2, -⟩ := AddModify_spec api []
    exact ⟨a, h1, h2⟩

/-- C10, composed identifier steps. On every batch-modify facade,
`AddModify(OidOption(id, o1), CloidOption(cloid, o2))` appends the `Modify`
with identifier the string `cloid` and order `o2`, the options in the other
order append the one with identifier the number `id` and order `o1`, and a call
with any list of identifier steps ending in `last` does what the call with
`last` alone does: one identifier, that of the last step, is kept. -/
theorem later_identifier_wins {Client Sig : Type} (api : ExchangeBatchModifyAPI Client Sig)
    (id : Int) (cloid : String) (o1 o2 : Order) (init : List IdStep) (last : IdStep) :
    (∃ api2, api.AddModify [api.OidOption id o1, api.CloidOption cloid o2] = some api2 ∧
      api2.modifies = api.modifies ++ [⟨.str cloid, some o2⟩]) ∧
    (∃ api2, api.AddModify [api.CloidOption cloid o2, api.OidOption id o1] = some api2 ∧
      api2.modifies = api.modifies ++ [⟨.int id, some o1⟩]) ∧
    api.AddModify ((init ++ [last]).map (IdStep.option api))
      = api.AddModify [last.option api] := by
  refine ⟨?_, ?_, ?_⟩
  · obtain ⟨a, h1, h2, -⟩ := AddModify_spec api [api.OidOption id o1, api.CloidOption cloid o2]
    exact ⟨a, h1, h2⟩
  · obtain ⟨a, h1, h2, -⟩ := AddModify_spec api [api.CloidOption cloid o2, api.OidOption id o1]
    exact ⟨a, h1, h2⟩
  · simp only [ExchangeBatchModifyAPI.AddModify, foldl_idStep api init last]

set_option maxRecDepth 100000 in
/-- C8, omission parity of the two wire formats. Every field of every encoded
record declares the same key name and the same `omitempty` option in its
`json` and `msgpack` tags, so under the omission rule of the two formats the
field is emitted in the one encoding exactly when it is in the other, absent or
present; `vaultAddress`, `expiresAfter`, `grouping`, `builder`, `c`, `limit`
and `trigger` are omitted from both when absent and emitted in both when
present. -/
theorem omission_parity :
    (∀ r ∈ declarations, ∀ f ∈ r.fields,
      tagKey f.json = tagKey f.msgpack ∧ tagOmitEmpty f.json = tagOmitEmpty f.msgpack ∧
      ∀ absent : Bool, emitted f.json absent = emitted f.msgpack absent) ∧
    (∀ key ∈ ["vaultAddress", "expiresAfter", "grouping", "builder", "c", "limit", "trigger"],
      ∃ r ∈ declarations, ∃ f ∈ r.fields, tagKey f.json = key.toList ∧
        emitted f.json true = false ∧ emitted f.msgpack true = false ∧
        emitted f.json false = true ∧ emitted f.msgpack false = true) := by
  decide

/-- C11, scalar facade setters overwrite. On a facade whose envelope exists,
each of `Type`, `Grouping`, `Builder`, `Asset`, `IsCross` and `Leverage`
succeeds for every argument and leaves its field present with the argument
(`Builder` leaves the sub-record with exactly `B = b` and `F = f`, and
`Leverage(0)` leaves the leverage present with 0, not absent); two calls of the
same setter leave what the second call alone leaves. -/
theorem scalar_setters_overwrite {Client Sig : Type} (cl : Option Client) :
    (∀ (r : ExchangeReqCommon Sig ExchangeOrderAction) (t : String),
      ∃ api r2, (⟨cl, some r⟩ : ExchangeOrderAPI Client Sig).Typ t = some api ∧
        api.req = some r2 ∧ r2.Action.Typ = some t) ∧
    (∀ (r : ExchangeReqCommon Sig ExchangeOrderAction) (g : String),
      ∃ api r2, (⟨cl, some r⟩ : ExchangeOrderAPI Client Sig).Grouping g = some api ∧
        api.req = some r2 ∧ r2.Action.Grouping = some g) ∧
    (∀ (r : ExchangeReqCommon Sig ExchangeOrderAction) (b : String) (f : Int),
      ∃ api r2, (⟨cl, some r⟩ : ExchangeOrderAPI Client Sig).Builder b f = some api ∧
        api.req = some r2 ∧ r2.Action.Builder = some ⟨some b, some f⟩) ∧
    (∀ (r : ExchangeReqCommon Sig ExchangeUpdateLeverageAction) (a : Int),
      ∃ api r2, (⟨cl, some r⟩ : ExchangeUpdateLeverageAPI Client Sig).Asset a = some api ∧
        api.req = some r2 ∧ r2.Action.Asset = some a) ∧
    (∀ (r : ExchangeReqCommon Sig ExchangeUpdateLeverageAction) (x : Bool),
      ∃ api r2, (⟨cl, some r⟩ : ExchangeUpdateLeverageAPI Client Sig).IsCross x = some api ∧
        api.req = some r2 ∧ r2.Action.IsCross = some x) ∧
    (∀ (r : ExchangeReqCommon Sig ExchangeUpdateLeverageAction) (l : Int),
      ∃ api r2, (⟨cl, some r⟩ : ExchangeUpdateLeverageAPI Client Sig).Leverage l = some api ∧
        api.req = some r2 ∧ r2.Action.Leverage = some l) ∧
    (∀ r : ExchangeReqCommon Sig ExchangeUpdateLeverageAction,
      ∃ api r2, (⟨cl, some r⟩ : ExchangeUpdateLeverageAPI Client Sig).Leverage 0 = some api ∧
        api.req = some r2 ∧ r2.Action.Leverage = some 0 ∧ r2.Action.Leverage ≠ none) ∧
    (∀ (r : ExchangeReqCommon Sig ExchangeOrderAction) (t1 t2 : String),
      ((⟨cl, some r⟩ : ExchangeOrderAPI Client Sig).Typ t1).bind (fun api => api.Typ t2)
        = (⟨cl, some r⟩ : ExchangeOrderAPI Client Sig).Typ t2) ∧
    (∀ (r : ExchangeReqCommon Sig ExchangeOrderAction) (g1 g2 : String),
      ((⟨cl, some r⟩ : ExchangeOrderAPI Client Sig).Grouping g1).bind
          (fun api => api.Grouping g2)
        = (⟨cl, some r⟩ : ExchangeOrderAPI Client Sig).Grouping g2) ∧
    (∀ (r : ExchangeReqCommon Sig ExchangeOrderAction) (b1 b2 : String) (f1 f2 : Int),
      ((⟨cl, some r⟩ : ExchangeOrderAPI Client Sig).Builder b1 f1).bind
          (fun api => api.Builder b2 f2)
        = (⟨cl, some r⟩ : ExchangeOrderAPI Client Sig).Builder b2 f2) ∧
    (∀ (r : ExchangeReqCommon Sig ExchangeUpdateLeverageAction) (a1 a2 : Int),
      ((⟨cl, some r⟩ : ExchangeUpdateLeverageAPI Client Sig).Asset a1).bind
          (fun api => api.Asset a2)
        = (⟨cl, some r⟩ : ExchangeUpdateLeverageAPI Client Sig).Asset a2) ∧
    (∀ (r : ExchangeReqCommon Sig ExchangeUpdateLeverageAction) (x1 x2 : Bool),
      ((⟨cl, some r⟩ : ExchangeUpdateLeverageAPI Client Sig).IsCross x1).bind
          (fun api => api.IsCross x2)
        = (⟨cl, some r⟩ : ExchangeUpdateLeverageAPI Client Sig).IsCross x2) ∧
    (∀ (r : ExchangeReqCommon Sig ExchangeUpdateLeverageAction) (l1 l2 : Int),
      ((⟨cl, some r⟩ : ExchangeUpdateLeverageAPI Client Sig).Leverage l1).bind
          (fun api => api.Leverage l2)
        = (⟨cl, some r⟩ : ExchangeUpdateLeverageAPI Client Sig).Leverage l2) := by
  refine ⟨?_, ?_, ?_, ?_, ?_, ?_, ?_, ?_, ?_, ?_, ?_, ?_, ?_⟩
  · intro r t
    exact ⟨_, _, rfl, rfl, rfl⟩
  · intro r g
    exact ⟨_, _, rfl, rfl, rfl⟩
  · intro r b f
    exact ⟨_, _, rfl, rfl, rfl⟩
  · intro r a
    exact ⟨_, _, rfl, rfl, rfl⟩
  · intro r x
    exact ⟨_, _, rfl, rfl, rfl⟩
  · intro r l
    exact ⟨_, _, rfl, rfl, rfl⟩
  · intro r
    refine ⟨_, _, rfl, rfl, rfl, ?_⟩
    intro hn
    cases hn
  · intro r t1 t2
    rfl
  · intro r g1 g2
    rfl
  · intro r b1 b2 f1 f2
    rfl
  · intro r a1 a2
    rfl
  · intro r x1 x2
    rfl
  · intro r l1 l2
    rfl

/-- C16, one `Modify` per `AddModify` call. On every batch-modify facade a
call with any option list (empty, one or many) succeeds and appends exactly one
element, the empty `Modify` with the options applied left to right, so N calls
add N elements; a sequence of `AddOrders` calls adds as many orders as the
calls had arguments in total; and `AddOrders()` with no argument on a facade
without envelope leaves a present, empty list. -/
theorem one_modify_per_call {Client Sig : Type} :
    (∀ (api : ExchangeBatchModifyAPI Client Sig) (opts : List ModifyOption),
      ∃ api2, api.AddModify opts = some api2 ∧
        api2.modifies = api.modifies ++ [opts.foldl (fun m opt => opt m) {}] ∧
        api2.modifies.length = api.modifies.length + 1) ∧
    (∀ (api : ExchangeBatchModifyAPI Client Sig) (calls : List (List ModifyOption)),
      ∃ api2, ExchangeBatchModifyAPI.addAll calls api = some api2 ∧
        api2.modifies.length = api.modifies.length + calls.length) ∧
    (∀ (api : ExchangeOrderAPI Client Sig) (calls : List (List Order)),
      ∃ api2, ExchangeOrderAPI.addAll calls api = some api2 ∧
        api2.orders.length = api.orders.length + (calls.map List.length).sum) ∧
    (∀ cl : Option Client,
      ∃ api r, (⟨cl, none⟩ : ExchangeOrderAPI Client Sig).AddOrders [] = some api ∧
        api.req = some r ∧ r.Action.Orders = some []) := by
  refine ⟨?_, ?_, ?_, fun _ => ⟨_, _, rfl, rfl, rfl⟩⟩
  · intro api opts
    obtain ⟨a, h1, h2, -⟩ := AddModify_spec api opts
    exact ⟨a, h1, h2, by simp [h2]⟩
  · intro api calls
    obtain ⟨a, h1, h2⟩ := modifies_addAll calls api
    exact ⟨a, h1, by simp [h2]⟩
  · intro api calls
    obtain ⟨a, h1, h2⟩ := orders_addAll calls api
    exact ⟨a, h1, by simp [h2, List.length_flatten]⟩

/-- C17, facade frame. On a facade whose envelope exists, `AddOrders`,
`AddCancelOrder`, `AddCancelByCloid` and `AddModify` return the facade with
only the list field of the action replaced (by the old items followed by the
new ones): `Nonce`, `Signature`, `VaultAddress`, `ExpiresAfter` and the other
fields of the action are the old ones. `Type`, `Grouping` and `Builder` on the
order facade and `Asset`, `IsCross` and `Leverage` on the update-leverage facade
return the facade with only their own field replaced: the accumulated list and
every other field are the old ones. -/
theorem facade_frame {Client Sig : Type} (cl : Option Client) :
    (∀ (r : ExchangeReqCommon Sig ExchangeOrderAction) (orders : List Order),
      (⟨cl, some r⟩ : ExchangeOrderAPI Client Sig).AddOrders orders
        = some ⟨cl, some { r with Action := { r.Action with
            Orders := some (r.Action.Orders.getD [] ++ orders) } }⟩) ∧
    (∀ (r : ExchangeReqCommon Sig ExchangeCancelAction) (c : Cancel),
      (⟨cl, some r⟩ : ExchangeCancelAPI Client Sig).AddCancelOrder c
        = some ⟨cl, some { r with Action := { r.Action with
            Cancels := some (r.Action.Cancels.getD [] ++ [c]) } }⟩) ∧
    (∀ (r : ExchangeReqCommon Sig ExchangeCancelByCloidAction) (c : CancelByCloid),
      (⟨cl, some r⟩ : ExchangeCancelByCloidAPI Client Sig).AddCancelByCloid c
        = some ⟨cl, some { r with Action := { r.Action with
            Cancels := some (r.Action.Cancels.getD [] ++ [c]) } }⟩) ∧
    (∀ (r : ExchangeReqCommon Sig ExchangeBatchModifyAction) (opts : List ModifyOption),
      (⟨cl, some r⟩ : ExchangeBatchModifyAPI Client Sig).AddModify opts
        = some ⟨cl, some { r with Action := { r.Action with
            Modifies := some (r.Action.Modifies.getD []
              ++ [opts.foldl (fun m opt => opt m) {}]) } }⟩) ∧
    (∀ (r : ExchangeReqCommon Sig ExchangeOrderAction) (t : String),
      (⟨cl, some r⟩ : ExchangeOrderAPI Client Sig).Typ t
        = some ⟨cl, some { r with Action := { r.Action with Typ := some t } }⟩) ∧
    (∀ (r : ExchangeReqCommon Sig ExchangeOrderAction) (g : String),
      (⟨cl, some r⟩ : ExchangeOrderAPI Client Sig).Grouping g
        = some ⟨cl, some { r with Action := { r.Action with Grouping := some g } }⟩) ∧
    (∀ (r : ExchangeReqCommon Sig ExchangeOrderAction) (b : String) (f : Int),
      (⟨cl, some r⟩ : ExchangeOrderAPI Client Sig).Builder b f
        = some ⟨cl, some { r with Action := { r.Action with
            Builder := some ⟨some b, some f⟩ } }⟩) ∧
    (∀ (r : ExchangeReqCommon Sig ExchangeUpdateLeverageAction) (a : Int),
      (⟨cl, some r⟩ : ExchangeUpdateLeverageAPI Client Sig).Asset a
        = some ⟨cl, some { r with Action := { r.Action with Asset := some a } }⟩) ∧
    (∀ (r : ExchangeReqCommon Sig ExchangeUpdateLeverageAction) (x : Bool),
      (⟨cl, some r⟩ : ExchangeUpdateLeverageAPI Client Sig).IsCross x
        = some ⟨cl, some { r with Action := { r.Action with IsCross := some x } }⟩) ∧
    (∀ (r : ExchangeReqCommon Sig ExchangeUpdateLeverageAction) (l : Int),
      (⟨cl, some r⟩ : ExchangeUpdateLeverageAPI Client Sig).Leverage l
        = some ⟨cl, some { r with Action := { r.Action with Leverage := some l } }⟩) := by
  refine ⟨?_, ?_, ?_, ?_, ?_, ?_, ?_, ?_, ?_, ?_⟩
  · rintro ⟨⟨t, _ | os, g, b⟩, n, sg, va, ea⟩ orders <;> rfl
  · rintro ⟨⟨t, _ | cs⟩, n, sg, va, ea⟩ c <;> rfl
  · rintro ⟨⟨t, _ | cs⟩, n, sg, va, ea⟩ cc <;> rfl
  · rintro ⟨⟨t, _ | ms⟩, n, sg, va, ea⟩ opts <;> rfl
  · intro r t
    rfl
  · intro r g
    rfl
  · intro r b f
    rfl
  · intro r a
    rfl
  · intro r x
    rfl
  · intro r l
    rfl

/-! ### The order builder: permissive construction, frames, repeatable build -/

theorem effect_orderType {c : Call} (hc : c.isOrderType = false) (v : OrderValue) :
    (c.effect v).OrderType = v.OrderType := by
  cases c <;> first | rfl | simp [Call.isOrderType] at hc

theorem foldl_effect_orderType (cs : List Call) :
    ∀ v : OrderValue, (∀ c ∈ cs, c.isOrderType = false) →
      (cs.foldl (fun w c => c.effect w) v).OrderType = v.OrderType := by
  induction cs with
  | nil => intro v _; rfl
  | cons c cs ih =>
    intro v hall
    rw [List.foldl_cons, ih _ (fun d hd => hall d (List.mem_cons_of_mem _ hd)),
      effect_orderType (hall c (List.mem_cons_self _ _))]

theorem viewOrderType_none {h : Heap} {p : Ptr} (hv : viewOrderType h p = some none) :
    p = none := by
  cases p with
  | none => rfl
  | some t =>
    obtain ⟨_, _, _, _, _, _, hh⟩ := viewOrderType_some_iff.1 hv
    cases hh

theorem Build_fresh (h : Heap) :
    Build (NewOrderBuilder h).1 (NewOrderBuilder h).2 = some ({}, (NewOrderBuilder h).2) := by
  simp [Build, copyField, copyOrderType, orderOf, deref, NewOrderBuilder, alloc, Region.cells,
    Region.put]

/-- C12, permissive construction. From `NewOrderBuilder()` in any store, every
sequence of setter calls with any arguments succeeds, and `Build` then
succeeds and returns a well-formed order; when the sequence holds no `LimitTif`
and no `Trigger` call the returned order has a nil order-type pointer and an
absent order type; `Build` on the new builder itself returns the order with all
seven fields nil. -/
theorem permissive_construction (h : Heap) (cs : List Call) :
    (∃ h1, runCalls (NewOrderBuilder h).1 cs (NewOrderBuilder h).2 = some h1 ∧
      ∃ o h2 v, Build (NewOrderBuilder h).1 h1 = some (o, h2) ∧ viewOrder h2 o = some v ∧
        ((∀ c ∈ cs, c.isOrderType = false) → o.OrderType = none ∧ v.OrderType = none)) ∧
    Build (NewOrderBuilder h).1 (NewOrderBuilder h).2
      = some (⟨none, none, none, none, none, none, none⟩, (NewOrderBuilder h).2) := by
  refine ⟨?_, Build_fresh h⟩
  obtain ⟨h1, hrun, hv1⟩ := runCalls_spec cs (NewOrderBuilder_view h)
  obtain ⟨o, h2, hb, hvo, -⟩ := Build_frame hv1
  refine ⟨h1, hrun, o, h2, _, hb, hvo, fun hall => ?_⟩
  have hot := foldl_effect_orderType cs ⟨none, none, none, none, none, none, none⟩ hall
  refine ⟨?_, hot⟩
  have h6 := (viewOrder_some_iff.1 hvo).2.2.2.2.2.1
  rw [hot] at h6
  exact viewOrderType_none h6

/-- C14, setter frame. On every well-formed builder with contents `v`, each
scalar setter succeeds and leaves the contents `v` with only its own field
replaced by the argument, and `LimitTif` and `Trigger` succeed and leave `v`
with only the order type replaced; so the order built before a call has the
contents `v`, keeps them, and the order built after the call has the contents
`v` with that one field replaced. -/
theorem setter_frame (ob : OrderBuilder) (h : Heap) (v : OrderValue)
    (hv : viewBuilder h ob = some v) :
    (∀ x, ∃ h2, Asset ob x h = some h2 ∧
      viewBuilder h2 ob = some { v with Asset := some x }) ∧
    (∀ x, ∃ h2, IsBuy ob x h = some h2 ∧
      viewBuilder h2 ob = some { v with IsBuy := some x }) ∧
    (∀ x, ∃ h2, Price ob x h = some h2 ∧
      viewBuilder h2 ob = some { v with Price := some x }) ∧
    (∀ x, ∃ h2, Size ob x h = some h2 ∧
      viewBuilder h2 ob = some { v with Size := some x }) ∧
    (∀ x, ∃ h2, ReduceOnly ob x h = some h2 ∧
      viewBuilder h2 ob = some { v with ReduceOnly := some x }) ∧
    (∀ x, ∃ h2, ClientOrderId ob x h = some h2 ∧
      viewBuilder h2 ob = some { v with ClientOrderId := some x }) ∧
    (∀ t, ∃ h2, LimitTif ob t h = some h2 ∧
      viewBuilder h2 ob = some { v with OrderType := some ⟨some ⟨some t⟩, none⟩ }) ∧
    (∀ m px tp, ∃ h2, Trigger ob m px tp h = some h2 ∧
      viewBuilder h2 ob
        = some { v with OrderType := some ⟨none, some ⟨some px, some m, some tp⟩⟩ }) ∧
    (∀ c : Call, ∃ o1 g1 g2 o2 g3, Build ob h = some (o1, g1) ∧ c.run ob g1 = some g2 ∧
      Build ob g2 = some (o2, g3) ∧ viewOrder g1 o1 = some v ∧ viewOrder g3 o1 = some v ∧
      viewOrder g3 o2 = some (c.effect v)) := by
  refine ⟨?_, ?_, ?_, ?_, ?_, ?_, ?_, ?_, ?_⟩
  · intro x
    obtain ⟨h2, hr, hv2, -⟩ := Asset_spec x hv
    exact ⟨h2, hr, hv2⟩
  · intro x
    obtain ⟨h2, hr, hv2, -⟩ := IsBuy_spec x hv
    exact ⟨h2, hr, hv2⟩
  · intro x
    obtain ⟨h2, hr, hv2, -⟩ := Price_spec x hv
    exact ⟨h2, hr, hv2⟩
  · intro x
    obtain ⟨h2, hr, hv2, -⟩ := Size_spec x hv
    exact ⟨h2, hr, hv2⟩
  · intro x
    obtain ⟨h2, hr, hv2, -⟩ := ReduceOnly_spec x hv
    exact ⟨h2, hr, hv2⟩
  · intro x
    obtain ⟨h2, hr, hv2, -⟩ := ClientOrderId_spec x hv
    exact ⟨h2, hr, hv2⟩
  · intro t
    obtain ⟨h2, hr, hv2, -⟩ := LimitTif_spec t hv
    exact ⟨h2, hr, hv2⟩
  · intro m px tp
    obtain ⟨h2, hr, hv2, -⟩ := Trigger_spec m px tp hv
    exact ⟨h2, hr, hv2⟩
  · intro c
    obtain ⟨o1, g1, hb1, hvo1, hvb1, hd1⟩ := Build_frame hv
    obtain ⟨g2, hr, hvb2, hvo2, -, -, -⟩ := runCalls_frame [c] hvb1 hvo1 hd1
    obtain ⟨o2, g3, hb2, he3, hvo3, -⟩ := Build_spec hvb2
    have hkeep : viewOrder g3 o1 = viewOrder g2 o1 :=
      (viewOrder_agree (he3.agreeOn (has_of_viewOrder hvo2))).1
    refine ⟨o1, g1, g2, o2, g3, hb1, ?_, hb2, hvo1, hkeep.trans hvo2, hvo3⟩
    simpa [runCalls, Option.bind_eq_some] using hr

theorem setter_frame_witness :
    viewBuilder exampleHeap exampleBuilder = some exampleValue ∧
    ((∀ x, ∃ h2, Asset exampleBuilder x exampleHeap = some h2 ∧
      viewBuilder h2 exampleBuilder = some { exampleValue with Asset := some x }) ∧
    (∀ x, ∃ h2, IsBuy exampleBuilder x exampleHeap = some h2 ∧
      viewBuilder h2 exampleBuilder = some { exampleValue with IsBuy := some x }) ∧
    (∀ x, ∃ h2, Price exampleBuilder x exampleHeap = some h2 ∧
      viewBuilder h2 exampleBuilder = some { exampleValue with Price := some x }) ∧
    (∀ x, ∃ h2, Size exampleBuilder x exampleHeap = some h2 ∧
      viewBuilder h2 exampleBuilder = some { exampleValue with Size := some x }) ∧
    (∀ x, ∃ h2, ReduceOnly exampleBuilder x exampleHeap = some h2 ∧
      viewBuilder h2 exampleBuilder = some { exampleValue with ReduceOnly := some x }) ∧
    (∀ x, ∃ h2, ClientOrderId exampleBuilder x exampleHeap = some h2 ∧
      viewBuilder h2 exampleBuilder = some { exampleValue with ClientOrderId := some x }) ∧
    (∀ t, ∃ h2, LimitTif exampleBuilder t exampleHeap = some h2 ∧
      viewBuilder h2 exampleBuilder
        = some { exampleValue with OrderType := some ⟨some ⟨some t⟩, none⟩ }) ∧
    (∀ m px tp, ∃ h2, Trigger exampleBuilder m px tp exampleHeap = some h2 ∧
      viewBuilder h2 exampleBuilder
        = some { exampleValue with
            OrderType := some ⟨none, some ⟨some px, some m, some tp⟩⟩ }) ∧
    (∀ c : Call, ∃ o1 g1 g2 o2 g3, Build exampleBuilder exampleHeap = some (o1, g1) ∧
      c.run exampleBuilder g1 = some g2 ∧ Build exampleBuilder g2 = some (o2, g3) ∧
      viewOrder g1 o1 = some exampleValue ∧ viewOrder g3 o1 = some exampleValue ∧
      viewOrder g3 o2 = some (c.effect exampleValue))) :=
  ⟨by decide, setter_frame exampleBuilder exampleHeap exampleValue (by decide)⟩

/-- C15, `Build` is read-only and repeatable. On every well-formed builder
with contents `v`, `Build` succeeds and keeps every cell of the builder, so the
builder still has the contents `v`; a second `Build` right after succeeds too,
both returned orders have the contents `v`, and no cell reachable from one is
reachable from the other. -/
theorem build_repeatable (ob : OrderBuilder) (h : Heap) (v : OrderValue)
    (hv : viewBuilder h ob = some v) :
    ∃ o1 h1 o2 h2, Build ob h = some (o1, h1) ∧ Build ob h1 = some (o2, h2) ∧
      AgreeOn (· ∈ reachBuilder h ob) h h1 ∧ reachBuilder h1 ob = reachBuilder h ob ∧
      viewBuilder h1 ob = some v ∧ viewBuilder h2 ob = some v ∧
      viewOrder h1 o1 = some v ∧ viewOrder h2 o1 = some v ∧ viewOrder h2 o2 = some v ∧
      ∀ loc ∈ reachOrder h2 o1, loc ∉ reachOrder h2 o2 := by
  obtain ⟨o1, h1, r1, e1, w1, -⟩ := Build_spec hv
  have hag1 : AgreeOn (· ∈ reachBuilder h ob) h h1 := e1.agreeOn (has_of_viewBuilder hv)
  obtain ⟨b1, b2⟩ := viewBuilder_agree hag1
  have hvb1 : viewBuilder h1 ob = some v := b1.trans hv
  obtain ⟨o2, h2, r2, e2, w2, f2⟩ := Build_spec hvb1
  have hag2 : AgreeOn (· ∈ reachBuilder h1 ob) h1 h2 := e2.agreeOn (has_of_viewBuilder hvb1)
  have hvb2 : viewBuilder h2 ob = some v := (viewBuilder_agree hag2).1.trans hvb1
  obtain ⟨k1, k2⟩ := viewOrder_agree (e2.agreeOn (has_of_viewOrder w1))
  refine ⟨o1, h1, o2, h2, r1, r2, hag1, b2, hvb1, hvb2, w1, k1.trans w1, w2, ?_⟩
  intro loc hl hl2
  rw [k2] at hl
  exact f2 loc hl2 (has_of_viewOrder w1 loc hl)

theorem build_repeatable_witness :
    viewBuilder exampleHeap exampleBuilder = some exampleValue ∧
    ∃ o1 h1 o2 h2, Build exampleBuilder exampleHeap = some (o1, h1) ∧
      Build exampleBuilder h1 = some (o2, h2) ∧
      AgreeOn (· ∈ reachBuilder exampleHeap exampleBuilder) exampleHeap h1 ∧
      reachBuilder h1 exampleBuilder = reachBuilder exampleHeap exampleBuilder ∧
      viewBuilder h1 exampleBuilder = some exampleValue ∧
      viewBuilder h2 exampleBuilder = some exampleValue ∧
      viewOrder h1 o1 = some exampleValue ∧ viewOrder h2 o1 = some exampleValue ∧
      viewOrder h2 o2 = some exampleValue ∧
      ∀ loc ∈ reachOrder h2 o1, loc ∉ reachOrder h2 o2 :=
  ⟨by decide, build_repeatable exampleBuilder exampleHeap exampleValue (by decide)⟩

theorem permissive_construction_witness :
    ∃ h1 o h2 v,
      runCalls (NewOrderBuilder {}).1 [Call.Asset (-1), Call.Price ""] (NewOrderBuilder {}).2
        = some h1 ∧
      Build (NewOrderBuilder {}).1 h1 = some (o, h2) ∧ viewOrder h2 o = some v ∧
      o.OrderType = none ∧ v.OrderType = none := by
  obtain ⟨⟨h1, hr, o, h2, v, hb, hvo, himp⟩, -⟩ :=
    permissive_construction {} [Call.Asset (-1), Call.Price ""]
  exact ⟨h1, o, h2, v, hr, hb, hvo, himp (by decide)⟩

/-! ### Encoding -/

theorem encodeFields_error_iff (fs : List FieldState) :
    (∃ e, encodeFields fs = .error e) ↔ ∃ f ∈ fs, f.absent = true ∧ f.required = true := by
  induction fs with
  | nil => simp [encodeFields]
  | cons f fs ih =>
    by_cases hf : (f.absent && f.required) = true
    · have hf2 : f.absent = true ∧ f.required = true := by simpa using hf
      simp [encodeFields, hf, hf2.1, hf2.2]
    · have hf2 : ¬ (f.absent = true ∧ f.required = true) := by simpa using hf
      cases hr : encodeFields fs with
      | error e =>
        obtain ⟨g, hg, hg2⟩ := ih.1 ⟨e, hr⟩
        simp only [encodeFields, hf, hr]
        exact ⟨fun _ => ⟨g, List.mem_cons_of_mem _ hg, hg2⟩, fun _ => ⟨e, by simp⟩⟩
      | ok ks =>
        have hno : ¬ ∃ g ∈ fs, g.absent = true ∧ g.required = true := by
          intro hex
          obtain ⟨e, he⟩ := ih.2 hex
          rw [hr] at he
          cases he
        simp only [encodeFields, hf, hr]
        constructor
        · rintro ⟨e, he⟩
          simp at he
        · rintro ⟨g, hg, hg2⟩
          rcases List.mem_cons.1 hg with rfl | hg
          · exact absurd hg2 hf2
          · exact absurd ⟨g, hg, hg2⟩ hno

theorem envelope_required {Sig T : Type} (r : ExchangeReqCommon Sig T) :
    (∃ f ∈ envelopeFields r, f.absent = true ∧ f.required = true) ↔
      (r.Nonce = none ∨ r.Signature = none) := by
  have hd : recordDecl "ExchangeReqCommon"
      = [⟨"Action", "action", "action"⟩, ⟨"Nonce", "nonce", "nonce"⟩,
         ⟨"Signature", "signature", "signature"⟩,
         ⟨"VaultAddress", "vaultAddress,omitempty", "vaultAddress,omitempty"⟩,
         ⟨"ExpiresAfter", "expiresAfter,omitempty", "expiresAfter,omitempty"⟩] := by
    decide
  have t1 : tagOmitEmpty "nonce" = false := by decide
  have t2 : tagOmitEmpty "signature" = false := by decide
  have t3 : tagOmitEmpty "vaultAddress,omitempty" = true := by decide
  have t4 : tagOmitEmpty "expiresAfter,omitempty" = true := by decide
  simp [envelopeFields, hd, FieldState.required, t1, t2, t3, t4]

theorem orderAction_required (a : ExchangeOrderAction) :
    (∃ f ∈ orderActionFields a, f.absent = true ∧ f.required = true) ↔
      (a.Typ = none ∨ a.Orders = none) := by
  have hd : recordDecl "ExchangeOrderAction"
      = [⟨"Type", "type", "type"⟩, ⟨"Orders", "orders", "orders"⟩,
         ⟨"Grouping", "grouping,omitempty", "grouping,omitempty"⟩,
         ⟨"Builder", "builder,omitempty", "builder,omitempty"⟩] := by
    decide
  have t1 : tagOmitEmpty "type" = false := by decide
  have t2 : tagOmitEmpty "orders" = false := by decide
  have t3 : tagOmitEmpty "grouping,omitempty" = true := by decide
  have t4 : tagOmitEmpty "builder,omitempty" = true := by decide
  simp [orderActionFields, hd, FieldState.required, t1, t2, t3, t4]

/-- C13, the encoding-time error, on the encoder modelled from the spec with the
required fields read off the declared tags. Encoding an envelope fails exactly
when `Nonce` or `Signature` is absent or a required field of the action is
absent (for the order action: `Type` or `Orders`); every failure is a
missing-required-field error; so an encoding that succeeds has a nonce and a
signature that were set, and an envelope whose `Nonce` was never set is not
encoded. `Action` is held by value and cannot be absent. -/
theorem missing_required_field {Sig T : Type} (actionFields : T → List FieldState)
    (r : ExchangeReqCommon Sig T) :
    ((∃ e, encodeEnvelope actionFields r = .error e) ↔
      (r.Nonce = none ∨ r.Signature = none ∨
        ∃ f ∈ actionFields r.Action, f.absent = true ∧ f.required = true)) ∧
    (∀ e, encodeEnvelope actionFields r = .error e →
      ∃ field, e = .missingRequiredField field) ∧
    (∀ ks, encodeEnvelope actionFields r = .ok ks → r.Nonce ≠ none ∧ r.Signature ≠ none) ∧
    (∀ a : ExchangeOrderAction,
      (∃ f ∈ orderActionFields a, f.absent = true ∧ f.required = true) ↔
        (a.Typ = none ∨ a.Orders = none)) := by
  have hiff : (∃ e, encodeEnvelope actionFields r = .error e) ↔
      (r.Nonce = none ∨ r.Signature = none ∨
        ∃ f ∈ actionFields r.Action, f.absent = true ∧ f.required = true) := by
    rw [encodeEnvelope, encodeFields_error_iff, ← or_assoc, ← envelope_required r]
    constructor
    · rintro ⟨f, hf, hf2⟩
      rcases List.mem_append.1 hf with h1 | h1
      · exact Or.inl ⟨f, h1, hf2⟩
      · exact Or.inr ⟨f, h1, hf2⟩
    · rintro (⟨f, h1, hf2⟩ | ⟨f, h1, hf2⟩)
      · exact ⟨f, List.mem_append.2 (Or.inl h1), hf2⟩
      · exact ⟨f, List.mem_append.2 (Or.inr h1), hf2⟩
  refine ⟨hiff, ?_, ?_, orderAction_required⟩
  · intro e _
    cases e with
    | missingRequiredField field => exact ⟨field, rfl⟩
  · intro ks hk
    constructor
    · intro hn
      obtain ⟨e, he⟩ := hiff.2 (Or.inl hn)
      rw [hk] at he
      cases he
    · intro hn
      obtain ⟨e, he⟩ := hiff.2 (Or.inr (Or.inl hn))
      rw [hk] at he
      cases he

end Hyperliquid
